import Mathlib

/-!
A verification development for the core of the laniakea puzzle engine
(a generator and solver for "Galaxies" puzzles on a rectangular grid).

The Rust sources are shallowly embedded below.  Conventions used
throughout the embedding:

* `usize` / `i32` values become `Nat` / `Int`.
* Rust `HashSet` values become `Finset`; where the source iterates a
  hash set in an unspecified order, the embedding iterates in the
  lexicographic order on positions (a fixed determinization of the
  unspecified order); all properties proved below are insensitive to
  that choice.
* fallible code (indexing that can panic) returns `Option`; `none`
  models a panic.
* the aesthetic score of the generator is a 64-bit float in the source
  (built from `powf 3.5` and `atan2`); floats have no faithful shallow
  embedding, so every function that consumes a score is parametrised
  over an arbitrary score function into an arbitrary linearly ordered
  type, and the theorems below are proved for every such function, in
  particular for the actual one.
* the random number generator (`StdRng`) is abstracted as a stream of
  natural numbers `Nat → Nat` together with a cursor; each random
  draw consumes one element of the stream.  Theorems quantify over all
  streams, hence over all realizable seeds.
-/

namespace Laniakea

/-- A grid position, `(row, column)` of signed integers
(`Position` in the source; the file `position.rs` is absent from the
sources, so the basic accessors are modelled from the spec, §3/§4.1:
a pair of signed integers with four orthogonal neighbour accessors). -/
@[ext]
structure Position where
  row : Int
  column : Int
deriving DecidableEq

namespace Position

/-- Modelled from the spec: the neighbour accessor `up`. -/
def up (p : Position) : Position := ⟨p.row - 1, p.column⟩

/-- Modelled from the spec: the neighbour accessor `down`. -/
def down (p : Position) : Position := ⟨p.row + 1, p.column⟩

/-- Modelled from the spec: the neighbour accessor `left`. -/
def left (p : Position) : Position := ⟨p.row, p.column - 1⟩

/-- Modelled from the spec: the neighbour accessor `right`. -/
def right (p : Position) : Position := ⟨p.row, p.column + 1⟩

/-- Modelled from the spec: the four orthogonal neighbours of a
position (`Position::adjacent` in the source). -/
def adjacent (p : Position) : List Position := [p.up, p.down, p.left, p.right]

/-- Modelled from the spec: positions are adjacent iff they differ by
exactly one in exactly one coordinate. -/
def isAdjacentTo (p q : Position) : Prop := q ∈ p.adjacent

instance (p q : Position) : Decidable (p.isAdjacentTo q) := by
  unfold isAdjacentTo; infer_instance

/-- Modelled from the spec: the mirror of position `p` through the
half-step center `c` is `(c.row - p.row, c.column - p.column)`
(`Position::mirror_position`, called on the center). -/
def mirrorPosition (c p : Position) : Position := ⟨c.row - p.row, c.column - p.column⟩

/-- The lexicographic order on positions (the derived `Ord` of the
source, used to canonicalize borders and to determinize set
iteration). -/
def toProd (p : Position) : Int ×ₗ Int := toLex (p.row, p.column)

theorem toProd_injective : Function.Injective toProd := by
  intro p q h
  cases p; cases q
  simpa [toProd, toLex, Prod.ext_iff] using h

instance linOrd : LinearOrder Position := LinearOrder.lift' toProd toProd_injective

end Position

theorem Position.ext_rc {p q : Position} (hr : p.row = q.row) (hc : p.column = q.column) :
    p = q := by cases p; cases q; simp_all

theorem Position.mem_adjacent_iff {p q : Position} :
    q ∈ p.adjacent ↔
      (q.row = p.row - 1 ∧ q.column = p.column) ∨ (q.row = p.row + 1 ∧ q.column = p.column) ∨
      (q.row = p.row ∧ q.column = p.column - 1) ∨ (q.row = p.row ∧ q.column = p.column + 1) := by
  simp [Position.adjacent, Position.up, Position.down, Position.left, Position.right,
    Position.ext_iff]

/-- Adjacency is symmetric. -/
theorem Position.adjacent_comm {p q : Position} :
    q ∈ p.adjacent ↔ p ∈ q.adjacent := by
  simp only [Position.mem_adjacent_iff]
  omega

/-- Mirroring through a common center preserves adjacency. -/
theorem Position.mirror_adjacent (c : Position) {p q : Position} (h : q ∈ p.adjacent) :
    c.mirrorPosition q ∈ (c.mirrorPosition p).adjacent := by
  simp only [Position.mem_adjacent_iff, Position.mirrorPosition] at h ⊢
  omega

theorem Position.mirror_mirror (c p : Position) :
    c.mirrorPosition (c.mirrorPosition p) = p := by
  simp [Position.mirrorPosition]

/-- Proof machinery: the transpose (row/column swap) of a position,
used to transfer facts between the two axes. -/
def Position.transpose (p : Position) : Position := ⟨p.column, p.row⟩

/-- The rows of the footprint of a half-step center coordinate, exactly
as `Galaxy::contains_center` enumerates them: `[r/2]` for an even
coordinate, `[r/2, r/2 + 1]` for an odd one (Rust `/` truncates, which
is `Int.tdiv`). -/
def footprintCoords (r : Int) : List Int :=
  if r % 2 = 0 then [r.tdiv 2] else [r.tdiv 2, r.tdiv 2 + 1]

/-- The footprint cells of a half-step center: the product of the row
and column coordinate lists (the cells that `Galaxy::contains_center`
requires, equally the cells of `get_center_placement().get_positions()`
described by the spec §3). -/
def Position.footprint (c : Position) : List Position :=
  (footprintCoords c.row).flatMap fun a => (footprintCoords c.column).map fun b => ⟨a, b⟩

theorem Position.mem_footprint {c q : Position} :
    q ∈ c.footprint ↔ q.row ∈ footprintCoords c.row ∧ q.column ∈ footprintCoords c.column := by
  cases q with
  | mk qr qc =>
    simp only [Position.footprint, List.mem_flatMap, List.mem_map]
    constructor
    · rintro ⟨a, ha, b, hb, h⟩
      injection h with h1 h2; subst h1; subst h2; exact ⟨ha, hb⟩
    · rintro ⟨ha, hb⟩
      exact ⟨qr, ha, qc, hb, rfl⟩

/-- A galaxy: a set of cell positions (`Galaxy` in `galaxy.rs`, whose
`HashSet<Position>` becomes a `Finset`). -/
structure Galaxy where
  positions : Finset Position
deriving DecidableEq

namespace Galaxy

/-- `Galaxy::size`. -/
def size (g : Galaxy) : Nat := g.positions.card

/-- `Galaxy::contains_position`. -/
def containsPosition (g : Galaxy) (p : Position) : Prop := p ∈ g.positions

instance (g : Galaxy) (p : Position) : Decidable (g.containsPosition p) := by
  unfold containsPosition; infer_instance

/-- `Galaxy::center`: the half-step center `(r0 + r1, c0 + c1)` of the
bounding rectangle; `(0, 0)` for the empty galaxy (documented in the
source). -/
def center (g : Galaxy) : Position :=
  if h : g.positions.Nonempty then
    let rows := g.positions.image Position.row
    let cols := g.positions.image Position.column
    ⟨rows.min' (h.image _) + rows.max' (h.image _),
     cols.min' (h.image _) + cols.max' (h.image _)⟩
  else ⟨0, 0⟩

/-- `Galaxy::mirror_position`: mirror through the galaxy's own center. -/
def mirrorPosition (g : Galaxy) (p : Position) : Position :=
  g.center.mirrorPosition p

/-- `Galaxy::is_symmetric`: every cell's mirror through the center is a
cell. -/
def IsSymmetric (g : Galaxy) : Prop :=
  ∀ p ∈ g.positions, g.mirrorPosition p ∈ g.positions

instance (g : Galaxy) : Decidable g.IsSymmetric := by
  unfold IsSymmetric; infer_instance

/-- `Galaxy::contains_center`: every footprint cell of the center
belongs to the galaxy. -/
def ContainsCenter (g : Galaxy) : Prop :=
  ∀ q ∈ g.center.footprint, q ∈ g.positions

instance (g : Galaxy) : Decidable g.ContainsCenter := by
  unfold ContainsCenter; infer_instance

/-- `Galaxy::get_neighbours`: adjacent positions belonging to the
galaxy. -/
def getNeighbours (g : Galaxy) (p : Position) : List Position :=
  p.adjacent.filter fun n => n ∈ g.positions

/-- The BFS worker of `Galaxy::is_connected`: pop the queue, move the
still-remaining neighbours of the popped cell out of `remaining` and
push them.  The fuel argument makes the recursion structural; the
initial fuel `card + 1` is enough (each step removes as many cells
from `remaining` as it pushes, and pops one). -/
def bfsAux : Nat → List Position → Finset Position → Finset Position
  | 0, _, rem => rem
  | _ + 1, [], rem => rem
  | f + 1, c :: q, rem =>
      let ns := c.adjacent.filter fun p => p ∈ rem
      bfsAux f (q ++ ns) (rem \ ns.toFinset)

/-- `Galaxy::is_connected`: BFS from one cell (the source takes an
arbitrary hash-set element; the embedding canonically takes the
minimum) reaches every cell; the empty galaxy is connected. -/
def isConnected (g : Galaxy) : Bool :=
  if h : g.positions.Nonempty then
    let first := g.positions.min' h
    decide (bfsAux (g.positions.card + 1) [first] (g.positions.erase first) = ∅)
  else true

/-- `Galaxy::is_empty`. -/
def isEmpty (g : Galaxy) : Prop := g.positions = ∅

instance (g : Galaxy) : Decidable g.isEmpty := by
  unfold isEmpty; infer_instance

/-- `Galaxy::is_valid`: non-empty, contains its footprint, connected,
symmetric. -/
def IsValid (g : Galaxy) : Prop :=
  ¬g.isEmpty ∧ g.ContainsCenter ∧ g.isConnected = true ∧ g.IsSymmetric

instance (g : Galaxy) : Decidable g.IsValid := by
  unfold IsValid; infer_instance

/-- `Galaxy::is_empty_or_valid`. -/
def IsEmptyOrValid (g : Galaxy) : Prop := g.isEmpty ∨ g.IsValid

instance (g : Galaxy) : Decidable g.IsEmptyOrValid := by
  unfold IsEmptyOrValid; infer_instance

/-- `Galaxy::with_position`: a copy with `p` inserted. -/
def withPosition (g : Galaxy) (p : Position) : Galaxy := ⟨insert p g.positions⟩

/-- `Galaxy::without_position` / `remove_position`: a copy with `p`
removed. -/
def withoutPosition (g : Galaxy) (p : Position) : Galaxy := ⟨g.positions.erase p⟩

end Galaxy

/-- Adjacency restricted to a set of cells. -/
def AdjIn (s : Finset Position) (a b : Position) : Prop :=
  a ∈ s ∧ b ∈ s ∧ b ∈ a.adjacent

/-- Reachability inside a set of cells (reflexive-transitive closure of
`AdjIn`). -/
def ReachIn (s : Finset Position) : Position → Position → Prop :=
  Relation.ReflTransGen (AdjIn s)

theorem AdjIn.flip_adj {s : Finset Position} {a b : Position} (h : AdjIn s a b) : AdjIn s b a :=
  ⟨h.2.1, h.1, Position.adjacent_comm.mp h.2.2⟩

theorem ReachIn.flip_reach {s : Finset Position} {a b : Position} (h : ReachIn s a b) :
    ReachIn s b a :=
  Relation.ReflTransGen.symmetric (fun _ _ hab => AdjIn.flip_adj hab) h

theorem ReachIn.mono {s t : Finset Position} (hst : s ⊆ t) {a b : Position}
    (h : ReachIn s a b) : ReachIn t a b := by
  induction h with
  | refl => exact Relation.ReflTransGen.refl
  | tail _ hab ih => exact Relation.ReflTransGen.tail ih ⟨hst hab.1, hst hab.2.1, hab.2.2⟩

theorem Position.adjacent_nodup (p : Position) : p.adjacent.Nodup := by
  simp [Position.adjacent, Position.up, Position.down, Position.left, Position.right,
    Position.ext_iff]
  omega

/-- The BFS worker, run with enough fuel from a state satisfying the
usual invariants, returns a subset of `remaining` whose complement in
`s` is exactly the set of cells reachable from the root: everything
outside the result is reachable, and the complement is closed under
adjacency. -/
theorem Galaxy.bfsAux_invariant (s : Finset Position) (root : Position) :
    ∀ (f : Nat) (q : List Position) (rem : Finset Position),
      rem ⊆ s →
      root ∉ rem →
      rem.card + q.length ≤ f →
      (∀ x ∈ q, x ∈ s ∧ x ∉ rem) →
      (∀ v ∈ s, v ∉ rem → ReachIn s root v) →
      (∀ v ∈ s, v ∉ rem → v ∉ q → ∀ n ∈ v.adjacent, n ∈ s → n ∉ rem) →
      Galaxy.bfsAux f q rem ⊆ rem ∧
      (∀ v ∈ s, v ∉ Galaxy.bfsAux f q rem → ReachIn s root v) ∧
      (∀ v ∈ s, v ∉ Galaxy.bfsAux f q rem →
        ∀ n ∈ v.adjacent, n ∈ s → n ∉ Galaxy.bfsAux f q rem) := by
  intro f
  induction f with
  | zero =>
    intro q rem hsub _ hcard hq hreach hclosed
    have hq0 : q.length = 0 := by omega
    have hrem0 : rem = ∅ := Finset.card_eq_zero.mp (by omega)
    subst hrem0
    rw [List.length_eq_zero] at hq0
    subst hq0
    refine ⟨Finset.Subset.refl _, ?_, ?_⟩
    · intro v hv _; exact hreach v hv (Finset.not_mem_empty v)
    · intro v hv _ n hn hns
      exact hclosed v hv (Finset.not_mem_empty v) (List.not_mem_nil v) n hn hns
  | succ f ih =>
    intro q rem hsub hroot hcard hq hreach hclosed
    match q with
    | [] =>
      simp only [Galaxy.bfsAux]
      refine ⟨Finset.Subset.refl _, ?_, ?_⟩
      · intro v hv hvr; exact hreach v hv hvr
      · intro v hv hvr n hn hns
        exact hclosed v hv hvr (List.not_mem_nil v) n hn hns
    | c :: q' =>
      simp only [Galaxy.bfsAux]
      set ns := c.adjacent.filter (fun p => p ∈ rem) with hns_def
      have hns_sub_adj : ∀ x ∈ ns, x ∈ c.adjacent ∧ x ∈ rem := by
        intro x hx
        have := List.mem_filter.mp hx
        exact ⟨this.1, by simpa using this.2⟩
      have hns_nodup : ns.Nodup := (Position.adjacent_nodup c).filter _
      have hns_fin_sub : ns.toFinset ⊆ rem := by
        intro x hx
        exact (hns_sub_adj x (List.mem_toFinset.mp hx)).2
      have hcard' : (rem \ ns.toFinset).card = rem.card - ns.length := by
        rw [Finset.card_sdiff hns_fin_sub, List.toFinset_card_of_nodup hns_nodup]
      have hlen_le : ns.length ≤ rem.card := by
        have := Finset.card_le_card hns_fin_sub
        rwa [List.toFinset_card_of_nodup hns_nodup] at this
      have hc := hq c (List.mem_cons_self c q')
      -- invariants at the new state
      have h1 : rem \ ns.toFinset ⊆ s := fun x hx => hsub (Finset.mem_sdiff.mp hx).1
      have h2 : root ∉ rem \ ns.toFinset := fun hx => hroot (Finset.mem_sdiff.mp hx).1
      have h3 : (rem \ ns.toFinset).card + (q' ++ ns).length ≤ f := by
        rw [hcard', List.length_append]
        simp only [List.length_cons] at hcard
        omega
      have h4 : ∀ x ∈ q' ++ ns, x ∈ s ∧ x ∉ rem \ ns.toFinset := by
        intro x hx
        rcases List.mem_append.mp hx with hx | hx
        · have := hq x (List.mem_cons_of_mem c hx)
          exact ⟨this.1, fun hmem => this.2 (Finset.mem_sdiff.mp hmem).1⟩
        · refine ⟨hsub (hns_sub_adj x hx).2, fun hmem => ?_⟩
          exact (Finset.mem_sdiff.mp hmem).2 (List.mem_toFinset.mpr hx)
      have h5 : ∀ v ∈ s, v ∉ rem \ ns.toFinset → ReachIn s root v := by
        intro v hv hvr
        by_cases hvrem : v ∈ rem
        · have hv_ns : v ∈ ns.toFinset := by
            by_contra hvn
            exact hvr (Finset.mem_sdiff.mpr ⟨hvrem, hvn⟩)
          have hv_adj : v ∈ c.adjacent := (hns_sub_adj v (List.mem_toFinset.mp hv_ns)).1
          have hreach_c : ReachIn s root c := hreach c hc.1 hc.2
          exact Relation.ReflTransGen.tail hreach_c ⟨hc.1, hv, hv_adj⟩
        · exact hreach v hv hvrem
      have h6 : ∀ v ∈ s, v ∉ rem \ ns.toFinset → v ∉ q' ++ ns →
          ∀ n ∈ v.adjacent, n ∈ s → n ∉ rem \ ns.toFinset := by
        intro v hv hvr hvq n hn hns'
        by_cases hvrem : v ∈ rem
        · exfalso
          have hv_ns : v ∈ ns.toFinset := by
            by_contra hvn
            exact hvr (Finset.mem_sdiff.mpr ⟨hvrem, hvn⟩)
          exact hvq (List.mem_append.mpr (Or.inr (List.mem_toFinset.mp hv_ns)))
        · by_cases hvc : v = c
          · subst hvc
            intro hmem
            have hnrem : n ∈ rem := (Finset.mem_sdiff.mp hmem).1
            have : n ∈ ns := List.mem_filter.mpr ⟨hn, by simpa using hnrem⟩
            exact (Finset.mem_sdiff.mp hmem).2 (List.mem_toFinset.mpr this)
          · have hvq' : v ∉ c :: q' := by
              intro hmem
              rcases List.mem_cons.mp hmem with h | h
              · exact hvc h
              · exact hvq (List.mem_append.mpr (Or.inl h))
            have := hclosed v hv hvrem hvq' n hn hns'
            intro hmem
            exact this (Finset.mem_sdiff.mp hmem).1
      obtain ⟨r1, r2, r3⟩ := ih (q' ++ ns) (rem \ ns.toFinset) h1 h2 h3 h4 h5 h6
      exact ⟨fun x hx => (Finset.mem_sdiff.mp (r1 hx)).1, r2, r3⟩

/-- BFS connectivity characterized by reachability from the chosen
root. -/
theorem Galaxy.isConnected_iff_reach_root (g : Galaxy) (h : g.positions.Nonempty) :
    g.isConnected = true ↔
      ∀ p ∈ g.positions, ReachIn g.positions (g.positions.min' h) p := by
  set s := g.positions with hs
  set root := s.min' h with hroot_def
  have hroot : root ∈ s := s.min'_mem h
  have hkey := Galaxy.bfsAux_invariant s root (s.card + 1) [root] (s.erase root)
    (Finset.erase_subset _ _) (Finset.not_mem_erase _ _)
    (by rw [Finset.card_erase_of_mem hroot]; simp only [List.length_singleton]; omega)
    (by intro x hx; rcases List.mem_singleton.mp hx with rfl
        exact ⟨hroot, Finset.not_mem_erase _ _⟩)
    (by intro v hv hvr
        have : v = root := by
          by_contra hne
          exact hvr (Finset.mem_erase.mpr ⟨hne, hv⟩)
        subst this; exact Relation.ReflTransGen.refl)
    (by intro v hv hvr hvq n hn hns
        exfalso
        apply hvq
        have : v = root := by
          by_contra hne
          exact hvr (Finset.mem_erase.mpr ⟨hne, hv⟩)
        subst this; exact List.mem_singleton.mpr rfl)
  obtain ⟨r1, r2, r3⟩ := hkey
  have hconn_eq : g.isConnected = true ↔
      Galaxy.bfsAux (s.card + 1) [root] (s.erase root) = ∅ := by
    rw [Galaxy.isConnected, dif_pos h]
    simp [hroot_def, hs]
  rw [hconn_eq]
  constructor
  · intro hempty p hp
    apply r2 p hp
    rw [hempty]
    exact Finset.not_mem_empty p
  · intro hall
    by_contra hne
    obtain ⟨v, hv⟩ := Finset.nonempty_iff_ne_empty.mpr hne
    have hvs : v ∈ s := (Finset.erase_subset _ _) (r1 hv)
    have hreach : ReachIn s root v := hall v hvs
    have hnot : ∀ w, ReachIn s root w → w ∉ Galaxy.bfsAux (s.card + 1) [root] (s.erase root) := by
      intro w hw
      induction hw with
      | refl =>
        intro hmem
        exact Finset.not_mem_erase root s (r1 hmem)
      | tail _ hab ihw => exact r3 _ hab.1 ihw _ hab.2.2 hab.2.1
    exact hnot v hreach hv

/-- BFS connectivity is pairwise reachability. -/
theorem Galaxy.isConnected_iff_pairwise (g : Galaxy) :
    g.isConnected = true ↔
      ∀ p ∈ g.positions, ∀ q ∈ g.positions, ReachIn g.positions p q := by
  by_cases h : g.positions.Nonempty
  · rw [Galaxy.isConnected_iff_reach_root g h]
    constructor
    · intro hr p hp q hq
      exact Relation.ReflTransGen.trans (ReachIn.flip_reach (hr p hp)) (hr q hq)
    · intro hr p hp
      exact hr _ (g.positions.min'_mem h) p hp
  · rw [Finset.not_nonempty_iff_eq_empty] at h
    constructor
    · intro _ p hp; rw [h] at hp; exact absurd hp (Finset.not_mem_empty p)
    · intro _
      rw [Galaxy.isConnected, dif_neg]
      rw [h]
      exact fun hne => absurd hne (by simp)

/-- The universe: a dense grid of galaxy identifiers
(`Universe { grid: Vec<Vec<usize>> }`). -/
structure Universe where
  grid : List (List Nat)
deriving DecidableEq

namespace Universe

/-- `Universe::new`: each cell carries the distinct identifier
`row * width + col`. -/
def new (width height : Nat) : Universe :=
  ⟨(List.range height).map fun r => (List.range width).map fun c => r * width + c⟩

/-- `Universe::get_width`: length of the first row, `0` if there is
none. -/
def getWidth (u : Universe) : Nat := (u.grid.head?.map List.length).getD 0

/-- `Universe::get_height`. -/
def getHeight (u : Universe) : Nat := u.grid.length

/-- Every row of the grid has the common width (true of every universe
the code constructs; Rust's `Vec<Vec<_>>` does not enforce it). -/
def WellFormed (u : Universe) : Prop :=
  ∀ row ∈ u.grid, row.length = u.getWidth

instance (u : Universe) : Decidable u.WellFormed := by
  unfold WellFormed; infer_instance

/-- Indexing `self[p]` (in-bounds at every use in the source). -/
def idAt (u : Universe) (p : Position) : Nat :=
  (u.grid.getD p.row.toNat []).getD p.column.toNat 0

/-- The indexed assignment `self[p] = v`. -/
def setAt (u : Universe) (p : Position) (v : Nat) : Universe :=
  ⟨u.grid.set p.row.toNat ((u.grid.getD p.row.toNat []).set p.column.toNat v)⟩

/-- `Universe::is_inside`. -/
def isInside (u : Universe) (p : Position) : Prop :=
  0 ≤ p.row ∧ p.row < (u.getHeight : Int) ∧ 0 ≤ p.column ∧ p.column < (u.getWidth : Int)

instance (u : Universe) (p : Position) : Decidable (u.isInside p) := by
  unfold isInside; infer_instance

/-- `Universe::are_neighbours`: both inside and equal identifiers. -/
def areNeighbours (u : Universe) (p q : Position) : Prop :=
  u.isInside p ∧ u.isInside q ∧ u.idAt p = u.idAt q

instance (u : Universe) (p q : Position) : Decidable (u.areNeighbours p q) := by
  unfold areNeighbours; infer_instance

/-- `Universe::adjacent_positions`: the in-bounds axis neighbours, in
the source's push order up, down, left, right. -/
def adjacentPositions (u : Universe) (p : Position) : List Position :=
  (if 0 < p.row then [p.up] else []) ++
  (if p.row < (u.getHeight : Int) - 1 then [p.down] else []) ++
  (if 0 < p.column then [p.left] else []) ++
  (if p.column < (u.getWidth : Int) - 1 then [p.right] else [])

/-- `Universe::get_adjacent_non_neighbours`. -/
def getAdjacentNonNeighbours (u : Universe) (p : Position) : List Position :=
  (u.adjacentPositions p).filter fun q => ¬u.areNeighbours p q

/-- All cell positions of the grid, row-major
(`Universe::get_positions` / `get_entries`). -/
def positionsList (u : Universe) : List Position :=
  (List.range u.getHeight).flatMap fun r =>
    (List.range u.getWidth).map fun c => ⟨Int.ofNat r, Int.ofNat c⟩

/-- `Universe::get_galaxy`: the cells sharing `p`'s identifier. -/
def getGalaxy (u : Universe) (p : Position) : Galaxy :=
  ⟨((u.positionsList).filter fun q => u.idAt q = u.idAt p).toFinset⟩

/-- The identifiers in use (`Universe::get_ids`, flattened
row-major). -/
def idsList (u : Universe) : List Nat := u.grid.flatten

/-- `Universe::get_galaxies`: group the cells by identifier.  The
source's `HashMap` iteration order is unspecified; the embedding lists
galaxies in order of first appearance of their identifier. -/
def getGalaxies (u : Universe) : List Galaxy :=
  ((u.positionsList).map (u.idAt)).dedup.map fun i =>
    ⟨((u.positionsList).filter fun q => u.idAt q = i).toFinset⟩

/-- `Universe::is_valid`: every galaxy is valid. -/
def IsValid (u : Universe) : Prop := ∀ g ∈ u.getGalaxies, g.IsValid

instance (u : Universe) : Decidable u.IsValid := by
  unfold IsValid; infer_instance

/-- `Universe::get_next_available_id`: scan a `width*height`-slot
occupancy table; an identifier at or above `width*height` makes the
write `id_in_use[id] = true` index out of bounds, which is a panic,
modelled as `none`.  Otherwise the smallest unused identifier is
returned, or `width*height` when all are in use. -/
def getNextAvailableId (u : Universe) : Option Nat :=
  let size := u.getWidth * u.getHeight
  if u.idsList.all fun i => i < size then
    some (((List.range size).find? fun i => i ∉ u.idsList).getD size)
  else none

/-- `Universe::remove_all_neighbours`: give `p` a fresh identifier. -/
def removeAllNeighbours (u : Universe) (p : Position) : Option Universe :=
  (u.getNextAvailableId).map (u.setAt p)

/-- `Universe::make_neighbours`: join `p2` into the galaxy of `p1`. -/
def makeNeighbours (u : Universe) (p1 p2 : Position) : Universe :=
  u.setAt p2 (u.idAt p1)

theorem mem_positionsList {u : Universe} {p : Position} :
    p ∈ u.positionsList ↔ u.isInside p := by
  constructor
  · intro hp
    rw [positionsList, List.mem_flatMap] at hp
    obtain ⟨r, hr, hp⟩ := hp
    rw [List.mem_map] at hp
    obtain ⟨c, hc, rfl⟩ := hp
    rw [List.mem_range] at hr hc
    exact ⟨Int.ofNat_nonneg r, Int.ofNat_lt.mpr hr, Int.ofNat_nonneg c, Int.ofNat_lt.mpr hc⟩
  · rintro ⟨h1, h2, h3, h4⟩
    rw [positionsList, List.mem_flatMap]
    refine ⟨p.row.toNat, ?_, ?_⟩
    · rw [List.mem_range]; omega
    · rw [List.mem_map]
      refine ⟨p.column.toNat, ?_, ?_⟩
      · rw [List.mem_range]; omega
      · ext <;> dsimp <;> omega

theorem getHeight_setAt (u : Universe) (p : Position) (v : Nat) :
    (u.setAt p v).getHeight = u.getHeight := by
  simp [setAt, getHeight]

theorem getWidth_setAt (u : Universe) (p : Position) (v : Nat) :
    (u.setAt p v).getWidth = u.getWidth := by
  rcases u with ⟨grid⟩
  cases grid with
  | nil => simp [setAt, getWidth]
  | cons r0 rest =>
    rcases hn : p.row.toNat with _ | n
    · simp [setAt, getWidth, hn, List.set]
    · simp [setAt, getWidth, hn, List.set]

theorem row_lt_of_inside {u : Universe} {p : Position} (hp : u.isInside p) :
    p.row.toNat < u.grid.length := by
  obtain ⟨h1, h2, _, _⟩ := hp
  have hh : u.getHeight = u.grid.length := rfl
  omega

theorem getRow_spec {u : Universe} {p : Position} (hp : u.isInside p) :
    u.grid.getD p.row.toNat [] = u.grid.get ⟨p.row.toNat, row_lt_of_inside hp⟩ := by
  rw [List.getD_eq_getElem?_getD, List.getElem?_eq_getElem (row_lt_of_inside hp)]
  rfl

theorem col_lt_of_inside {u : Universe} (hWF : u.WellFormed) {p : Position}
    (hp : u.isInside p) :
    p.column.toNat < (u.grid.get ⟨p.row.toNat, row_lt_of_inside hp⟩).length := by
  have h3 := hp.2.2.1
  have h4 := hp.2.2.2
  rw [List.get_eq_getElem, hWF _ (List.getElem_mem _)]
  omega

theorem wellFormed_setAt {u : Universe} (hWF : u.WellFormed) {p : Position}
    (hp : u.isInside p) (v : Nat) : (u.setAt p v).WellFormed := by
  intro row hrow
  rw [getWidth_setAt]
  rcases List.mem_or_eq_of_mem_set hrow with h | h
  · exact hWF row h
  · subst h
    rw [List.length_set, getRow_spec hp]
    exact hWF _ (List.getElem_mem _)

theorem idAt_setAt_self {u : Universe} (hWF : u.WellFormed) {p : Position}
    (hp : u.isInside p) (v : Nat) : (u.setAt p v).idAt p = v := by
  have hrow := row_lt_of_inside hp
  have hcol := col_lt_of_inside hWF hp
  have hset : ∀ nr : List Nat,
      (u.grid.set p.row.toNat nr).getD p.row.toNat [] = nr := by
    intro nr
    rw [List.getD_eq_getElem?_getD, List.getElem?_set_self hrow]
    rfl
  simp only [idAt, setAt]
  rw [hset, getRow_spec hp, List.getD_eq_getElem?_getD, List.getElem?_set_self hcol]
  rfl

theorem idAt_setAt_ne {u : Universe} {p q : Position}
    (hp : u.isInside p) (hq : u.isInside q) (hne : q ≠ p) (v : Nat) :
    (u.setAt p v).idAt q = u.idAt q := by
  obtain ⟨a1, a2, a3, a4⟩ := hp
  obtain ⟨b1, b2, b3, b4⟩ := hq
  by_cases hrow : q.row.toNat = p.row.toNat
  · have hcol : p.column.toNat ≠ q.column.toNat := by
      intro hc
      exact hne (by ext <;> omega)
    have hrl : p.row.toNat < u.grid.length :=
      row_lt_of_inside (u := u) ⟨a1, a2, a3, a4⟩
    simp only [idAt, setAt, List.getD_eq_getElem?_getD, hrow]
    rw [List.getElem?_set_self hrl]
    simp only [Option.getD_some]
    rw [List.getElem?_set_ne hcol]
  · simp only [idAt, setAt, List.getD_eq_getElem?_getD]
    rw [List.getElem?_set_ne (by omega)]

theorem isInside_setAt {u : Universe} {p q : Position} (v : Nat) :
    (u.setAt p v).isInside q ↔ u.isInside q := by
  simp [isInside, getWidth_setAt, getHeight_setAt]

theorem mem_getGalaxy {u : Universe} {p q : Position} :
    q ∈ (u.getGalaxy p).positions ↔ u.isInside q ∧ u.idAt q = u.idAt p := by
  simp [getGalaxy, List.mem_filter, mem_positionsList]

theorem idAt_eq_getElem {u : Universe} (hWF : u.WellFormed) {p : Position}
    (hp : u.isInside p) :
    u.idAt p = (u.grid.get ⟨p.row.toNat, row_lt_of_inside hp⟩).get
      ⟨p.column.toNat, col_lt_of_inside hWF hp⟩ := by
  simp only [idAt]
  rw [getRow_spec hp, List.getD_eq_getElem?_getD,
    List.getElem?_eq_getElem (col_lt_of_inside hWF hp)]
  rfl

theorem mem_idsList_iff {u : Universe} (hWF : u.WellFormed) {j : Nat} :
    j ∈ u.idsList ↔ ∃ p, u.isInside p ∧ u.idAt p = j := by
  simp only [idsList, List.mem_flatten]
  constructor
  · rintro ⟨row, hrow, hj⟩
    obtain ⟨r, hr, hget⟩ := List.mem_iff_getElem.mp hrow
    obtain ⟨c, hc, hgetc⟩ := List.mem_iff_getElem.mp hj
    have hw : row.length = u.getWidth := hWF row hrow
    have hinside : u.isInside ⟨Int.ofNat r, Int.ofNat c⟩ := by
      refine ⟨Int.ofNat_nonneg r, ?_, Int.ofNat_nonneg c, ?_⟩
      · show (Int.ofNat r) < (u.getHeight : Int)
        exact Int.ofNat_lt.mpr hr
      · show (Int.ofNat c) < (u.getWidth : Int)
        rw [← hw]; exact Int.ofNat_lt.mpr hc
    refine ⟨⟨Int.ofNat r, Int.ofNat c⟩, hinside, ?_⟩
    rw [idAt_eq_getElem hWF hinside]
    subst hget
    subst hgetc
    congr 1
  · rintro ⟨p, hp, rfl⟩
    refine ⟨u.grid.get ⟨p.row.toNat, row_lt_of_inside hp⟩, List.getElem_mem _, ?_⟩
    rw [idAt_eq_getElem hWF hp]
    exact List.getElem_mem _

/-- A successfully computed next id is not in use anywhere. -/
theorem getNextAvailableId_fresh {u : Universe} {i : Nat}
    (h : u.getNextAvailableId = some i) : ∀ j ∈ u.idsList, j ≠ i := by
  intro j hj
  simp only [getNextAvailableId] at h
  split at h
  case isTrue hall =>
    have hj_lt : j < u.getWidth * u.getHeight := by
      have := List.all_eq_true.mp hall j hj
      simpa using this
    cases hfind : (List.range (u.getWidth * u.getHeight)).find? fun i => i ∉ u.idsList with
    | none =>
      rw [hfind] at h
      simp only [Option.getD_none, Option.some.injEq] at h
      omega
    | some k =>
      rw [hfind] at h
      simp only [Option.getD_some, Option.some.injEq] at h
      subst h
      have := List.find?_some hfind
      simp only [decide_eq_true_eq] at this
      intro hji
      rw [hji] at hj
      exact this hj
  case isFalse => exact absurd h (by simp)

/-- The next id is computable exactly when every id is below
`width*height`. -/
theorem getNextAvailableId_isSome {u : Universe} :
    (u.getNextAvailableId).isSome = true ↔
      ∀ j ∈ u.idsList, j < u.getWidth * u.getHeight := by
  simp only [getNextAvailableId]
  split
  case isTrue hall =>
    simp only [Option.isSome_some, true_iff]
    intro j hj
    simpa using List.all_eq_true.mp hall j hj
  case isFalse hall =>
    simp only [Option.isSome_none]
    constructor
    · intro h; exact absurd h (by decide)
    · intro hcontra
      exact absurd (List.all_eq_true.mpr fun j hj => by simpa using hcontra j hj) hall

/-- `u.getGalaxy p` and `u.getGalaxies` agree: validity of all galaxies
is validity of the galaxy of every cell. -/
theorem isValid_iff_forall {u : Universe} :
    u.IsValid ↔ ∀ p ∈ u.positionsList, (u.getGalaxy p).IsValid := by
  constructor
  · intro h p hp
    apply h
    rw [getGalaxies, List.mem_map]
    refine ⟨u.idAt p, ?_, rfl⟩
    rw [List.mem_dedup, List.mem_map]
    exact ⟨p, hp, rfl⟩
  · intro h g hg
    rw [getGalaxies, List.mem_map] at hg
    obtain ⟨i, hi, rfl⟩ := hg
    rw [List.mem_dedup, List.mem_map] at hi
    obtain ⟨p, hp, rfl⟩ := hi
    exact h p hp

/-- Break every listed position into a singleton with
`remove_all_neighbours` (the final loop of
`remove_positions_from_galaxy`). -/
def breakAll : Universe → List Position → Option Universe
  | u, [] => some u
  | u, p :: rest =>
      match u.removeAllNeighbours p with
      | none => none
      | some u' => breakAll u' rest

/-- One iteration's removals in `remove_positions_from_galaxy`:
detach `p` (fresh identifier, drop from the residual `g`), and if the
residual is then asymmetric, also detach the mirror of `p` through the
center of `galaxy` (the galaxy as it was at entry). -/
def removeOneStep (galaxy : Galaxy) (u : Universe) (g : Galaxy) (p : Position) :
    Option (Universe × Galaxy) :=
  match u.removeAllNeighbours p with
  | none => none
  | some u1 =>
    let g1 := g.withoutPosition p
    if g1.IsSymmetric then some (u1, g1)
    else
      match u1.removeAllNeighbours (galaxy.mirrorPosition p) with
      | none => none
      | some u2 => some (u2, g1.withoutPosition (galaxy.mirrorPosition p))

/-- The loop of `Universe::remove_positions_from_galaxy`: `galaxy` is
the galaxy as it was at entry (used for the assert and the mirror),
`g` is the mutable residual copy.  On an invalid residual the entire
residual is broken into singletons and the call returns immediately.
The `assert!(galaxy.contains_position(&p))` is modelled as a panic
(`none`) when violated. -/
def removePositionsFromGalaxyAux (galaxy : Galaxy) :
    Universe → Galaxy → List Position → Option Universe
  | u, _, [] => some u
  | u, g, p :: rest =>
      if galaxy.containsPosition p then
        match removeOneStep galaxy u g p with
        | none => none
        | some (u2, g2) =>
          if g2.IsEmptyOrValid then
            removePositionsFromGalaxyAux galaxy u2 g2 rest
          else
            breakAll u2 (g2.positions.sort (· ≤ ·))
      else none

/-- `Universe::remove_positions_from_galaxy`. -/
def removePositionsFromGalaxy (u : Universe) (galaxy : Galaxy)
    (positionsToRemove : List Position) : Option Universe :=
  removePositionsFromGalaxyAux galaxy u galaxy positionsToRemove

/-- The `p3_candidates` list of `Universe::generate_step`: the mirror
of `p2` through the center of `p1`'s galaxy when it lies inside,
followed by the adjacent non-neighbours of `p2` whose addition makes
`g1` with `p2` symmetric. -/
def p3Candidates (u : Universe) (p1 p2 : Position) : List Position :=
  (if u.isInside ((u.getGalaxy p1).mirrorPosition p2)
    then [(u.getGalaxy p1).mirrorPosition p2] else []) ++
  (u.getAdjacentNonNeighbours p2).filter
    fun p3 => (((u.getGalaxy p1).withPosition p2).withPosition p3).IsSymmetric

/-- `Universe::generate_step`.  The random draws are abstracted as a
stream: draw `i` is `rng i`, the step receives the cursor `k` and
returns it advanced.  `Position::random` (from the absent
`position.rs`; modelled from the spec: a uniformly random cell) picks
the `rng k % n`-th entry of the row-major cell list — a panic (`none`)
on an empty universe; `choose` on the adjacent non-neighbours and
`gen_range` on the candidate list take the following draws.  Panics
inside `remove_positions_from_galaxy` propagate as `none`. -/
def generateStep (u : Universe) (rng : Nat → Nat) (k : Nat) :
    Option (Bool × Universe × Nat) :=
  match (u.positionsList)[rng k % u.positionsList.length]? with
  | none => none
  | some p1 =>
    match (u.getAdjacentNonNeighbours p1)[rng (k + 1) %
        (u.getAdjacentNonNeighbours p1).length]? with
    | none => some (false, u, k + 2)
    | some p2 =>
      if ((u.getGalaxy p1).withPosition p2).IsSymmetric then
        match u.removePositionsFromGalaxy (u.getGalaxy p2) [p2] with
        | none => none
        | some u1 => some (true, u1.makeNeighbours p1 p2, k + 2)
      else
        match (u.p3Candidates p1 p2)[rng (k + 2) % (u.p3Candidates p1 p2).length]? with
        | none => some (false, u, k + 3)
        | some p3 =>
          if u.getGalaxy p2 = u.getGalaxy p3 then
            match u.removePositionsFromGalaxy (u.getGalaxy p2) [p2, p3] with
            | none => none
            | some u1 =>
              some (true, (u1.makeNeighbours p1 p2).makeNeighbours p1 p3, k + 3)
          else
            match u.removePositionsFromGalaxy (u.getGalaxy p2) [p2] with
            | none => none
            | some u1 =>
              match u1.removePositionsFromGalaxy (u.getGalaxy p3) [p3] with
              | none => none
              | some u2 =>
                some (true, (u2.makeNeighbours p1 p2).makeNeighbours p1 p3, k + 3)

/-- The branch loop of one iteration of `Universe::generate`: the body
clones the CURRENT universe, runs `generate_step` on the original
(mutating it), and pushes the pre-step clone when the step reports
success. -/
def branchesFold : Universe → (Nat → Nat) → Nat → Nat → List Universe →
    Option (List Universe × Universe × Nat)
  | u, _, 0, k, acc => some (acc, u, k)
  | u, rng, b + 1, k, acc =>
      match u.generateStep rng k with
      | none => none
      | some (success, u', k') =>
          branchesFold u' rng b k' (if success then acc ++ [u] else acc)

/-- Rust's `Iterator::max_by_key`: the element with the maximal key,
the LAST one on ties. -/
def maxByKey {S : Type} [LinearOrder S] (f : Universe → S) :
    List Universe → Option Universe
  | [] => none
  | x :: xs => some (xs.foldl (fun best y => if f best ≤ f y then y else best) x)

/-- The iteration loop of `Universe::generate`: run the branch loop,
then replace the universe by the best-scoring pushed snapshot, or by
the (post-steps) current universe when nothing was pushed
(`unwrap_or(universe)`). -/
def generateLoop {S : Type} [LinearOrder S] (score : Universe → S) (rng : Nat → Nat) :
    Nat → Universe → Nat → Option (Universe × Nat)
  | 0, u, k => some (u, k)
  | n + 1, u, k =>
      match branchesFold u rng 5 k [] with
      | none => none
      | some (cands, u', k') =>
          generateLoop score rng n ((maxByKey score cands).getD u') k'

/-- `Universe::generate`, parametrized by the score function (the f64
aesthetic score under `OrderedFloat` is some linear order) and by the
random stream (the internally drawn seed determines one).
`width * height * 10` iterations of the branch loop with 5 branches;
the final `assert!(universe.is_valid())` is a panic (`none`) on an
invalid result. -/
def generate {S : Type} [LinearOrder S] (score : Universe → S) (width height : Nat)
    (rng : Nat → Nat) : Option Universe :=
  match generateLoop score rng (width * height * 10) (Universe.new width height) 0 with
  | none => none
  | some (u, _) => if u.IsValid then some u else none

/-- The branch loop as the spec's words for claim C3 describe it:
clone the universe `k` times, attempt one `generate_step` on each
clone, and keep exactly the STEPPED clones whose step reported
success; the current universe is not mutated. -/
def branchesFoldSpecC3 (u : Universe) (rng : Nat → Nat) :
    Nat → Nat → List Universe → Option (List Universe × Nat)
  | 0, k, acc => some (acc, k)
  | b + 1, k, acc =>
      match u.generateStep rng k with
      | none => none
      | some (success, u', k') =>
          branchesFoldSpecC3 u rng b k' (if success then acc ++ [u'] else acc)

/-- The iteration loop as claim C3 describes it: replace the current
universe with the highest-scoring successful stepped clone, keeping
the current universe when no step succeeded. -/
def generateLoopSpecC3 {S : Type} [LinearOrder S] (score : Universe → S)
    (rng : Nat → Nat) : Nat → Universe → Nat → Option (Universe × Nat)
  | 0, u, k => some (u, k)
  | n + 1, u, k =>
      match branchesFoldSpecC3 u rng 5 k [] with
      | none => none
      | some (cands, k') =>
          generateLoopSpecC3 score rng n ((maxByKey score cands).getD u) k'

/-- The generator as claim C3 describes it (same outer shape as
`generate`, branch loop per the spec's words). -/
def generateSpecC3 {S : Type} [LinearOrder S] (score : Universe → S)
    (width height : Nat) (rng : Nat → Nat) : Option Universe :=
  match generateLoopSpecC3 score rng (width * height * 10) (Universe.new width height) 0 with
  | none => none
  | some (u, _) => if u.IsValid then some u else none

theorem removeAllNeighbours_some {u u' : Universe} {p : Position}
    (h : u.removeAllNeighbours p = some u') :
    ∃ i, u.getNextAvailableId = some i ∧ u' = u.setAt p i := by
  rw [removeAllNeighbours] at h
  cases hid : u.getNextAvailableId with
  | none => rw [hid] at h; exact absurd h (by simp)
  | some i =>
    rw [hid] at h
    refine ⟨i, rfl, ?_⟩
    have : some (u.setAt p i) = some u' := h
    exact (Option.some.inj this).symm

/-- After a successful `remove_all_neighbours(p)`: identifiers away
from `p` are untouched, `p`'s galaxy is the singleton `{p}`, every
other cell's galaxy merely loses `p`, and the grid geometry is
preserved. -/
theorem removeAllNeighbours_spec {u u' : Universe} {p : Position} (hWF : u.WellFormed)
    (hp : u.isInside p) (h : u.removeAllNeighbours p = some u') :
    (∀ q, u.isInside q → q ≠ p → u'.idAt q = u.idAt q) ∧
    (∀ q, u.isInside q → q ≠ p → u'.idAt q ≠ u'.idAt p) ∧
    (u'.getGalaxy p).positions = {p} ∧
    (∀ q, u.isInside q → q ≠ p →
      (u'.getGalaxy q).positions = (u.getGalaxy q).positions.erase p) ∧
    u'.WellFormed ∧ u'.getWidth = u.getWidth ∧ u'.getHeight = u.getHeight := by
  obtain ⟨i, hid, rfl⟩ := Universe.removeAllNeighbours_some h
  have hfresh := Universe.getNextAvailableId_fresh hid
  have hframe : ∀ q, u.isInside q → q ≠ p → (u.setAt p i).idAt q = u.idAt q :=
    fun q hq hne => Universe.idAt_setAt_ne hp hq hne i
  have hself : (u.setAt p i).idAt p = i := Universe.idAt_setAt_self hWF hp i
  have hfresh' : ∀ q, u.isInside q → q ≠ p → (u.setAt p i).idAt q ≠ (u.setAt p i).idAt p := by
    intro q hq hne
    rw [hframe q hq hne, hself]
    exact hfresh _ ((Universe.mem_idsList_iff hWF).mpr ⟨q, hq, rfl⟩)
  refine ⟨hframe, hfresh', ?_, ?_, Universe.wellFormed_setAt hWF hp i,
    Universe.getWidth_setAt u p i, Universe.getHeight_setAt u p i⟩
  · ext x
    rw [Universe.mem_getGalaxy, Universe.isInside_setAt, Finset.mem_singleton]
    constructor
    · rintro ⟨hx, hid_eq⟩
      by_contra hne
      exact hfresh' x hx hne hid_eq
    · rintro rfl
      exact ⟨hp, rfl⟩
  · intro q hq hqp
    ext x
    rw [Universe.mem_getGalaxy, Universe.isInside_setAt, Finset.mem_erase,
      Universe.mem_getGalaxy]
    by_cases hxp : x = p
    · subst hxp
      constructor
      · rintro ⟨hx, hid_eq⟩
        rw [hself, hframe q hq hqp] at hid_eq
        exact absurd hid_eq.symm (hfresh _ ((Universe.mem_idsList_iff hWF).mpr ⟨q, hq, rfl⟩))
      · rintro ⟨hne, _⟩
        exact absurd rfl hne
    · constructor
      · rintro ⟨hx, hid_eq⟩
        rw [hframe x hx hxp, hframe q hq hqp] at hid_eq
        exact ⟨hxp, hx, hid_eq⟩
      · rintro ⟨_, hx, hid_eq⟩
        rw [hframe x hx hxp, hframe q hq hqp]
        exact ⟨hx, hid_eq⟩

end Universe

/-- Claim C10: in a well-formed `W×H` universe every cell identifier
below `W*H` guarantees that `remove_all_neighbours(p)` succeeds,
assigns `p` an identifier held by no other cell and leaves every other
cell's identifier unchanged, so `p` becomes a singleton galaxy and
every other galaxy merely loses `p`; and the precondition is needed:
with an identifier at or above `W*H` in use, the first-unused-id scan
indexes out of bounds (a panic, modelled as `none`). -/
theorem c10_remove_all_neighbours_frame (u : Universe) (p : Position)
    (hWF : u.WellFormed) (hp : u.isInside p) :
    ((∀ j ∈ u.idsList, j < u.getWidth * u.getHeight) →
      ∃ u', u.removeAllNeighbours p = some u' ∧
        (∀ q, u.isInside q → q ≠ p → u'.idAt q = u.idAt q) ∧
        (∀ q, u.isInside q → q ≠ p → u'.idAt q ≠ u'.idAt p) ∧
        (u'.getGalaxy p).positions = {p} ∧
        (∀ q, u.isInside q → q ≠ p →
          (u'.getGalaxy q).positions = (u.getGalaxy q).positions.erase p)) ∧
    ((∃ j ∈ u.idsList, u.getWidth * u.getHeight ≤ j) →
      u.removeAllNeighbours p = none) := by
  constructor
  · intro hlt
    have hsome : (u.getNextAvailableId).isSome = true :=
      Universe.getNextAvailableId_isSome.mpr hlt
    obtain ⟨i, hi⟩ := Option.isSome_iff_exists.mp hsome
    have h : u.removeAllNeighbours p = some (u.setAt p i) := by
      rw [Universe.removeAllNeighbours, hi]; rfl
    obtain ⟨h1, h2, h3, h4, _, _, _⟩ := Universe.removeAllNeighbours_spec hWF hp h
    exact ⟨u.setAt p i, h, h1, h2, h3, h4⟩
  · rintro ⟨j, hj, hge⟩
    have : ¬(u.getNextAvailableId).isSome = true := by
      rw [Universe.getNextAvailableId_isSome]
      intro hall
      exact absurd (hall j hj) (by omega)
    have hnone : u.getNextAvailableId = none := by
      cases hcase : u.getNextAvailableId with
      | none => rfl
      | some k => rw [hcase] at this; simp at this
    rw [Universe.removeAllNeighbours, hnone]; rfl

theorem Galaxy.eq_of_positions_eq {g h : Galaxy} (e : g.positions = h.positions) : g = h := by
  cases g; cases h; simpa using e

theorem Universe.isInside_congr {u v : Universe} (h1 : u.getWidth = v.getWidth)
    (h2 : u.getHeight = v.getHeight) (q : Position) : u.isInside q ↔ v.isInside q := by
  rw [Universe.isInside, Universe.isInside, h1, h2]

theorem Universe.mem_getGalaxies_iff {u : Universe} {g : Galaxy} :
    g ∈ u.getGalaxies ↔ ∃ p ∈ u.positionsList, g = u.getGalaxy p := by
  rw [Universe.getGalaxies, List.mem_map]
  constructor
  · rintro ⟨i, hi, rfl⟩
    rw [List.mem_dedup, List.mem_map] at hi
    obtain ⟨p, hp, rfl⟩ := hi
    exact ⟨p, hp, rfl⟩
  · rintro ⟨p, hp, rfl⟩
    refine ⟨u.idAt p, ?_, rfl⟩
    rw [List.mem_dedup, List.mem_map]
    exact ⟨p, hp, rfl⟩

/-- A singleton galaxy is valid. -/
theorem Galaxy.singleton_valid (p : Position) : (⟨{p}⟩ : Galaxy).IsValid := by
  have hcenter : (⟨{p}⟩ : Galaxy).center = ⟨p.row + p.row, p.column + p.column⟩ := by
    rw [Galaxy.center, dif_pos (Finset.singleton_nonempty p)]
    simp
  have hfc : ∀ a : Int, footprintCoords (a + a) = [a] := by
    intro a
    rw [footprintCoords, if_pos]
    · congr 1
      have : a + a = 2 * a := by ring
      rw [this]
      exact Int.mul_tdiv_cancel_left a (by norm_num)
    · omega
  refine ⟨?_, ?_, ?_, ?_⟩
  · intro h
    rw [Galaxy.isEmpty] at h
    exact absurd h (by simp)
  · intro q hq
    rw [hcenter, Position.mem_footprint] at hq
    obtain ⟨h1, h2⟩ := hq
    rw [hfc, List.mem_singleton] at h1 h2
    simp only [Finset.mem_singleton]
    ext <;> simp [h1, h2]
  · rw [Galaxy.isConnected_iff_pairwise]
    intro a ha b hb
    rw [Finset.mem_singleton] at ha hb
    subst ha; subst hb
    exact Relation.ReflTransGen.refl
  · intro q hq
    rw [Finset.mem_singleton] at hq
    subst hq
    rw [Galaxy.mirrorPosition, hcenter]
    simp [Position.mirrorPosition]

/-- Membership in the footprint coordinate list of a nonnegative
half-step coordinate, arithmetically. -/
theorem mem_footprintCoords_iff {x a : Int} (hx : 0 ≤ x) :
    a ∈ footprintCoords x ↔ 2 * a - 1 ≤ x ∧ x ≤ 2 * a + 1 := by
  have htd : x.tdiv 2 = x / 2 := Int.tdiv_eq_ediv hx (by norm_num)
  rw [footprintCoords]
  by_cases h : x % 2 = 0
  · rw [if_pos h]
    simp only [List.mem_singleton, htd]
    omega
  · rw [if_neg h]
    simp only [List.mem_cons, List.mem_singleton, List.not_mem_nil, or_false, htd]
    omega

/-- The bounding box of a non-empty galaxy: bounds, attainment, and the
center as the half-step coordinate sums. -/
theorem Galaxy.bbox (g : Galaxy) (h : g.positions.Nonempty) :
    ∃ R0 R1 C0 C1 : Int,
      g.center = ⟨R0 + R1, C0 + C1⟩ ∧
      (∀ p ∈ g.positions, R0 ≤ p.row ∧ p.row ≤ R1 ∧ C0 ≤ p.column ∧ p.column ≤ C1) ∧
      (∃ p ∈ g.positions, p.row = R0) ∧ (∃ p ∈ g.positions, p.row = R1) ∧
      (∃ p ∈ g.positions, p.column = C0) ∧ (∃ p ∈ g.positions, p.column = C1) := by
  refine ⟨(g.positions.image Position.row).min' (h.image _),
    (g.positions.image Position.row).max' (h.image _),
    (g.positions.image Position.column).min' (h.image _),
    (g.positions.image Position.column).max' (h.image _), ?_, ?_, ?_, ?_, ?_, ?_⟩
  · rw [Galaxy.center, dif_pos h]
  · intro p hp
    exact ⟨Finset.min'_le _ _ (Finset.mem_image_of_mem _ hp),
      Finset.le_max' _ _ (Finset.mem_image_of_mem _ hp),
      Finset.min'_le _ _ (Finset.mem_image_of_mem _ hp),
      Finset.le_max' _ _ (Finset.mem_image_of_mem _ hp)⟩
  · obtain ⟨p, hp, he⟩ :=
      Finset.mem_image.mp ((g.positions.image Position.row).min'_mem (h.image _))
    exact ⟨p, hp, he⟩
  · obtain ⟨p, hp, he⟩ :=
      Finset.mem_image.mp ((g.positions.image Position.row).max'_mem (h.image _))
    exact ⟨p, hp, he⟩
  · obtain ⟨p, hp, he⟩ :=
      Finset.mem_image.mp ((g.positions.image Position.column).min'_mem (h.image _))
    exact ⟨p, hp, he⟩
  · obtain ⟨p, hp, he⟩ :=
      Finset.mem_image.mp ((g.positions.image Position.column).max'_mem (h.image _))
    exact ⟨p, hp, he⟩

theorem Position.transpose_transpose (p : Position) : p.transpose.transpose = p := rfl

theorem Position.transpose_adjacent {p q : Position} (h : q ∈ p.adjacent) :
    q.transpose ∈ p.transpose.adjacent := by
  rw [Position.mem_adjacent_iff] at h ⊢
  simp only [Position.transpose]
  omega

/-- The parity of a finite set's size equals the parity of its number
of fixed points under an involution of it. -/
theorem involution_card_mod_two {α : Type} [DecidableEq α] :
    ∀ (n : Nat) (X : Finset α) (f : α → α), X.card ≤ n →
      (∀ a ∈ X, f a ∈ X) → (∀ a ∈ X, f (f a) = a) →
      X.card % 2 = (X.filter fun a => f a = a).card % 2 := by
  intro n
  induction n with
  | zero =>
    intro X f hc _ _
    have hX : X = ∅ := Finset.card_eq_zero.mp (Nat.le_zero.mp hc)
    subst hX
    simp
  | succ n ih =>
    intro X f hc hf hff
    by_cases hfix : ∀ a ∈ X, f a = a
    · rw [Finset.filter_true_of_mem hfix]
    · push_neg at hfix
      obtain ⟨a, ha, hfa⟩ := hfix
      have hfaX : f a ∈ X := hf a ha
      set X' := (X.erase a).erase (f a) with hX'
      have hone : 1 < X.card :=
        Finset.one_lt_card.mpr ⟨a, ha, f a, hfaX, fun he => hfa he.symm⟩
      have hcard : X'.card + 2 = X.card := by
        rw [hX', Finset.card_erase_of_mem (Finset.mem_erase.mpr ⟨hfa, hfaX⟩),
          Finset.card_erase_of_mem ha]
        omega
      have hmemX' : ∀ b ∈ X', b ∈ X ∧ b ≠ a ∧ b ≠ f a := by
        intro b hb
        rw [hX', Finset.mem_erase, Finset.mem_erase] at hb
        exact ⟨hb.2.2, hb.2.1, hb.1⟩
      have hf' : ∀ b ∈ X', f b ∈ X' := by
        intro b hb
        obtain ⟨hbX, hba, hbfa⟩ := hmemX' b hb
        rw [hX', Finset.mem_erase, Finset.mem_erase]
        refine ⟨?_, ?_, hf b hbX⟩
        · intro he
          apply hba
          have h1 := hff b hbX
          rw [he, hff a ha] at h1
          exact h1.symm
        · intro he
          apply hbfa
          have h1 := hff b hbX
          rw [he] at h1
          exact h1.symm
      have hnma : a ∉ X.filter fun b => f b = b :=
        fun hmem => hfa (Finset.mem_filter.mp hmem).2
      have hnmfa : f a ∉ X.filter fun b => f b = b := by
        intro hmem
        have h2 := (Finset.mem_filter.mp hmem).2
        rw [hff a ha] at h2
        exact hfa h2.symm
      have hfilter : (X'.filter fun b => f b = b) = X.filter fun b => f b = b := by
        rw [hX', Finset.filter_erase, Finset.filter_erase,
          Finset.erase_eq_of_not_mem hnma, Finset.erase_eq_of_not_mem hnmfa]
      have hrec := ih X' f (by omega) hf' (fun b hb => hff b (hmemX' b hb).1)
      rw [hfilter] at hrec
      omega

/-- A galaxy symmetric about a center with an odd coordinate has an
even number of cells. -/
theorem Galaxy.even_card_of_odd_center {g : Galaxy} (hsym : g.IsSymmetric)
    (hodd : g.center.row % 2 ≠ 0 ∨ g.center.column % 2 ≠ 0) :
    g.positions.card % 2 = 0 := by
  have h := involution_card_mod_two g.positions.card g.positions
    (fun p => g.mirrorPosition p) le_rfl hsym
    (fun p _ => Position.mirror_mirror g.center p)
  have hfix : (g.positions.filter fun p => g.mirrorPosition p = p) = ∅ := by
    rw [Finset.filter_eq_empty_iff]
    intro p _ he
    obtain ⟨pr, pc⟩ := p
    simp only [Galaxy.mirrorPosition, Position.mirrorPosition, Position.mk.injEq] at he
    omega
  rw [hfix] at h
  simpa using h

/-- A valid galaxy whose center has both coordinates even has an odd
number of cells. -/
theorem Galaxy.odd_card_of_even_center {g : Galaxy} (hval : g.IsValid)
    (hr : g.center.row % 2 = 0) (hc : g.center.column % 2 = 0) :
    g.positions.card % 2 = 1 := by
  obtain ⟨_, hcc, _, hsym⟩ := hval
  obtain ⟨kr, hkr⟩ : ∃ k, g.center.row = 2 * k := ⟨g.center.row / 2, by omega⟩
  obtain ⟨kc, hkc⟩ : ∃ k, g.center.column = 2 * k := ⟨g.center.column / 2, by omega⟩
  have htr : g.center.row.tdiv 2 = kr := by
    rw [hkr]; exact Int.mul_tdiv_cancel_left kr (by norm_num)
  have htc : g.center.column.tdiv 2 = kc := by
    rw [hkc]; exact Int.mul_tdiv_cancel_left kc (by norm_num)
  have hzfoot : (⟨kr, kc⟩ : Position) ∈ g.center.footprint := by
    rw [Position.mem_footprint]
    constructor
    · rw [footprintCoords, if_pos hr, htr]; exact List.mem_singleton.mpr rfl
    · rw [footprintCoords, if_pos hc, htc]; exact List.mem_singleton.mpr rfl
  have hzg : (⟨kr, kc⟩ : Position) ∈ g.positions := hcc _ hzfoot
  have h := involution_card_mod_two g.positions.card g.positions
    (fun p => g.mirrorPosition p) le_rfl hsym
    (fun p _ => Position.mirror_mirror g.center p)
  have hfix : (g.positions.filter fun p => g.mirrorPosition p = p) = {⟨kr, kc⟩} := by
    ext p
    rw [Finset.mem_filter, Finset.mem_singleton]
    constructor
    · rintro ⟨_, he⟩
      obtain ⟨pr, pc⟩ := p
      simp only [Galaxy.mirrorPosition, Position.mirrorPosition, Position.mk.injEq] at he ⊢
      omega
    · rintro rfl
      refine ⟨hzg, ?_⟩
      simp only [Galaxy.mirrorPosition, Position.mirrorPosition, Position.mk.injEq]
      omega
  rw [hfix, Finset.card_singleton] at h
  omega

/-- Discrete intermediate value: a path inside `s` passes through every
row between its endpoints. -/
theorem ReachIn.row_ivt {s : Finset Position} {a b : Position} (ha : a ∈ s)
    (h : ReachIn s a b) :
    ∀ ρ : Int, (a.row ≤ ρ ∧ ρ ≤ b.row) ∨ (b.row ≤ ρ ∧ ρ ≤ a.row) →
      ∃ y ∈ s, y.row = ρ := by
  induction h with
  | refl =>
    intro ρ hρ
    exact ⟨a, ha, by omega⟩
  | @tail m w _ h2 ih =>
    intro ρ hρ
    obtain ⟨_, hw, hadj⟩ := h2
    rw [Position.mem_adjacent_iff] at hadj
    by_cases hmid : (a.row ≤ ρ ∧ ρ ≤ m.row) ∨ (m.row ≤ ρ ∧ ρ ≤ a.row)
    · exact ih ρ hmid
    · exact ⟨w, hw, by omega⟩

/-- Reachability transports along an adjacency-preserving map. -/
theorem ReachIn.map {φ : Position → Position}
    (hadj : ∀ p q : Position, q ∈ p.adjacent → φ q ∈ (φ p).adjacent)
    {s : Finset Position} {a b : Position} (h : ReachIn s a b) :
    ReachIn (s.image φ) (φ a) (φ b) := by
  induction h with
  | refl => exact Relation.ReflTransGen.refl
  | tail _ h2 ih =>
    exact Relation.ReflTransGen.tail ih
      ⟨Finset.mem_image_of_mem φ h2.1, Finset.mem_image_of_mem φ h2.2.1, hadj _ _ h2.2.2⟩

/-- Inserting a cell adjacent to an existing cell preserves pairwise
connectivity. -/
theorem pairwise_reach_insert {s : Finset Position} {a b : Position}
    (hb : b ∈ s) (hadj : a ∈ b.adjacent)
    (h : ∀ p ∈ s, ∀ q ∈ s, ReachIn s p q) :
    ∀ p ∈ insert a s, ∀ q ∈ insert a s, ReachIn (insert a s) p q := by
  have hstep : ReachIn (insert a s) b a :=
    Relation.ReflTransGen.single
      ⟨Finset.mem_insert_of_mem hb, Finset.mem_insert_self a s, hadj⟩
  have hsub : s ⊆ insert a s := Finset.subset_insert a s
  intro p hp q hq
  rcases Finset.mem_insert.mp hp with rfl | hp' <;>
    rcases Finset.mem_insert.mp hq with rfl | hq'
  · exact Relation.ReflTransGen.refl
  · exact Relation.ReflTransGen.trans (ReachIn.flip_reach hstep) (ReachIn.mono hsub (h b hb q hq'))
  · exact Relation.ReflTransGen.trans (ReachIn.mono hsub (h p hp' b hb)) hstep
  · exact ReachIn.mono hsub (h p hp' q hq')

theorem image_mirror_mirror (c : Position) (s : Finset Position) :
    (s.image fun p => c.mirrorPosition p).image (fun p => c.mirrorPosition p) = s := by
  rw [Finset.image_image]
  have hcomp : ((fun p => c.mirrorPosition p) ∘ fun p => c.mirrorPosition p) = id := by
    funext p
    exact Position.mirror_mirror c p
  rw [hcomp, Finset.image_id]

theorem image_transpose_transpose (s : Finset Position) :
    (s.image Position.transpose).image Position.transpose = s := by
  rw [Finset.image_image]
  have hcomp : (Position.transpose ∘ Position.transpose) = id := by
    funext p
    exact Position.transpose_transpose p
  rw [hcomp, Finset.image_id]

/-- A symmetric galaxy equals its own mirror image. -/
theorem image_mirror_self {g : Galaxy} (h : g.IsSymmetric) :
    (g.positions.image fun p => g.center.mirrorPosition p) = g.positions := by
  apply Finset.Subset.antisymm
  · intro q hq
    obtain ⟨y, hy, rfl⟩ := Finset.mem_image.mp hq
    exact h y hy
  · intro q hq
    rw [Finset.mem_image]
    exact ⟨g.center.mirrorPosition q, h q hq, Position.mirror_mirror _ _⟩

/-- The center of the transposed galaxy is the transposed center. -/
theorem Galaxy.center_image_transpose (g : Galaxy) :
    (⟨g.positions.image Position.transpose⟩ : Galaxy).center = g.center.transpose := by
  by_cases h : g.positions.Nonempty
  · obtain ⟨R0, R1, C0, C1, hcen, hb, ⟨pa, hpa, ha⟩, ⟨pb, hpb, hbb⟩,
      ⟨pc, hpc, hcc⟩, ⟨pd, hpd, hd⟩⟩ := g.bbox h
    obtain ⟨A0, A1, B0, B1, hcen', hb', ⟨qa, hqa, ha'⟩, ⟨qb, hqb, hbb'⟩,
      ⟨qc, hqc, hcc'⟩, ⟨qd, hqd, hd'⟩⟩ :=
      Galaxy.bbox ⟨g.positions.image Position.transpose⟩ (h.image _)
    have key : ∀ q ∈ g.positions.image Position.transpose,
        ∃ y ∈ g.positions, q.row = y.column ∧ q.column = y.row := by
      intro q hq
      obtain ⟨y, hy, rfl⟩ := Finset.mem_image.mp hq
      exact ⟨y, hy, rfl, rfl⟩
    obtain ⟨ya, hya, e1, _⟩ := key qa hqa
    obtain ⟨yb, hyb, e2, _⟩ := key qb hqb
    obtain ⟨yc, hyc, _, e3⟩ := key qc hqc
    obtain ⟨yd, hyd, _, e4⟩ := key qd hqd
    have b1 := hb ya hya
    have b2 := hb yb hyb
    have b3 := hb yc hyc
    have b4 := hb yd hyd
    have c1 := hb' pc.transpose (Finset.mem_image_of_mem _ hpc)
    have c2 := hb' pd.transpose (Finset.mem_image_of_mem _ hpd)
    have c3 := hb' pa.transpose (Finset.mem_image_of_mem _ hpa)
    have c4 := hb' pb.transpose (Finset.mem_image_of_mem _ hpb)
    simp only [Position.transpose] at c1 c2 c3 c4
    rw [hcen, hcen']
    exact Position.ext_rc (by simp only [Position.transpose]; omega)
      (by simp only [Position.transpose]; omega)
  · rw [Finset.not_nonempty_iff_eq_empty] at h
    rw [Galaxy.center, Galaxy.center]
    simp [h, Position.transpose]

/-- The transpose of a symmetric galaxy is symmetric. -/
theorem Galaxy.isSymmetric_image_transpose {g : Galaxy} (h : g.IsSymmetric) :
    (⟨g.positions.image Position.transpose⟩ : Galaxy).IsSymmetric := by
  intro q hq
  obtain ⟨y, hy, rfl⟩ := Finset.mem_image.mp hq
  have hmem := h y hy
  have hmc : (⟨g.positions.image Position.transpose⟩ : Galaxy).mirrorPosition y.transpose
      = (g.mirrorPosition y).transpose := by
    rw [Galaxy.mirrorPosition, Galaxy.mirrorPosition, Galaxy.center_image_transpose]
    exact Position.ext_rc (by simp [Position.mirrorPosition, Position.transpose])
      (by simp [Position.mirrorPosition, Position.transpose])
  rw [hmc]
  exact Finset.mem_image_of_mem _ hmem

/-- The center of the mirror image of a non-empty galaxy through a
fixed point `c`. -/
theorem Galaxy.center_image_mirror (c : Position) (g : Galaxy)
    (h : g.positions.Nonempty) :
    (⟨g.positions.image fun p => c.mirrorPosition p⟩ : Galaxy).center =
      ⟨2 * c.row - g.center.row, 2 * c.column - g.center.column⟩ := by
  obtain ⟨R0, R1, C0, C1, hcen, hb, ⟨pa, hpa, ha⟩, ⟨pb, hpb, hbb⟩,
    ⟨pc, hpc, hcc⟩, ⟨pd, hpd, hd⟩⟩ := g.bbox h
  obtain ⟨A0, A1, B0, B1, hcen', hb', ⟨qa, hqa, ha'⟩, ⟨qb, hqb, hbb'⟩,
    ⟨qc, hqc, hcc'⟩, ⟨qd, hqd, hd'⟩⟩ :=
    Galaxy.bbox ⟨g.positions.image fun p => c.mirrorPosition p⟩ (h.image _)
  have key : ∀ q ∈ (g.positions.image fun p => c.mirrorPosition p),
      ∃ y ∈ g.positions, q.row = c.row - y.row ∧ q.column = c.column - y.column := by
    intro q hq
    obtain ⟨y, hy, rfl⟩ := Finset.mem_image.mp hq
    exact ⟨y, hy, rfl, rfl⟩
  obtain ⟨ya, hya, e1, _⟩ := key qa hqa
  obtain ⟨yb, hyb, e2, _⟩ := key qb hqb
  obtain ⟨yc, hyc, _, e3⟩ := key qc hqc
  obtain ⟨yd, hyd, _, e4⟩ := key qd hqd
  have b1 := hb ya hya
  have b2 := hb yb hyb
  have b3 := hb yc hyc
  have b4 := hb yd hyd
  have c1 := hb' (c.mirrorPosition pb) (Finset.mem_image_of_mem _ hpb)
  have c2 := hb' (c.mirrorPosition pa) (Finset.mem_image_of_mem _ hpa)
  have c3 := hb' (c.mirrorPosition pd) (Finset.mem_image_of_mem _ hpd)
  have c4 := hb' (c.mirrorPosition pc) (Finset.mem_image_of_mem _ hpc)
  simp only [Position.mirrorPosition] at c1 c2 c3 c4
  rw [hcen, hcen']
  exact Position.ext_rc (by simp only []; omega) (by simp only []; omega)

/-- The mirror image of a symmetric galaxy through any fixed point is
symmetric. -/
theorem Galaxy.isSymmetric_image_mirror (c : Position) {g : Galaxy}
    (h : g.IsSymmetric) :
    (⟨g.positions.image fun p => c.mirrorPosition p⟩ : Galaxy).IsSymmetric := by
  by_cases hne : g.positions.Nonempty
  · intro q hq
    obtain ⟨y, hy, rfl⟩ := Finset.mem_image.mp hq
    have hmem := h y hy
    have hmc : (⟨g.positions.image fun p => c.mirrorPosition p⟩ : Galaxy).mirrorPosition
        (c.mirrorPosition y) = c.mirrorPosition (g.mirrorPosition y) := by
      rw [Galaxy.mirrorPosition, Galaxy.center_image_mirror c g hne]
      exact Position.ext_rc
        (by simp only [Galaxy.mirrorPosition, Position.mirrorPosition]; ring)
        (by simp only [Galaxy.mirrorPosition, Position.mirrorPosition]; ring)
    rw [hmc]
    exact Finset.mem_image_of_mem _ hmem
  · rw [Finset.not_nonempty_iff_eq_empty] at hne
    intro q hq
    rw [hne, Finset.image_empty] at hq
    exact absurd hq (Finset.not_mem_empty q)

/-- The vertical run argument: if extending a symmetric connected
galaxy by two cells stacked below its bottom row yields a symmetric
galaxy, the galaxy is a single column and the one-cell extension was
already symmetric.  (Rows grow downwards, so the bottom row is the
maximal one.) -/
theorem Galaxy.run_up {g : Galaxy} {p1 : Position}
    (hsym : g.IsSymmetric)
    (hconn : ∀ p ∈ g.positions, ∀ q ∈ g.positions, ReachIn g.positions p q)
    (hp1 : p1 ∈ g.positions)
    (htop : ∀ p ∈ g.positions, p.row ≤ p1.row)
    (hS3sym : ((g.withPosition p1.down).withPosition p1.down.down).IsSymmetric) :
    (g.withPosition p1.down).IsSymmetric := by
  have hne : g.positions.Nonempty := ⟨p1, hp1⟩
  obtain ⟨R0, R1, C0, C1, hcen, hb, ⟨pa, hpa, haR0⟩, ⟨pb, hpb, hbR1⟩,
    ⟨pc, hpc, hcC0⟩, ⟨pd, hpd, hdC1⟩⟩ := g.bbox hne
  have hp1R1 : p1.row = R1 := le_antisymm (hb p1 hp1).2.1 (hbR1 ▸ htop pb hpb)
  have hR0R1 : R0 ≤ R1 := le_trans (hb p1 hp1).1 (hb p1 hp1).2.1
  have hσ1 : C0 ≤ p1.column := (hb p1 hp1).2.2.1
  have hσ2 : p1.column ≤ C1 := (hb p1 hp1).2.2.2
  have hd1r : p1.down.row = R1 + 1 := by simp [Position.down, hp1R1]
  have hd1c : p1.down.column = p1.column := rfl
  have hd2r : p1.down.down.row = R1 + 2 := by
    simp only [Position.down]
    omega
  have hd2c : p1.down.down.column = p1.column := rfl
  set S3 : Galaxy := (g.withPosition p1.down).withPosition p1.down.down with hS3eq
  have hmemS3 : ∀ w, w ∈ S3.positions ↔
      w = p1.down.down ∨ w = p1.down ∨ w ∈ g.positions := by
    intro w
    simp [hS3eq, Galaxy.withPosition]
  have hneS3 : S3.positions.Nonempty := ⟨p1.down, (hmemS3 _).mpr (Or.inr (Or.inl rfl))⟩
  obtain ⟨A0, A1, B0, B1, hcen3, hb3, ⟨qa, hqa, hA0⟩, ⟨qb, hqb, hA1⟩,
    ⟨qc, hqc, hB0⟩, ⟨qd, hqd, hB1⟩⟩ := S3.bbox hneS3
  have hboundS3 : ∀ w ∈ S3.positions,
      R0 ≤ w.row ∧ w.row ≤ R1 + 2 ∧ C0 ≤ w.column ∧ w.column ≤ C1 := by
    intro w hw
    rcases (hmemS3 w).mp hw with rfl | rfl | hw'
    · refine ⟨?_, ?_, ?_, ?_⟩ <;> simp only [hd2r, hd2c] <;> omega
    · refine ⟨?_, ?_, ?_, ?_⟩ <;> simp only [hd1r, hd1c] <;> omega
    · have := hb w hw'
      omega
  have hbox3 : A0 = R0 ∧ A1 = R1 + 2 ∧ B0 = C0 ∧ B1 = C1 := by
    have m1 := hb3 p1.down.down ((hmemS3 _).mpr (Or.inl rfl))
    have m3 := hb3 pa ((hmemS3 _).mpr (Or.inr (Or.inr hpa)))
    have m4 := hb3 pc ((hmemS3 _).mpr (Or.inr (Or.inr hpc)))
    have m5 := hb3 pd ((hmemS3 _).mpr (Or.inr (Or.inr hpd)))
    rw [hd2r, hd2c] at m1
    rw [haR0] at m3
    rw [hcC0] at m4
    rw [hdC1] at m5
    have s1 := hboundS3 qa hqa
    have s2 := hboundS3 qb hqb
    have s3 := hboundS3 qc hqc
    have s4 := hboundS3 qd hqd
    refine ⟨by omega, by omega, by omega, by omega⟩
  have hc3 : S3.center = ⟨R0 + R1 + 2, C0 + C1⟩ := by
    rw [hcen3]
    exact Position.ext_rc (by show A0 + A1 = R0 + R1 + 2; omega)
      (by show B0 + B1 = C0 + C1; omega)
  have hT : ∀ y ∈ g.positions, (⟨y.row + 2, y.column⟩ : Position) ∈ S3.positions := by
    intro y hy
    have hm : g.mirrorPosition y ∈ g.positions := hsym y hy
    have hmS3 : g.mirrorPosition y ∈ S3.positions := (hmemS3 _).mpr (Or.inr (Or.inr hm))
    have h2 := hS3sym _ hmS3
    have he : S3.mirrorPosition (g.mirrorPosition y) = ⟨y.row + 2, y.column⟩ := by
      rw [Galaxy.mirrorPosition, Galaxy.mirrorPosition, hc3, hcen]
      exact Position.ext_rc (by show R0 + R1 + 2 - (R0 + R1 - y.row) = y.row + 2; ring)
        (by show C0 + C1 - (C0 + C1 - y.column) = y.column; ring)
    rwa [he] at h2
  have hrows_g : ∀ w ∈ S3.positions, w.row ≤ R1 → w ∈ g.positions := by
    intro w hw hwr
    rcases (hmemS3 w).mp hw with rfl | rfl | h
    · rw [hd2r] at hwr; omega
    · rw [hd1r] at hwr; omega
    · exact h
  have htopcol : ∀ y ∈ g.positions, R1 - 1 ≤ y.row → y.column = p1.column := by
    intro y hy hyr
    have hTy := hT y hy
    rcases (hmemS3 _).mp hTy with he | he | hmem
    · have h2 := congrArg Position.column he
      simpa [hd2c] using h2
    · have h2 := congrArg Position.column he
      simpa [hd1c] using h2
    · have h3 := (hb _ hmem).2.1
      have h4 : y.row + 2 ≤ R1 := h3
      omega
  have hcol : ∀ n : Nat, ∀ y ∈ g.positions,
      (R1 - 1 - y.row).toNat ≤ n → y.column = p1.column := by
    intro n
    induction n with
    | zero =>
      intro y hy hyn
      apply htopcol y hy
      omega
    | succ n ih =>
      intro y hy hyn
      by_cases hcase : R1 - 1 ≤ y.row
      · exact htopcol y hy hcase
      · have hTy := hT y hy
        have hyg : (⟨y.row + 2, y.column⟩ : Position) ∈ g.positions := by
          apply hrows_g _ hTy
          show y.row + 2 ≤ R1
          omega
        have h5 := ih _ hyg (by show (R1 - 1 - (y.row + 2)).toNat ≤ n; omega)
        exact h5
  have hallcol : ∀ y ∈ g.positions, y.column = p1.column :=
    fun y hy => hcol (R1 - 1 - y.row).toNat y hy le_rfl
  have hinterval : ∀ ρ : Int, R0 ≤ ρ → ρ ≤ R1 →
      (⟨ρ, p1.column⟩ : Position) ∈ g.positions := by
    intro ρ h1 h2
    have hreach := hconn pa hpa p1 hp1
    obtain ⟨y, hy, hyρ⟩ := ReachIn.row_ivt hpa hreach ρ (by rw [haR0, hp1R1]; omega)
    have he : y = ⟨ρ, p1.column⟩ := Position.ext_rc hyρ (hallcol y hy)
    rwa [he] at hy
  set G2 : Galaxy := g.withPosition p1.down with hG2eq
  have hmemG2 : ∀ w, w ∈ G2.positions ↔ w = p1.down ∨ w ∈ g.positions := by
    intro w
    simp [hG2eq, Galaxy.withPosition]
  have hneG2 : G2.positions.Nonempty := ⟨p1.down, (hmemG2 _).mpr (Or.inl rfl)⟩
  obtain ⟨A0', A1', B0', B1', hcen2, hb2, ⟨ra, hra, hra'⟩, ⟨rb, hrb, hrb'⟩,
    ⟨rc, hrc, hrc'⟩, ⟨rd, hrd, hrd'⟩⟩ := G2.bbox hneG2
  have hbound2 : ∀ w ∈ G2.positions,
      R0 ≤ w.row ∧ w.row ≤ R1 + 1 ∧ w.column = p1.column := by
    intro w hw
    rcases (hmemG2 w).mp hw with rfl | h
    · refine ⟨?_, ?_, hd1c⟩ <;> simp only [hd1r] <;> omega
    · exact ⟨(hb w h).1, by have := (hb w h).2.1; omega, hallcol w h⟩
  have hbox2 : A0' = R0 ∧ A1' = R1 + 1 ∧ B0' = p1.column ∧ B1' = p1.column := by
    have m1 := hb2 p1.down ((hmemG2 _).mpr (Or.inl rfl))
    have m2 := hb2 pa ((hmemG2 _).mpr (Or.inr hpa))
    obtain ⟨s1, s2, s3⟩ := hbound2 ra hra
    obtain ⟨t1, t2, t3⟩ := hbound2 rb hrb
    obtain ⟨u1, u2, u3⟩ := hbound2 rc hrc
    obtain ⟨v1, v2, v3⟩ := hbound2 rd hrd
    rw [hd1r, hd1c] at m1
    rw [haR0] at m2
    refine ⟨by omega, by omega, by omega, by omega⟩
  have hc2 : G2.center = ⟨R0 + R1 + 1, p1.column + p1.column⟩ := by
    rw [hcen2]
    exact Position.ext_rc (by show A0' + A1' = R0 + R1 + 1; omega)
      (by show B0' + B1' = p1.column + p1.column; omega)
  intro w hw
  rw [Galaxy.mirrorPosition, hc2]
  rcases (hmemG2 w).mp hw with rfl | hwg
  · have he : Position.mirrorPosition ⟨R0 + R1 + 1, p1.column + p1.column⟩ p1.down
        = ⟨R0, p1.column⟩ := by
      apply Position.ext_rc
      · show R0 + R1 + 1 - p1.down.row = R0
        rw [hd1r]; ring
      · show p1.column + p1.column - p1.down.column = p1.column
        rw [hd1c]; ring
    rw [he]
    exact (hmemG2 _).mpr (Or.inr (hinterval R0 le_rfl hR0R1))
  · have hwcol : w.column = p1.column := hallcol w hwg
    have hwrow := hb w hwg
    have hmw : Position.mirrorPosition ⟨R0 + R1 + 1, p1.column + p1.column⟩ w
        = ⟨R0 + R1 + 1 - w.row, p1.column⟩ := by
      apply Position.ext_rc
      · rfl
      · show p1.column + p1.column - w.column = p1.column
        omega
    rw [hmw]
    by_cases hcase : R0 + R1 + 1 - w.row = R1 + 1
    · have he : (⟨R0 + R1 + 1 - w.row, p1.column⟩ : Position) = p1.down := by
        apply Position.ext_rc
        · show R0 + R1 + 1 - w.row = p1.down.row
          rw [hd1r]; omega
        · show p1.column = p1.down.column
          rw [hd1c]
      rw [he]
      exact (hmemG2 _).mpr (Or.inl rfl)
    · exact (hmemG2 _).mpr (Or.inr (hinterval _ (by omega) (by omega)))

/-- `Galaxy.run_up` reflected through the galaxy's center: two cells
stacked above the top row. -/
theorem Galaxy.run_down {g : Galaxy} {p1 : Position}
    (hsym : g.IsSymmetric)
    (hconn : ∀ p ∈ g.positions, ∀ q ∈ g.positions, ReachIn g.positions p q)
    (hp1 : p1 ∈ g.positions)
    (hbot : ∀ p ∈ g.positions, p1.row ≤ p.row)
    (hS3sym : ((g.withPosition p1.up).withPosition p1.up.up).IsSymmetric) :
    (g.withPosition p1.up).IsSymmetric := by
  have himg : (g.positions.image fun p => g.center.mirrorPosition p) = g.positions :=
    image_mirror_self hsym
  have hp1' : g.center.mirrorPosition p1 ∈ g.positions := hsym p1 hp1
  have htop' : ∀ p ∈ g.positions, p.row ≤ (g.center.mirrorPosition p1).row := by
    intro p hp
    have h2 : p1.row ≤ (g.center.mirrorPosition p).row := hbot _ (hsym p hp)
    have h3 : p1.row ≤ g.center.row - p.row := h2
    show p.row ≤ g.center.row - p1.row
    omega
  have e1 : (g.center.mirrorPosition p1).down = g.center.mirrorPosition p1.up :=
    Position.ext_rc
      (by show g.center.row - p1.row + 1 = g.center.row - (p1.row - 1); ring) rfl
  have e2 : (g.center.mirrorPosition p1).down.down = g.center.mirrorPosition p1.up.up :=
    Position.ext_rc
      (by show g.center.row - p1.row + 1 + 1 = g.center.row - (p1.row - 1 - 1); ring) rfl
  have himg3 : (((g.withPosition p1.up).withPosition p1.up.up).positions.image
      fun p => g.center.mirrorPosition p) =
      ((g.withPosition (g.center.mirrorPosition p1).down).withPosition
        (g.center.mirrorPosition p1).down.down).positions := by
    show (insert p1.up.up (insert p1.up g.positions)).image (fun p => g.center.mirrorPosition p)
        = insert ((g.center.mirrorPosition p1).down.down)
            (insert ((g.center.mirrorPosition p1).down) g.positions)
    rw [Finset.image_insert, Finset.image_insert, himg, e2, e1]
  have heq : (⟨((g.withPosition p1.up).withPosition p1.up.up).positions.image
      fun p => g.center.mirrorPosition p⟩ : Galaxy) =
      (g.withPosition (g.center.mirrorPosition p1).down).withPosition
        (g.center.mirrorPosition p1).down.down :=
    Galaxy.eq_of_positions_eq himg3
  have hS3' : ((g.withPosition (g.center.mirrorPosition p1).down).withPosition
      (g.center.mirrorPosition p1).down.down).IsSymmetric := by
    rw [← heq]
    exact Galaxy.isSymmetric_image_mirror g.center hS3sym
  have hmain := Galaxy.run_up hsym hconn hp1' htop' hS3'
  have e3 : g.center.mirrorPosition ((g.center.mirrorPosition p1).down) = p1.up :=
    Position.ext_rc
      (by show g.center.row - (g.center.row - p1.row + 1) = p1.row - 1; ring)
      (by show g.center.column - (g.center.column - p1.column) = p1.column; ring)
  have hback : ((g.withPosition (g.center.mirrorPosition p1).down).positions.image
      fun p => g.center.mirrorPosition p) = (g.withPosition p1.up).positions := by
    show (insert ((g.center.mirrorPosition p1).down) g.positions).image
        (fun p => g.center.mirrorPosition p) = insert p1.up g.positions
    rw [Finset.image_insert, himg, e3]
  have heq2 : (⟨(g.withPosition (g.center.mirrorPosition p1).down).positions.image
      fun p => g.center.mirrorPosition p⟩ : Galaxy) = g.withPosition p1.up :=
    Galaxy.eq_of_positions_eq hback
  rw [← heq2]
  exact Galaxy.isSymmetric_image_mirror g.center hmain

/-- `Galaxy.run_up` transposed: two cells appended after the rightmost
column. -/
theorem Galaxy.run_right {g : Galaxy} {p1 : Position}
    (hsym : g.IsSymmetric)
    (hconn : ∀ p ∈ g.positions, ∀ q ∈ g.positions, ReachIn g.positions p q)
    (hp1 : p1 ∈ g.positions)
    (hcolmax : ∀ p ∈ g.positions, p.column ≤ p1.column)
    (hS3sym : ((g.withPosition p1.right).withPosition p1.right.right).IsSymmetric) :
    (g.withPosition p1.right).IsSymmetric := by
  have hsymt : (⟨g.positions.image Position.transpose⟩ : Galaxy).IsSymmetric :=
    Galaxy.isSymmetric_image_transpose hsym
  have hconnt : ∀ p ∈ g.positions.image Position.transpose,
      ∀ q ∈ g.positions.image Position.transpose,
      ReachIn (g.positions.image Position.transpose) p q := by
    intro p hp q hq
    obtain ⟨a, ha, rfl⟩ := Finset.mem_image.mp hp
    obtain ⟨b, hb, rfl⟩ := Finset.mem_image.mp hq
    exact ReachIn.map (fun x y h => Position.transpose_adjacent h) (hconn a ha b hb)
  have hp1t : p1.transpose ∈ g.positions.image Position.transpose :=
    Finset.mem_image_of_mem _ hp1
  have htopt : ∀ p ∈ g.positions.image Position.transpose, p.row ≤ p1.transpose.row := by
    intro p hp
    obtain ⟨a, ha, rfl⟩ := Finset.mem_image.mp hp
    exact hcolmax a ha
  have e1 : p1.transpose.down = p1.right.transpose := rfl
  have e2 : p1.transpose.down.down = p1.right.right.transpose := rfl
  have himg3 : (((g.withPosition p1.right).withPosition p1.right.right).positions.image
      Position.transpose) =
      (((⟨g.positions.image Position.transpose⟩ : Galaxy).withPosition
        p1.transpose.down).withPosition p1.transpose.down.down).positions := by
    show (insert p1.right.right (insert p1.right g.positions)).image Position.transpose
        = insert p1.transpose.down.down
            (insert p1.transpose.down (g.positions.image Position.transpose))
    rw [Finset.image_insert, Finset.image_insert, e2, e1]
  have heq : (⟨((g.withPosition p1.right).withPosition p1.right.right).positions.image
      Position.transpose⟩ : Galaxy) =
      ((⟨g.positions.image Position.transpose⟩ : Galaxy).withPosition
        p1.transpose.down).withPosition p1.transpose.down.down :=
    Galaxy.eq_of_positions_eq himg3
  have hS3t : (((⟨g.positions.image Position.transpose⟩ : Galaxy).withPosition
      p1.transpose.down).withPosition p1.transpose.down.down).IsSymmetric := by
    rw [← heq]
    exact Galaxy.isSymmetric_image_transpose hS3sym
  have hmain := Galaxy.run_up hsymt hconnt hp1t htopt hS3t
  have hback : (((⟨g.positions.image Position.transpose⟩ : Galaxy).withPosition
      p1.transpose.down).positions.image Position.transpose)
      = (g.withPosition p1.right).positions := by
    show (insert p1.transpose.down (g.positions.image Position.transpose)).image
        Position.transpose = insert p1.right g.positions
    rw [Finset.image_insert, image_transpose_transpose, e1, Position.transpose_transpose]
  have heq2 : (⟨((⟨g.positions.image Position.transpose⟩ : Galaxy).withPosition
      p1.transpose.down).positions.image Position.transpose⟩ : Galaxy)
      = g.withPosition p1.right :=
    Galaxy.eq_of_positions_eq hback
  rw [← heq2]
  exact Galaxy.isSymmetric_image_transpose hmain

/-- `Galaxy.run_down` transposed: two cells appended before the
leftmost column. -/
theorem Galaxy.run_left {g : Galaxy} {p1 : Position}
    (hsym : g.IsSymmetric)
    (hconn : ∀ p ∈ g.positions, ∀ q ∈ g.positions, ReachIn g.positions p q)
    (hp1 : p1 ∈ g.positions)
    (hcolmin : ∀ p ∈ g.positions, p1.column ≤ p.column)
    (hS3sym : ((g.withPosition p1.left).withPosition p1.left.left).IsSymmetric) :
    (g.withPosition p1.left).IsSymmetric := by
  have hsymt : (⟨g.positions.image Position.transpose⟩ : Galaxy).IsSymmetric :=
    Galaxy.isSymmetric_image_transpose hsym
  have hconnt : ∀ p ∈ g.positions.image Position.transpose,
      ∀ q ∈ g.positions.image Position.transpose,
      ReachIn (g.positions.image Position.transpose) p q := by
    intro p hp q hq
    obtain ⟨a, ha, rfl⟩ := Finset.mem_image.mp hp
    obtain ⟨b, hb, rfl⟩ := Finset.mem_image.mp hq
    exact ReachIn.map (fun x y h => Position.transpose_adjacent h) (hconn a ha b hb)
  have hp1t : p1.transpose ∈ g.positions.image Position.transpose :=
    Finset.mem_image_of_mem _ hp1
  have hbott : ∀ p ∈ g.positions.image Position.transpose, p1.transpose.row ≤ p.row := by
    intro p hp
    obtain ⟨a, ha, rfl⟩ := Finset.mem_image.mp hp
    exact hcolmin a ha
  have e1 : p1.transpose.up = p1.left.transpose := rfl
  have e2 : p1.transpose.up.up = p1.left.left.transpose := rfl
  have himg3 : (((g.withPosition p1.left).withPosition p1.left.left).positions.image
      Position.transpose) =
      (((⟨g.positions.image Position.transpose⟩ : Galaxy).withPosition
        p1.transpose.up).withPosition p1.transpose.up.up).positions := by
    show (insert p1.left.left (insert p1.left g.positions)).image Position.transpose
        = insert p1.transpose.up.up
            (insert p1.transpose.up (g.positions.image Position.transpose))
    rw [Finset.image_insert, Finset.image_insert, e2, e1]
  have heq : (⟨((g.withPosition p1.left).withPosition p1.left.left).positions.image
      Position.transpose⟩ : Galaxy) =
      ((⟨g.positions.image Position.transpose⟩ : Galaxy).withPosition
        p1.transpose.up).withPosition p1.transpose.up.up :=
    Galaxy.eq_of_positions_eq himg3
  have hS3t : (((⟨g.positions.image Position.transpose⟩ : Galaxy).withPosition
      p1.transpose.up).withPosition p1.transpose.up.up).IsSymmetric := by
    rw [← heq]
    exact Galaxy.isSymmetric_image_transpose hS3sym
  have hmain := Galaxy.run_down hsymt hconnt hp1t hbott hS3t
  have hback : (((⟨g.positions.image Position.transpose⟩ : Galaxy).withPosition
      p1.transpose.up).positions.image Position.transpose)
      = (g.withPosition p1.left).positions := by
    show (insert p1.transpose.up (g.positions.image Position.transpose)).image
        Position.transpose = insert p1.left g.positions
    rw [Finset.image_insert, image_transpose_transpose, e1, Position.transpose_transpose]
  have heq2 : (⟨((⟨g.positions.image Position.transpose⟩ : Galaxy).withPosition
      p1.transpose.up).positions.image Position.transpose⟩ : Galaxy)
      = g.withPosition p1.left :=
    Galaxy.eq_of_positions_eq hback
  rw [← heq2]
  exact Galaxy.isSymmetric_image_transpose hmain

/-- Lemma A: extending a valid galaxy by one adjacent outside cell
such that the extension is symmetric yields a valid galaxy (the
symmetric branch of `generate_step`). -/
theorem Galaxy.union_one_valid {g : Galaxy} {p1 p2 : Position}
    (hval : g.IsValid) (hp1 : p1 ∈ g.positions)
    (hadj : p2 ∈ p1.adjacent) (hp2 : p2 ∉ g.positions)
    (hsym2 : (g.withPosition p2).IsSymmetric)
    (hnn : ∀ q ∈ g.positions, 0 ≤ q.row ∧ 0 ≤ q.column)
    (hnn2 : 0 ≤ p2.row ∧ 0 ≤ p2.column) :
    (g.withPosition p2).IsValid := by
  have hcc : g.ContainsCenter := hval.2.1
  have hsym : g.IsSymmetric := hval.2.2.2
  have hne : g.positions.Nonempty :=
    Finset.nonempty_iff_ne_empty.mpr hval.1
  have hconn : ∀ p ∈ g.positions, ∀ q ∈ g.positions, ReachIn g.positions p q :=
    (Galaxy.isConnected_iff_pairwise g).mp hval.2.2.1
  obtain ⟨R0, R1, C0, C1, hcen, hb, ⟨pa, hpa, haR0⟩, ⟨pb, hpb, hbR1⟩,
    ⟨pc, hpc, hcC0⟩, ⟨pd, hpd, hdC1⟩⟩ := g.bbox hne
  set G2 : Galaxy := g.withPosition p2 with hG2eq
  have hmemG2 : ∀ w, w ∈ G2.positions ↔ w = p2 ∨ w ∈ g.positions := by
    intro w
    simp [hG2eq, Galaxy.withPosition]
  have hneG2 : G2.positions.Nonempty := ⟨p2, (hmemG2 _).mpr (Or.inl rfl)⟩
  obtain ⟨A0, A1, B0, B1, hcen2, hb2, ⟨qa, hqa, hA0⟩, ⟨qb, hqb, hA1⟩,
    ⟨qc, hqc, hB0⟩, ⟨qd, hqd, hB1⟩⟩ := G2.bbox hneG2
  have hp1b := hb p1 hp1
  have hadj' := Position.mem_adjacent_iff.mp hadj
  have m2 := hb2 p2 ((hmemG2 _).mpr (Or.inl rfl))
  have ma := hb2 pa ((hmemG2 _).mpr (Or.inr hpa))
  have mb := hb2 pb ((hmemG2 _).mpr (Or.inr hpb))
  have mc := hb2 pc ((hmemG2 _).mpr (Or.inr hpc))
  have md := hb2 pd ((hmemG2 _).mpr (Or.inr hpd))
  rw [haR0] at ma
  rw [hbR1] at mb
  rw [hcC0] at mc
  rw [hdC1] at md
  have ka : A0 = p2.row ∨ R0 ≤ A0 := by
    rcases (hmemG2 qa).mp hqa with rfl | h
    · exact Or.inl hA0.symm
    · right; rw [← hA0]; exact (hb qa h).1
  have kb : A1 = p2.row ∨ A1 ≤ R1 := by
    rcases (hmemG2 qb).mp hqb with rfl | h
    · exact Or.inl hA1.symm
    · right; rw [← hA1]; exact (hb qb h).2.1
  have kc : B0 = p2.column ∨ C0 ≤ B0 := by
    rcases (hmemG2 qc).mp hqc with rfl | h
    · exact Or.inl hB0.symm
    · right; rw [← hB0]; exact (hb qc h).2.2.1
  have kd : B1 = p2.column ∨ B1 ≤ C1 := by
    rcases (hmemG2 qd).mp hqd with rfl | h
    · exact Or.inl hB1.symm
    · right; rw [← hB1]; exact (hb qd h).2.2.2
  have hR0nn : 0 ≤ R0 := haR0 ▸ (hnn pa hpa).1
  have hC0nn : 0 ≤ C0 := hcC0 ▸ (hnn pc hpc).2
  have haxis : (p2.column = p1.column ∧ B0 = C0 ∧ B1 = C1)
      ∨ (p2.row = p1.row ∧ A0 = R0 ∧ A1 = R1) := by
    rcases hadj' with ⟨h1, h2⟩ | ⟨h1, h2⟩ | ⟨h1, h2⟩ | ⟨h1, h2⟩
    · exact Or.inl ⟨h2, by omega, by omega⟩
    · exact Or.inl ⟨h2, by omega, by omega⟩
    · exact Or.inr ⟨h1, by omega, by omega⟩
    · exact Or.inr ⟨h1, by omega, by omega⟩
  have hboxrel : R0 - 1 ≤ A0 ∧ A0 ≤ R0 ∧ R1 ≤ A1 ∧ A1 ≤ R1 + 1 ∧
      C0 - 1 ≤ B0 ∧ B0 ≤ C0 ∧ C1 ≤ B1 ∧ B1 ≤ C1 + 1 := by
    refine ⟨?_, ?_, ?_, ?_, ?_, ?_, ?_, ?_⟩ <;> omega
  have hTmem : ∀ r c : Int, (⟨r, c⟩ : Position) ∈ g.positions →
      (⟨r + (A0 + A1 - R0 - R1), c + (B0 + B1 - C0 - C1)⟩ : Position) ∈ G2.positions := by
    intro r c hy
    have hm : g.mirrorPosition ⟨r, c⟩ ∈ g.positions := hsym _ hy
    have h2 := hsym2 _ ((hmemG2 _).mpr (Or.inr hm))
    have he : G2.mirrorPosition (g.mirrorPosition ⟨r, c⟩)
        = ⟨r + (A0 + A1 - R0 - R1), c + (B0 + B1 - C0 - C1)⟩ := by
      rw [Galaxy.mirrorPosition, Galaxy.mirrorPosition, hcen2, hcen]
      exact Position.ext_rc
        (by show A0 + A1 - (R0 + R1 - r) = r + (A0 + A1 - R0 - R1); ring)
        (by show B0 + B1 - (C0 + C1 - c) = c + (B0 + B1 - C0 - C1); ring)
    rwa [he] at h2
  have hccG2 : G2.ContainsCenter := by
    intro q hq
    rw [hcen2, Position.mem_footprint] at hq
    obtain ⟨hqr, hqc⟩ := hq
    rw [show (⟨A0 + A1, B0 + B1⟩ : Position).row = A0 + A1 from rfl,
      mem_footprintCoords_iff (by omega)] at hqr
    rw [show (⟨A0 + A1, B0 + B1⟩ : Position).column = B0 + B1 from rfl,
      mem_footprintCoords_iff (by omega)] at hqc
    have hfoot : ∀ r c : Int, 2 * r - 1 ≤ R0 + R1 → R0 + R1 ≤ 2 * r + 1 →
        2 * c - 1 ≤ C0 + C1 → C0 + C1 ≤ 2 * c + 1 →
        (⟨r, c⟩ : Position) ∈ g.positions := by
      intro r c h1 h2 h3 h4
      apply hcc
      rw [hcen, Position.mem_footprint]
      rw [show (⟨R0 + R1, C0 + C1⟩ : Position).row = R0 + R1 from rfl,
        show (⟨R0 + R1, C0 + C1⟩ : Position).column = C0 + C1 from rfl,
        mem_footprintCoords_iff (by omega), mem_footprintCoords_iff (by omega)]
      exact ⟨⟨h1, h2⟩, ⟨h3, h4⟩⟩
    rcases haxis with ⟨_, hB0e, hB1e⟩ | ⟨_, hA0e, hA1e⟩
    · by_cases hplain : 2 * q.row - 1 ≤ R0 + R1 ∧ R0 + R1 ≤ 2 * q.row + 1
      · exact (hmemG2 q).mpr (Or.inr (hfoot q.row q.column (by omega) (by omega)
          (by omega) (by omega)))
      · have hq0 : (⟨q.row - (A0 + A1 - R0 - R1), q.column⟩ : Position) ∈ g.positions :=
          hfoot _ _ (by omega) (by omega) (by omega) (by omega)
        have h5 := hTmem _ _ hq0
        have he2 : (⟨q.row - (A0 + A1 - R0 - R1) + (A0 + A1 - R0 - R1),
            q.column + (B0 + B1 - C0 - C1)⟩ : Position) = q :=
          Position.ext_rc
            (by show q.row - (A0 + A1 - R0 - R1) + (A0 + A1 - R0 - R1) = q.row; ring)
            (by show q.column + (B0 + B1 - C0 - C1) = q.column; omega)
        rwa [he2] at h5
    · by_cases hplain : 2 * q.column - 1 ≤ C0 + C1 ∧ C0 + C1 ≤ 2 * q.column + 1
      · exact (hmemG2 q).mpr (Or.inr (hfoot q.row q.column (by omega) (by omega)
          (by omega) (by omega)))
      · have hq0 : (⟨q.row, q.column - (B0 + B1 - C0 - C1)⟩ : Position) ∈ g.positions :=
          hfoot _ _ (by omega) (by omega) (by omega) (by omega)
        have h5 := hTmem _ _ hq0
        have he2 : (⟨q.row + (A0 + A1 - R0 - R1),
            q.column - (B0 + B1 - C0 - C1) + (B0 + B1 - C0 - C1)⟩ : Position) = q :=
          Position.ext_rc
            (by show q.row + (A0 + A1 - R0 - R1) = q.row; omega)
            (by show q.column - (B0 + B1 - C0 - C1) + (B0 + B1 - C0 - C1) = q.column; ring)
        rwa [he2] at h5
  refine ⟨fun h => Finset.nonempty_iff_ne_empty.mp hneG2 h, hccG2, ?_, hsym2⟩
  rw [Galaxy.isConnected_iff_pairwise]
  exact pairwise_reach_insert hp1 hadj hconn

/-- Lemma B, mirror case: extending a valid galaxy by an adjacent
outside cell and that cell's mirror through the galaxy's center yields
a valid galaxy, and the mirror is itself outside and distinct from the
cell. -/
theorem Galaxy.union_mirror_valid {g : Galaxy} {p1 p2 : Position}
    (hval : g.IsValid) (hp1 : p1 ∈ g.positions)
    (hadj : p2 ∈ p1.adjacent) (hp2 : p2 ∉ g.positions) :
    ((g.withPosition p2).withPosition (g.mirrorPosition p2)).IsValid ∧
    g.mirrorPosition p2 ∉ g.positions ∧ g.mirrorPosition p2 ≠ p2 := by
  have hcc : g.ContainsCenter := hval.2.1
  have hsym : g.IsSymmetric := hval.2.2.2
  have hne : g.positions.Nonempty :=
    Finset.nonempty_iff_ne_empty.mpr hval.1
  have hconn : ∀ p ∈ g.positions, ∀ q ∈ g.positions, ReachIn g.positions p q :=
    (Galaxy.isConnected_iff_pairwise g).mp hval.2.2.1
  have hp3out : g.mirrorPosition p2 ∉ g.positions := by
    intro h
    have h2 := hsym _ h
    rw [Galaxy.mirrorPosition, Galaxy.mirrorPosition, Position.mirror_mirror] at h2
    exact hp2 h2
  have hp3ne : g.mirrorPosition p2 ≠ p2 := by
    intro h
    have hrow : g.center.row = p2.row + p2.row := by
      have := congrArg Position.row h
      rw [Galaxy.mirrorPosition] at this
      have h2 : g.center.row - p2.row = p2.row := this
      omega
    have hcol : g.center.column = p2.column + p2.column := by
      have := congrArg Position.column h
      rw [Galaxy.mirrorPosition] at this
      have h2 : g.center.column - p2.column = p2.column := this
      omega
    have hfc : ∀ a : Int, footprintCoords (a + a) = [a] := by
      intro a
      rw [footprintCoords, if_pos (by omega)]
      congr 1
      have h3 : a + a = 2 * a := by ring
      rw [h3]
      exact Int.mul_tdiv_cancel_left a (by norm_num)
    have hmem : p2 ∈ g.center.footprint := by
      rw [Position.mem_footprint, hrow, hcol, hfc, hfc]
      exact ⟨List.mem_singleton.mpr rfl, List.mem_singleton.mpr rfl⟩
    exact hp2 (hcc _ hmem)
  obtain ⟨R0, R1, C0, C1, hcen, hb, ⟨pa, hpa, haR0⟩, ⟨pb, hpb, hbR1⟩,
    ⟨pc, hpc, hcC0⟩, ⟨pd, hpd, hdC1⟩⟩ := g.bbox hne
  have hp3r : (g.mirrorPosition p2).row = R0 + R1 - p2.row := by
    rw [Galaxy.mirrorPosition, hcen]; rfl
  have hp3c : (g.mirrorPosition p2).column = C0 + C1 - p2.column := by
    rw [Galaxy.mirrorPosition, hcen]; rfl
  set S3 : Galaxy := (g.withPosition p2).withPosition (g.mirrorPosition p2) with hS3eq
  have hmemS3 : ∀ w, w ∈ S3.positions ↔
      w = g.mirrorPosition p2 ∨ w = p2 ∨ w ∈ g.positions := by
    intro w
    simp [hS3eq, Galaxy.withPosition]
  have hneS3 : S3.positions.Nonempty := ⟨p2, (hmemS3 _).mpr (Or.inr (Or.inl rfl))⟩
  obtain ⟨A0, A1, B0, B1, hcen3, hb3, ⟨qa, hqa, hA0⟩, ⟨qb, hqb, hA1⟩,
    ⟨qc, hqc, hB0⟩, ⟨qd, hqd, hB1⟩⟩ := S3.bbox hneS3
  have hp1b := hb p1 hp1
  have m2 := hb3 p2 ((hmemS3 _).mpr (Or.inr (Or.inl rfl)))
  have m3 := hb3 _ ((hmemS3 _).mpr (Or.inl rfl))
  rw [hp3r, hp3c] at m3
  have ma := hb3 pa ((hmemS3 _).mpr (Or.inr (Or.inr hpa)))
  have mb := hb3 pb ((hmemS3 _).mpr (Or.inr (Or.inr hpb)))
  have mc := hb3 pc ((hmemS3 _).mpr (Or.inr (Or.inr hpc)))
  have md := hb3 pd ((hmemS3 _).mpr (Or.inr (Or.inr hpd)))
  rw [haR0] at ma
  rw [hbR1] at mb
  rw [hcC0] at mc
  rw [hdC1] at md
  have ka : A0 = R0 + R1 - p2.row ∨ A0 = p2.row ∨ R0 ≤ A0 := by
    rcases (hmemS3 qa).mp hqa with h | h | h
    · left; rw [← hA0, h, hp3r]
    · right; left; rw [← hA0, h]
    · right; right; rw [← hA0]; exact (hb qa h).1
  have kb : A1 = R0 + R1 - p2.row ∨ A1 = p2.row ∨ A1 ≤ R1 := by
    rcases (hmemS3 qb).mp hqb with h | h | h
    · left; rw [← hA1, h, hp3r]
    · right; left; rw [← hA1, h]
    · right; right; rw [← hA1]; exact (hb qb h).2.1
  have kc : B0 = C0 + C1 - p2.column ∨ B0 = p2.column ∨ C0 ≤ B0 := by
    rcases (hmemS3 qc).mp hqc with h | h | h
    · left; rw [← hB0, h, hp3c]
    · right; left; rw [← hB0, h]
    · right; right; rw [← hB0]; exact (hb qc h).2.2.1
  have kd : B1 = C0 + C1 - p2.column ∨ B1 = p2.column ∨ B1 ≤ C1 := by
    rcases (hmemS3 qd).mp hqd with h | h | h
    · left; rw [← hB1, h, hp3c]
    · right; left; rw [← hB1, h]
    · right; right; rw [← hB1]; exact (hb qd h).2.2.2
  have hsums : A0 + A1 = R0 + R1 ∧ B0 + B1 = C0 + C1 := by
    constructor <;> omega
  have hc3 : S3.center = ⟨R0 + R1, C0 + C1⟩ := by
    rw [hcen3]
    exact Position.ext_rc (by show A0 + A1 = R0 + R1; omega)
      (by show B0 + B1 = C0 + C1; omega)
  have hsymS3 : S3.IsSymmetric := by
    intro w hw
    rw [Galaxy.mirrorPosition, hc3]
    rcases (hmemS3 w).mp hw with h | h | hwg
    all_goals try rw [h]
    · have he : Position.mirrorPosition ⟨R0 + R1, C0 + C1⟩ (g.mirrorPosition p2) = p2 :=
        Position.ext_rc
          (by show R0 + R1 - (g.mirrorPosition p2).row = p2.row; rw [hp3r]; ring)
          (by show C0 + C1 - (g.mirrorPosition p2).column = p2.column; rw [hp3c]; ring)
      rw [he]
      exact (hmemS3 _).mpr (Or.inr (Or.inl rfl))
    · have he : Position.mirrorPosition ⟨R0 + R1, C0 + C1⟩ p2 = g.mirrorPosition p2 :=
        Position.ext_rc (by rw [hp3r]; rfl) (by rw [hp3c]; rfl)
      rw [he]
      exact (hmemS3 _).mpr (Or.inl rfl)
    · have he : Position.mirrorPosition ⟨R0 + R1, C0 + C1⟩ w = g.mirrorPosition w := by
        rw [Galaxy.mirrorPosition, hcen]
      rw [he]
      exact (hmemS3 _).mpr (Or.inr (Or.inr (hsym w hwg)))
  have hccS3 : S3.ContainsCenter := by
    intro q hq
    rw [hc3] at hq
    apply (hmemS3 q).mpr
    right; right
    apply hcc
    rw [hcen]
    exact hq
  have hconnS3 : S3.isConnected = true := by
    rw [Galaxy.isConnected_iff_pairwise]
    have hpair12 : ∀ p ∈ (g.withPosition p2).positions, ∀ q ∈ (g.withPosition p2).positions,
        ReachIn (g.withPosition p2).positions p q :=
      pairwise_reach_insert hp1 hadj hconn
    have hm1 : g.mirrorPosition p1 ∈ (g.withPosition p2).positions :=
      Finset.mem_insert_of_mem (hsym p1 hp1)
    have hmadj : g.mirrorPosition p2 ∈ (g.mirrorPosition p1).adjacent :=
      Position.mirror_adjacent g.center hadj
    exact pairwise_reach_insert hm1 hmadj hpair12
  exact ⟨⟨fun h => Finset.nonempty_iff_ne_empty.mp hneS3 h, hccS3, hconnS3, hsymS3⟩,
    hp3out, hp3ne⟩

/-- The translate of a cell of `g` by the displacement between the two
centers lies in any symmetric superset `S` (mirror through the center
of `g`, then through the center of `S`). -/
theorem Galaxy.double_mirror_mem {g S : Galaxy} {R0 R1 C0 C1 A0 A1 B0 B1 : Int}
    (hsym : g.IsSymmetric) (hSsym : S.IsSymmetric)
    (hsub : ∀ w ∈ g.positions, w ∈ S.positions)
    (hcen : g.center = ⟨R0 + R1, C0 + C1⟩) (hcenS : S.center = ⟨A0 + A1, B0 + B1⟩)
    (r c : Int) (hy : (⟨r, c⟩ : Position) ∈ g.positions) :
    (⟨r + (A0 + A1 - R0 - R1), c + (B0 + B1 - C0 - C1)⟩ : Position) ∈ S.positions := by
  have hm : g.mirrorPosition ⟨r, c⟩ ∈ g.positions := hsym _ hy
  have h2 := hSsym _ (hsub _ hm)
  have he : S.mirrorPosition (g.mirrorPosition ⟨r, c⟩)
      = ⟨r + (A0 + A1 - R0 - R1), c + (B0 + B1 - C0 - C1)⟩ := by
    rw [Galaxy.mirrorPosition, Galaxy.mirrorPosition, hcenS, hcen]
    exact Position.ext_rc
      (by show A0 + A1 - (R0 + R1 - r) = r + (A0 + A1 - R0 - R1); ring)
      (by show B0 + B1 - (C0 + C1 - c) = c + (B0 + B1 - C0 - C1); ring)
  rwa [he] at h2

/-- The footprint-coverage argument: a symmetric superset `S` of a
galaxy `g` containing its center footprint, whose center moved by at
most one half-step per axis and, on each axis that moved, started from
an odd half-step coordinate on the other axis or did not move at all,
contains its own center footprint. -/
theorem Galaxy.cover_center {g S : Galaxy} {R0 R1 C0 C1 A0 A1 B0 B1 : Int}
    (hcc : g.ContainsCenter) (hsym : g.IsSymmetric) (hSsym : S.IsSymmetric)
    (hsub : ∀ w ∈ g.positions, w ∈ S.positions)
    (hcen : g.center = ⟨R0 + R1, C0 + C1⟩) (hcenS : S.center = ⟨A0 + A1, B0 + B1⟩)
    (hnnR : 0 ≤ R0 + R1) (hnnC : 0 ≤ C0 + C1) (hnnA : 0 ≤ A0 + A1) (hnnB : 0 ≤ B0 + B1)
    (hdr : -1 ≤ A0 + A1 - R0 - R1 ∧ A0 + A1 - R0 - R1 ≤ 1)
    (hdc : -1 ≤ B0 + B1 - C0 - C1 ∧ B0 + B1 - C0 - C1 ≤ 1)
    (hstrong : ((R0 + R1) % 2 ≠ 0 ∨ A0 + A1 = R0 + R1) ∨
      ((C0 + C1) % 2 ≠ 0 ∨ B0 + B1 = C0 + C1)) :
    S.ContainsCenter := by
  have hfoot : ∀ r c : Int, 2 * r - 1 ≤ R0 + R1 → R0 + R1 ≤ 2 * r + 1 →
      2 * c - 1 ≤ C0 + C1 → C0 + C1 ≤ 2 * c + 1 →
      (⟨r, c⟩ : Position) ∈ g.positions := by
    intro r c h1 h2 h3 h4
    apply hcc
    rw [hcen, Position.mem_footprint]
    rw [show (⟨R0 + R1, C0 + C1⟩ : Position).row = R0 + R1 from rfl,
      show (⟨R0 + R1, C0 + C1⟩ : Position).column = C0 + C1 from rfl,
      mem_footprintCoords_iff hnnR, mem_footprintCoords_iff hnnC]
    exact ⟨⟨h1, h2⟩, ⟨h3, h4⟩⟩
  intro q hq
  rw [hcenS, Position.mem_footprint] at hq
  obtain ⟨hqr, hqc⟩ := hq
  rw [show (⟨A0 + A1, B0 + B1⟩ : Position).row = A0 + A1 from rfl,
    mem_footprintCoords_iff hnnA] at hqr
  rw [show (⟨A0 + A1, B0 + B1⟩ : Position).column = B0 + B1 from rfl,
    mem_footprintCoords_iff hnnB] at hqc
  rcases hstrong with hrs | hcs
  · by_cases hplainc : 2 * q.column - 1 ≤ C0 + C1 ∧ C0 + C1 ≤ 2 * q.column + 1
    · exact hsub q (hfoot q.row q.column (by omega) (by omega) (by omega) (by omega))
    · have hq0 : (⟨q.row - (A0 + A1 - R0 - R1),
          q.column - (B0 + B1 - C0 - C1)⟩ : Position) ∈ g.positions :=
        hfoot _ _ (by omega) (by omega) (by omega) (by omega)
      have h5 := Galaxy.double_mirror_mem hsym hSsym hsub hcen hcenS _ _ hq0
      have he2 : (⟨q.row - (A0 + A1 - R0 - R1) + (A0 + A1 - R0 - R1),
          q.column - (B0 + B1 - C0 - C1) + (B0 + B1 - C0 - C1)⟩ : Position) = q :=
        Position.ext_rc
          (by show q.row - (A0 + A1 - R0 - R1) + (A0 + A1 - R0 - R1) = q.row; ring)
          (by show q.column - (B0 + B1 - C0 - C1) + (B0 + B1 - C0 - C1) = q.column; ring)
      rwa [he2] at h5
  · by_cases hplainr : 2 * q.row - 1 ≤ R0 + R1 ∧ R0 + R1 ≤ 2 * q.row + 1
    · exact hsub q (hfoot q.row q.column (by omega) (by omega) (by omega) (by omega))
    · have hq0 : (⟨q.row - (A0 + A1 - R0 - R1),
          q.column - (B0 + B1 - C0 - C1)⟩ : Position) ∈ g.positions :=
        hfoot _ _ (by omega) (by omega) (by omega) (by omega)
      have h5 := Galaxy.double_mirror_mem hsym hSsym hsub hcen hcenS _ _ hq0
      have he2 : (⟨q.row - (A0 + A1 - R0 - R1) + (A0 + A1 - R0 - R1),
          q.column - (B0 + B1 - C0 - C1) + (B0 + B1 - C0 - C1)⟩ : Position) = q :=
        Position.ext_rc
          (by show q.row - (A0 + A1 - R0 - R1) + (A0 + A1 - R0 - R1) = q.row; ring)
          (by show q.column - (B0 + B1 - C0 - C1) + (B0 + B1 - C0 - C1) = q.column; ring)
      rwa [he2] at h5

/-- A two-cell extension protruding two rows below the bottom row of
the galaxy cannot be symmetric unless the one-cell extension already
was (the run argument, downward-protruding case). -/
theorem Galaxy.extend_up_asym {g : Galaxy} {p1 p2 p3 : Position} {M : Int}
    (hsym : g.IsSymmetric)
    (hconn : ∀ p ∈ g.positions, ∀ q ∈ g.positions, ReachIn g.positions p q)
    (hp1 : p1 ∈ g.positions) (hrowmax : ∀ p ∈ g.positions, p.row ≤ M)
    (hasym : ¬(g.withPosition p2).IsSymmetric)
    (hsym3 : ((g.withPosition p2).withPosition p3).IsSymmetric)
    (a2 : p2 ∈ p1.adjacent) (a3 : p3 ∈ p2.adjacent)
    (hp3r : p3.row = M + 2) : False := by
  have e2 := Position.mem_adjacent_iff.mp a2
  have e3 := Position.mem_adjacent_iff.mp a3
  have hp1r : p1.row ≤ M := hrowmax p1 hp1
  have hp1R : p1.row = M := by omega
  have hp2e : p2 = p1.down := Position.ext_rc
    (by show p2.row = p1.row + 1; omega) (by show p2.column = p1.column; omega)
  have hp3e : p3 = p1.down.down := Position.ext_rc
    (by show p3.row = p1.row + 1 + 1; omega) (by show p3.column = p1.column; omega)
  have htop : ∀ p ∈ g.positions, p.row ≤ p1.row := by
    intro p hp
    have := hrowmax p hp
    omega
  rw [hp2e, hp3e] at hsym3
  have hrun := Galaxy.run_up hsym hconn hp1 htop hsym3
  rw [← hp2e] at hrun
  exact hasym hrun

/-- The upward-protruding counterpart of `Galaxy.extend_up_asym`. -/
theorem Galaxy.extend_down_asym {g : Galaxy} {p1 p2 p3 : Position} {M : Int}
    (hsym : g.IsSymmetric)
    (hconn : ∀ p ∈ g.positions, ∀ q ∈ g.positions, ReachIn g.positions p q)
    (hp1 : p1 ∈ g.positions) (hrowmin : ∀ p ∈ g.positions, M ≤ p.row)
    (hasym : ¬(g.withPosition p2).IsSymmetric)
    (hsym3 : ((g.withPosition p2).withPosition p3).IsSymmetric)
    (a2 : p2 ∈ p1.adjacent) (a3 : p3 ∈ p2.adjacent)
    (hp3r : p3.row = M - 2) : False := by
  have e2 := Position.mem_adjacent_iff.mp a2
  have e3 := Position.mem_adjacent_iff.mp a3
  have hp1r : M ≤ p1.row := hrowmin p1 hp1
  have hp1R : p1.row = M := by omega
  have hp2e : p2 = p1.up := Position.ext_rc
    (by show p2.row = p1.row - 1; omega) (by show p2.column = p1.column; omega)
  have hp3e : p3 = p1.up.up := Position.ext_rc
    (by show p3.row = p1.row - 1 - 1; omega) (by show p3.column = p1.column; omega)
  have hbot : ∀ p ∈ g.positions, p1.row ≤ p.row := by
    intro p hp
    have := hrowmin p hp
    omega
  rw [hp2e, hp3e] at hsym3
  have hrun := Galaxy.run_down hsym hconn hp1 hbot hsym3
  rw [← hp2e] at hrun
  exact hasym hrun

/-- The rightward-protruding counterpart of `Galaxy.extend_up_asym`. -/
theorem Galaxy.extend_right_asym {g : Galaxy} {p1 p2 p3 : Position} {M : Int}
    (hsym : g.IsSymmetric)
    (hconn : ∀ p ∈ g.positions, ∀ q ∈ g.positions, ReachIn g.positions p q)
    (hp1 : p1 ∈ g.positions) (hcolmax : ∀ p ∈ g.positions, p.column ≤ M)
    (hasym : ¬(g.withPosition p2).IsSymmetric)
    (hsym3 : ((g.withPosition p2).withPosition p3).IsSymmetric)
    (a2 : p2 ∈ p1.adjacent) (a3 : p3 ∈ p2.adjacent)
    (hp3c : p3.column = M + 2) : False := by
  have e2 := Position.mem_adjacent_iff.mp a2
  have e3 := Position.mem_adjacent_iff.mp a3
  have hp1c : p1.column ≤ M := hcolmax p1 hp1
  have hp1C : p1.column = M := by omega
  have hp2e : p2 = p1.right := Position.ext_rc
    (by show p2.row = p1.row; omega) (by show p2.column = p1.column + 1; omega)
  have hp3e : p3 = p1.right.right := Position.ext_rc
    (by show p3.row = p1.row; omega) (by show p3.column = p1.column + 1 + 1; omega)
  have hmax : ∀ p ∈ g.positions, p.column ≤ p1.column := by
    intro p hp
    have := hcolmax p hp
    omega
  rw [hp2e, hp3e] at hsym3
  have hrun := Galaxy.run_right hsym hconn hp1 hmax hsym3
  rw [← hp2e] at hrun
  exact hasym hrun

/-- The leftward-protruding counterpart of `Galaxy.extend_up_asym`. -/
theorem Galaxy.extend_left_asym {g : Galaxy} {p1 p2 p3 : Position} {M : Int}
    (hsym : g.IsSymmetric)
    (hconn : ∀ p ∈ g.positions, ∀ q ∈ g.positions, ReachIn g.positions p q)
    (hp1 : p1 ∈ g.positions) (hcolmin : ∀ p ∈ g.positions, M ≤ p.column)
    (hasym : ¬(g.withPosition p2).IsSymmetric)
    (hsym3 : ((g.withPosition p2).withPosition p3).IsSymmetric)
    (a2 : p2 ∈ p1.adjacent) (a3 : p3 ∈ p2.adjacent)
    (hp3c : p3.column = M - 2) : False := by
  have e2 := Position.mem_adjacent_iff.mp a2
  have e3 := Position.mem_adjacent_iff.mp a3
  have hp1c : M ≤ p1.column := hcolmin p1 hp1
  have hp1C : p1.column = M := by omega
  have hp2e : p2 = p1.left := Position.ext_rc
    (by show p2.row = p1.row; omega) (by show p2.column = p1.column - 1; omega)
  have hp3e : p3 = p1.left.left := Position.ext_rc
    (by show p3.row = p1.row; omega) (by show p3.column = p1.column - 1 - 1; omega)
  have hmin : ∀ p ∈ g.positions, p1.column ≤ p.column := by
    intro p hp
    have := hcolmin p hp
    omega
  rw [hp2e, hp3e] at hsym3
  have hrun := Galaxy.run_left hsym hconn hp1 hmin hsym3
  rw [← hp2e] at hrun
  exact hasym hrun

/-- Lemma B, adjacent case: if adding one adjacent outside cell `p2`
leaves the galaxy asymmetric but adding a further cell `p3` adjacent
to `p2` makes it symmetric, the double extension is a valid galaxy,
with `p3` outside the galaxy and distinct from `p2`. -/
theorem Galaxy.union_two_adj_valid {g : Galaxy} {p1 p2 p3 : Position}
    (hval : g.IsValid) (hp1 : p1 ∈ g.positions)
    (hadj2 : p2 ∈ p1.adjacent) (hp2 : p2 ∉ g.positions)
    (hasym : ¬(g.withPosition p2).IsSymmetric)
    (hadj3 : p3 ∈ p2.adjacent)
    (hsym3 : ((g.withPosition p2).withPosition p3).IsSymmetric)
    (hnn : ∀ q ∈ g.positions, 0 ≤ q.row ∧ 0 ≤ q.column)
    (hnn2 : 0 ≤ p2.row ∧ 0 ≤ p2.column) (hnn3 : 0 ≤ p3.row ∧ 0 ≤ p3.column) :
    ((g.withPosition p2).withPosition p3).IsValid ∧ p3 ∉ g.positions ∧ p3 ≠ p2 := by
  have hcc : g.ContainsCenter := hval.2.1
  have hsym : g.IsSymmetric := hval.2.2.2
  have hne : g.positions.Nonempty :=
    Finset.nonempty_iff_ne_empty.mpr hval.1
  have hconn : ∀ p ∈ g.positions, ∀ q ∈ g.positions, ReachIn g.positions p q :=
    (Galaxy.isConnected_iff_pairwise g).mp hval.2.2.1
  have hp3ne : p3 ≠ p2 := by
    intro h
    apply hasym
    have heq : (g.withPosition p2).withPosition p3 = g.withPosition p2 := by
      apply Galaxy.eq_of_positions_eq
      show insert p3 (insert p2 g.positions) = insert p2 g.positions
      rw [h, Finset.insert_idem]
    exact heq ▸ hsym3
  have hp3g : p3 ∉ g.positions := by
    intro hmem
    apply hasym
    have heq : (g.withPosition p2).withPosition p3 = g.withPosition p2 := by
      apply Galaxy.eq_of_positions_eq
      show insert p3 (insert p2 g.positions) = insert p2 g.positions
      exact Finset.insert_eq_self.mpr (Finset.mem_insert_of_mem hmem)
    exact heq ▸ hsym3
  obtain ⟨R0, R1, C0, C1, hcen, hb, ⟨pa, hpa, haR0⟩, ⟨pb, hpb, hbR1⟩,
    ⟨pc, hpc, hcC0⟩, ⟨pd, hpd, hdC1⟩⟩ := g.bbox hne
  have hmemS3 : ∀ w, w ∈ ((g.withPosition p2).withPosition p3).positions ↔
      w = p3 ∨ w = p2 ∨ w ∈ g.positions := by
    intro w
    simp [Galaxy.withPosition]
  have hneS3 : ((g.withPosition p2).withPosition p3).positions.Nonempty :=
    ⟨p2, (hmemS3 _).mpr (Or.inr (Or.inl rfl))⟩
  obtain ⟨A0, A1, B0, B1, hcen3, hb3, ⟨qa, hqa, hA0⟩, ⟨qb, hqb, hA1⟩,
    ⟨qc, hqc, hB0⟩, ⟨qd, hqd, hB1⟩⟩ := Galaxy.bbox _ hneS3
  have hp1b := hb p1 hp1
  have a2 := Position.mem_adjacent_iff.mp hadj2
  have a3 := Position.mem_adjacent_iff.mp hadj3
  have m2 := hb3 p2 ((hmemS3 _).mpr (Or.inr (Or.inl rfl)))
  have m3 := hb3 p3 ((hmemS3 _).mpr (Or.inl rfl))
  have ma := hb3 pa ((hmemS3 _).mpr (Or.inr (Or.inr hpa)))
  have mb := hb3 pb ((hmemS3 _).mpr (Or.inr (Or.inr hpb)))
  have mc := hb3 pc ((hmemS3 _).mpr (Or.inr (Or.inr hpc)))
  have md := hb3 pd ((hmemS3 _).mpr (Or.inr (Or.inr hpd)))
  rw [haR0] at ma
  rw [hbR1] at mb
  rw [hcC0] at mc
  rw [hdC1] at md
  have ka : A0 = p3.row ∨ A0 = p2.row ∨ R0 ≤ A0 := by
    rcases (hmemS3 qa).mp hqa with h | h | h
    · left; rw [← hA0, h]
    · right; left; rw [← hA0, h]
    · right; right; rw [← hA0]; exact (hb qa h).1
  have kb : A1 = p3.row ∨ A1 = p2.row ∨ A1 ≤ R1 := by
    rcases (hmemS3 qb).mp hqb with h | h | h
    · left; rw [← hA1, h]
    · right; left; rw [← hA1, h]
    · right; right; rw [← hA1]; exact (hb qb h).2.1
  have kc : B0 = p3.column ∨ B0 = p2.column ∨ C0 ≤ B0 := by
    rcases (hmemS3 qc).mp hqc with h | h | h
    · left; rw [← hB0, h]
    · right; left; rw [← hB0, h]
    · right; right; rw [← hB0]; exact (hb qc h).2.2.1
  have kd : B1 = p3.column ∨ B1 = p2.column ∨ B1 ≤ C1 := by
    rcases (hmemS3 qd).mp hqd with h | h | h
    · left; rw [← hB1, h]
    · right; left; rw [← hB1, h]
    · right; right; rw [← hB1]; exact (hb qd h).2.2.2
  have hR0nn : 0 ≤ R0 := haR0 ▸ (hnn pa hpa).1
  have hC0nn : 0 ≤ C0 := hcC0 ▸ (hnn pc hpc).2
  have hsumnn : 0 ≤ A0 + A1 ∧ 0 ≤ B0 + B1 ∧ 0 ≤ R0 + R1 ∧ 0 ≤ C0 + C1 := by
    clear kb kd a2 a3 m2 m3 ma
    omega
  have hbr1 : R0 - 2 ≤ A0 ∧ A0 ≤ R0 := by
    clear kb kc kd mb mc md m2 m3
    omega
  have hbr2 : R1 ≤ A1 ∧ A1 ≤ R1 + 2 := by
    clear ka kc kd ma mc md m2 m3
    omega
  have hbr3 : C0 - 2 ≤ B0 ∧ B0 ≤ C0 := by
    clear ka kb kd ma mb md m2 m3
    omega
  have hbr4 : C1 ≤ B1 ∧ B1 ≤ C1 + 2 := by
    clear ka kb kc ma mb mc m2 m3
    omega
  have hdr2 : A0 + A1 - R0 - R1 = 2 → False := by
    clear ka kc kd ma mc md m2 m3
    intro hdr
    refine Galaxy.extend_up_asym hsym hconn hp1 (fun p hp => (hb p hp).2.1)
      hasym hsym3 hadj2 hadj3 ?_
    omega
  have hdrm2 : A0 + A1 - R0 - R1 = -2 → False := by
    clear kb kc kd mb mc md m2 m3
    intro hdr
    refine Galaxy.extend_down_asym hsym hconn hp1 (fun p hp => (hb p hp).1)
      hasym hsym3 hadj2 hadj3 ?_
    omega
  have hdc2 : B0 + B1 - C0 - C1 = 2 → False := by
    clear ka kb kc ma mb mc m2 m3
    intro hdc
    refine Galaxy.extend_right_asym hsym hconn hp1 (fun p hp => (hb p hp).2.2.2)
      hasym hsym3 hadj2 hadj3 ?_
    omega
  have hdcm2 : B0 + B1 - C0 - C1 = -2 → False := by
    clear ka kb kd ma mb md m2 m3
    intro hdc
    refine Galaxy.extend_left_asym hsym hconn hp1 (fun p hp => (hb p hp).2.2.1)
      hasym hsym3 hadj2 hadj3 ?_
    omega
  have hdr1 : -1 ≤ A0 + A1 - R0 - R1 ∧ A0 + A1 - R0 - R1 ≤ 1 := by
    constructor
    · by_contra h
      push_neg at h
      refine hdrm2 ?_
      clear ka kb kc kd a2 a3 m2 m3 ma mb mc md
      omega
    · by_contra h
      push_neg at h
      refine hdr2 ?_
      clear ka kb kc kd a2 a3 m2 m3 ma mb mc md
      omega
  have hdc1 : -1 ≤ B0 + B1 - C0 - C1 ∧ B0 + B1 - C0 - C1 ≤ 1 := by
    constructor
    · by_contra h
      push_neg at h
      refine hdcm2 ?_
      clear ka kb kc kd a2 a3 m2 m3 ma mb mc md
      omega
    · by_contra h
      push_neg at h
      refine hdc2 ?_
      clear ka kb kc kd a2 a3 m2 m3 ma mb mc md
      omega
  have hmix : ¬((R0 + R1) % 2 = 0 ∧ A0 + A1 ≠ R0 + R1 ∧
      (C0 + C1) % 2 = 0 ∧ B0 + B1 ≠ C0 + C1) := by
    rintro ⟨hre, hdr0, hce, hdc0⟩
    clear ka kb kc kd a2 a3 m2 m3 ma mb mc md
    have heven := Galaxy.even_card_of_odd_center hsym3
      (Or.inl (by rw [hcen3]; show (A0 + A1) % 2 ≠ 0; omega))
    have hodd := Galaxy.odd_card_of_even_center hval
      (by rw [hcen]; exact hre) (by rw [hcen]; exact hce)
    have hcard : ((g.withPosition p2).withPosition p3).positions.card
        = g.positions.card + 2 := by
      show (insert p3 (insert p2 g.positions)).card = g.positions.card + 2
      rw [Finset.card_insert_of_not_mem, Finset.card_insert_of_not_mem hp2]
      rw [Finset.mem_insert]
      rintro (h | h)
      · exact hp3ne h
      · exact hp3g h
    omega
  have hstrong : ((R0 + R1) % 2 ≠ 0 ∨ A0 + A1 = R0 + R1) ∨
      ((C0 + C1) % 2 ≠ 0 ∨ B0 + B1 = C0 + C1) := by
    clear ka kb kc kd a2 a3 m2 m3 ma mb mc md
    by_contra h
    push_neg at h
    exact hmix ⟨by omega, by omega, by omega, by omega⟩
  have hccS3 : ((g.withPosition p2).withPosition p3).ContainsCenter :=
    Galaxy.cover_center hcc hsym hsym3
      (fun w hw => (hmemS3 w).mpr (Or.inr (Or.inr hw))) hcen hcen3
      hsumnn.2.2.1 hsumnn.2.2.2 hsumnn.1 hsumnn.2.1 hdr1 hdc1 hstrong
  have hconnS3 : ((g.withPosition p2).withPosition p3).isConnected = true := by
    rw [Galaxy.isConnected_iff_pairwise]
    have hpair12 : ∀ p ∈ (g.withPosition p2).positions, ∀ q ∈ (g.withPosition p2).positions,
        ReachIn (g.withPosition p2).positions p q :=
      pairwise_reach_insert hp1 hadj2 hconn
    exact pairwise_reach_insert (Finset.mem_insert_self p2 g.positions) hadj3 hpair12
  exact ⟨⟨fun h => Finset.nonempty_iff_ne_empty.mp hneS3 h, hccS3, hconnS3, hsym3⟩,
    hp3g, hp3ne⟩

/-- The loop invariant of `remove_positions_from_galaxy`: `gal` is the
galaxy at entry, `x` its identifier, `g` the mutable residual.  Cells
of `g` still carry `x` and (while `g` is non-empty) are the only ones
that do; galaxies away from `gal` are untouched; detached cells of
`gal` are singletons; the geometry is preserved. -/
structure RemInv (u₀ : Universe) (gal : Galaxy) (x : Nat) (u : Universe) (g : Galaxy) :
    Prop where
  wf : u.WellFormed
  width_eq : u.getWidth = u₀.getWidth
  height_eq : u.getHeight = u₀.getHeight
  sub : g.positions ⊆ gal.positions
  idx : ∀ q ∈ g.positions, u.idAt q = x
  only : g.positions.Nonempty → ∀ q, u.isInside q → u.idAt q = x → q ∈ g.positions
  frameOut : ∀ q, u.isInside q → q ∉ gal.positions →
    (u.getGalaxy q).positions = (u₀.getGalaxy q).positions
  single : ∀ q ∈ gal.positions, q ∉ g.positions → (u.getGalaxy q).positions = {q}

theorem RemInv.inside_iff {u₀ gal x u g} (inv : RemInv u₀ gal x u g) (q : Position) :
    u.isInside q ↔ u₀.isInside q :=
  Universe.isInside_congr inv.width_eq inv.height_eq q

/-- One `remove_all_neighbours` on a cell of `gal` preserves the
invariant, with the cell leaving the residual. -/
theorem RemInv.step {u₀ : Universe} {gal : Galaxy} {x : Nat} {u u' : Universe}
    {g : Galaxy} {p : Position}
    (hGalIn : ∀ q ∈ gal.positions, u₀.isInside q)
    (inv : RemInv u₀ gal x u g) (hp : p ∈ gal.positions)
    (h : u.removeAllNeighbours p = some u') :
    RemInv u₀ gal x u' (g.withoutPosition p) := by
  have hpin : u.isInside p := (inv.inside_iff p).mpr (hGalIn p hp)
  obtain ⟨hframe, hfresh, hsing, herase, hwf, hw, hh⟩ :=
    Universe.removeAllNeighbours_spec inv.wf hpin h
  have hins : ∀ q, u'.isInside q ↔ u.isInside q := fun q =>
    Universe.isInside_congr hw hh q
  have hGalIn' : ∀ q ∈ gal.positions, u.isInside q :=
    fun q hq => (inv.inside_iff q).mpr (hGalIn q hq)
  refine ⟨hwf, hw.trans inv.width_eq, hh.trans inv.height_eq, ?_, ?_, ?_, ?_, ?_⟩
  · exact fun q hq => inv.sub (Finset.mem_of_mem_erase hq)
  · intro q hq
    have hqg : q ∈ g.positions := Finset.mem_of_mem_erase hq
    have hqp : q ≠ p := Finset.ne_of_mem_erase hq
    rw [hframe q (hGalIn' q (inv.sub hqg)) hqp]
    exact inv.idx q hqg
  · intro hne q hq hid
    obtain ⟨w, hw1⟩ := hne
    have hwg : w ∈ g.positions := Finset.mem_of_mem_erase hw1
    have hwp : w ≠ p := Finset.ne_of_mem_erase hw1
    have hwin : u.isInside w := hGalIn' w (inv.sub hwg)
    have hqu : u.isInside q := (hins q).mp hq
    have hqp : q ≠ p := by
      rintro rfl
      have hwid : u'.idAt w = x := by
        rw [hframe w hwin hwp]; exact inv.idx w hwg
      exact hfresh w hwin hwp (hwid.trans hid.symm)
    rw [hframe q hqu hqp] at hid
    have : q ∈ g.positions := inv.only ⟨w, hwg⟩ q hqu hid
    exact Finset.mem_erase.mpr ⟨hqp, this⟩
  · intro q hq hqgal
    have hqu : u.isInside q := (hins q).mp hq
    have hqp : q ≠ p := by
      rintro rfl
      exact hqgal hp
    have hnm : p ∉ (u.getGalaxy q).positions := by
      intro hmem
      rw [Universe.mem_getGalaxy] at hmem
      obtain ⟨hpin', hpid⟩ := hmem
      have hqgal' : q ∈ (u.getGalaxy p).positions := by
        rw [Universe.mem_getGalaxy]
        exact ⟨hqu, hpid.symm⟩
      by_cases hpg : p ∈ g.positions
      · have hx : u.idAt p = x := inv.idx p hpg
        have : q ∈ g.positions := by
          apply inv.only ⟨p, hpg⟩ q hqu
          rw [← hpid]
          exact hx
        exact hqgal (inv.sub this)
      · have hs : (u.getGalaxy p).positions = {p} := inv.single p hp hpg
        rw [hs, Finset.mem_singleton] at hqgal'
        exact hqgal (hqgal' ▸ hp)
    rw [herase q hqu hqp, Finset.erase_eq_of_not_mem hnm]
    exact inv.frameOut q hqu hqgal
  · intro q hq hqg
    by_cases hqp : q = p
    · subst hqp
      exact hsing
    · have hqg' : q ∉ g.positions := fun hmem =>
        hqg (Finset.mem_erase.mpr ⟨hqp, hmem⟩)
      have hqu : u.isInside q := hGalIn' q hq
      rw [herase q hqu hqp, inv.single q hq hqg']
      rw [Finset.erase_eq_of_not_mem]
      rw [Finset.mem_singleton]
      exact fun hpe => hqp hpe.symm

/-- `removeOneStep` preserves the invariant; the removed position and,
when taken, its mirror leave the residual. -/
theorem RemInv.one_step {u₀ : Universe} {gal : Galaxy} {x : Nat} {u u2 : Universe}
    {g g2 : Galaxy} {p : Position}
    (hGalIn : ∀ q ∈ gal.positions, u₀.isInside q) (hGalSym : gal.IsSymmetric)
    (inv : RemInv u₀ gal x u g) (hp : p ∈ gal.positions)
    (h : Universe.removeOneStep gal u g p = some (u2, g2)) :
    RemInv u₀ gal x u2 g2 ∧ g2.positions ⊆ g.positions ∧ p ∉ g2.positions := by
  rw [Universe.removeOneStep] at h
  cases hra : u.removeAllNeighbours p with
  | none => rw [hra] at h; exact absurd h (by simp)
  | some u1 =>
    rw [hra] at h
    dsimp only at h
    have inv1 := RemInv.step hGalIn inv hp hra
    by_cases hsym : (g.withoutPosition p).IsSymmetric
    · rw [if_pos hsym] at h
      have := Option.some.inj h
      obtain ⟨rfl, rfl⟩ := Prod.mk.injEq .. ▸ (Prod.ext_iff.mp this)
      exact ⟨inv1, Finset.erase_subset _ _, Finset.not_mem_erase _ _⟩
    · rw [if_neg hsym] at h
      have hmirror : gal.mirrorPosition p ∈ gal.positions := hGalSym p hp
      cases hrb : u1.removeAllNeighbours (gal.mirrorPosition p) with
      | none => rw [hrb] at h; exact absurd h (by simp)
      | some u2' =>
        rw [hrb] at h
        have := Option.some.inj h
        obtain ⟨rfl, rfl⟩ := Prod.mk.injEq .. ▸ (Prod.ext_iff.mp this)
        have inv2 := RemInv.step hGalIn inv1 hmirror hrb
        refine ⟨inv2, ?_, ?_⟩
        · exact fun q hq =>
            Finset.mem_of_mem_erase (Finset.mem_of_mem_erase hq)
        · intro hmem
          exact Finset.not_mem_erase _ _ (Finset.mem_of_mem_erase hmem)

/-- `breakAll` over a list covering the residual empties it, keeping
the invariant. -/
theorem RemInv.breakAll_spec {u₀ : Universe} {gal : Galaxy} {x : Nat}
    (hGalIn : ∀ q ∈ gal.positions, u₀.isInside q) :
    ∀ (L : List Position) (u : Universe) (g : Galaxy) (u' : Universe),
      RemInv u₀ gal x u g → L.Nodup →
      (∀ p ∈ L, p ∈ g.positions) → (∀ q ∈ g.positions, q ∈ L) →
      Universe.breakAll u L = some u' →
      RemInv u₀ gal x u' ⟨∅⟩ := by
  intro L
  induction L with
  | nil =>
    intro u g u' inv _ _ hcov h
    have hge : g.positions = ∅ := by
      rw [Finset.eq_empty_iff_forall_not_mem]
      intro q hq
      exact absurd (hcov q hq) (List.not_mem_nil q)
    rw [Universe.breakAll] at h
    obtain rfl := Option.some.inj h
    refine ⟨inv.wf, inv.width_eq, inv.height_eq, ?_, ?_, ?_, inv.frameOut, ?_⟩
    · intro y hy; exact absurd hy (Finset.not_mem_empty y)
    · intro y hy; exact absurd hy (Finset.not_mem_empty y)
    · intro hne; exact absurd hne (by simp)
    · intro q hq _
      exact inv.single q hq (by rw [hge]; exact Finset.not_mem_empty q)
  | cons p L' ih =>
    intro u g u' inv hnd hsub hcov h
    rw [Universe.breakAll] at h
    cases hra : u.removeAllNeighbours p with
    | none => rw [hra] at h; exact absurd h (by simp)
    | some u1 =>
      rw [hra] at h
      have hp : p ∈ g.positions := hsub p (List.mem_cons_self p L')
      have inv1 := RemInv.step hGalIn inv (inv.sub hp) hra
      have hnotmem : p ∉ L' := (List.nodup_cons.mp hnd).1
      apply ih u1 (g.withoutPosition p) u' inv1 (List.nodup_cons.mp hnd).2 ?_ ?_ h
      · intro q hq
        refine Finset.mem_erase.mpr ⟨?_, hsub q (List.mem_cons_of_mem p hq)⟩
        rintro rfl
        exact hnotmem hq
      · intro q hq
        have hqg : q ∈ g.positions := Finset.mem_of_mem_erase hq
        rcases List.mem_cons.mp (hcov q hqg) with rfl | hmem
        · exact absurd rfl (Finset.ne_of_mem_erase hq)
        · exact hmem

/-- The main loop of `remove_positions_from_galaxy`: from an
empty-or-valid residual it returns with an empty-or-valid final
residual containing no listed position. -/
theorem RemInv.loop_spec {u₀ : Universe} {gal : Galaxy} {x : Nat}
    (hGalIn : ∀ q ∈ gal.positions, u₀.isInside q) (hGalSym : gal.IsSymmetric) :
    ∀ (S : List Position) (u : Universe) (g : Galaxy) (u' : Universe),
      RemInv u₀ gal x u g → g.IsEmptyOrValid →
      Universe.removePositionsFromGalaxyAux gal u g S = some u' →
      ∃ gF : Galaxy, RemInv u₀ gal x u' gF ∧ gF.IsEmptyOrValid ∧
        gF.positions ⊆ g.positions ∧ ∀ p ∈ S, p ∉ gF.positions := by
  intro S
  induction S with
  | nil =>
    intro u g u' inv hEoV h
    rw [Universe.removePositionsFromGalaxyAux] at h
    obtain rfl := Option.some.inj h
    exact ⟨g, inv, hEoV, Finset.Subset.refl _, by simp⟩
  | cons p rest ih =>
    intro u g u' inv hEoV h
    rw [Universe.removePositionsFromGalaxyAux] at h
    by_cases hpgal : gal.containsPosition p
    · rw [if_pos hpgal] at h
      cases hos : Universe.removeOneStep gal u g p with
      | none => rw [hos] at h; exact absurd h (by simp)
      | some pair =>
        obtain ⟨u2, g2⟩ := pair
        rw [hos] at h
        dsimp only at h
        obtain ⟨inv2, hsub2, hp2⟩ := RemInv.one_step hGalIn hGalSym inv hpgal hos
        by_cases hEoV2 : g2.IsEmptyOrValid
        · rw [if_pos hEoV2] at h
          obtain ⟨gF, invF, hEoVF, hsubF, hrestF⟩ := ih u2 g2 u' inv2 hEoV2 h
          refine ⟨gF, invF, hEoVF, hsubF.trans hsub2, ?_⟩
          intro q hq
          rcases List.mem_cons.mp hq with rfl | hmem
          · exact fun hmem' => hp2 (hsubF hmem')
          · exact hrestF q hmem
        · rw [if_neg hEoV2] at h
          have invF := RemInv.breakAll_spec hGalIn (g2.positions.sort (· ≤ ·)) u2 g2 u'
            inv2 (g2.positions.sort_nodup _) (fun q hq => (Finset.mem_sort _).mp hq)
            (fun q hq => (Finset.mem_sort _).mpr hq) h
          refine ⟨⟨∅⟩, invF, Or.inl rfl, ?_, ?_⟩
          · intro y hy; exact absurd hy (Finset.not_mem_empty y)
          · intro q _ hq; exact absurd hq (Finset.not_mem_empty q)
    · rw [if_neg hpgal] at h
      exact absurd h (by simp)

/-- The residual's cells form exactly its galaxy in the final
universe. -/
theorem RemInv.residual_galaxy {u₀ : Universe} {gal : Galaxy} {x : Nat} {u' : Universe}
    {gF : Galaxy} (hGalIn : ∀ q ∈ gal.positions, u₀.isInside q)
    (inv : RemInv u₀ gal x u' gF) {q : Position} (hq : q ∈ gF.positions) :
    (u'.getGalaxy q).positions = gF.positions := by
  ext y
  rw [Universe.mem_getGalaxy]
  constructor
  · rintro ⟨hy, hid⟩
    rw [inv.idx q hq] at hid
    exact inv.only ⟨q, hq⟩ y hy hid
  · intro hy
    refine ⟨(inv.inside_iff y).mpr (hGalIn y (inv.sub hy)), ?_⟩
    rw [inv.idx y hy, inv.idx q hq]

/-- Membership in `adjacent_positions` of an inside cell: exactly the
adjacent inside cells. -/
theorem Universe.mem_adjacentPositions {u : Universe} {p q : Position}
    (hp : u.isInside p) : q ∈ u.adjacentPositions p ↔ q ∈ p.adjacent ∧ u.isInside q := by
  obtain ⟨h1, h2, h3, h4⟩ := hp
  have hmem : ∀ (c : Prop) (inst : Decidable c) (x : Position),
      (q ∈ if c then [x] else []) ↔ c ∧ q = x := by
    intro c inst x
    split_ifs with hc
    · simp [hc]
    · simp [hc]
  rw [Universe.adjacentPositions]
  simp only [List.mem_append, hmem]
  constructor
  · rintro (((⟨hc, rfl⟩ | ⟨hc, rfl⟩) | ⟨hc, rfl⟩) | ⟨hc, rfl⟩)
    · exact ⟨by simp [Position.adjacent],
        ⟨by show (0 : Int) ≤ p.row - 1; omega,
         by show p.row - 1 < (u.getHeight : Int); omega, h3, h4⟩⟩
    · exact ⟨by simp [Position.adjacent],
        ⟨by show (0 : Int) ≤ p.row + 1; omega,
         by show p.row + 1 < (u.getHeight : Int); omega, h3, h4⟩⟩
    · exact ⟨by simp [Position.adjacent],
        ⟨h1, h2, by show (0 : Int) ≤ p.column - 1; omega,
         by show p.column - 1 < (u.getWidth : Int); omega⟩⟩
    · exact ⟨by simp [Position.adjacent],
        ⟨h1, h2, by show (0 : Int) ≤ p.column + 1; omega,
         by show p.column + 1 < (u.getWidth : Int); omega⟩⟩
  · rintro ⟨hadj, hin⟩
    rw [Position.mem_adjacent_iff] at hadj
    obtain ⟨b1, b2, b3, b4⟩ := hin
    rcases hadj with ⟨e1, e2⟩ | ⟨e1, e2⟩ | ⟨e1, e2⟩ | ⟨e1, e2⟩
    · left; left; left
      exact ⟨by omega, Position.ext_rc (by show q.row = p.row - 1; omega)
        (by show q.column = p.column; omega)⟩
    · left; left; right
      exact ⟨by omega, Position.ext_rc (by show q.row = p.row + 1; omega)
        (by show q.column = p.column; omega)⟩
    · left; right
      exact ⟨by omega, Position.ext_rc (by show q.row = p.row; omega)
        (by show q.column = p.column - 1; omega)⟩
    · right
      exact ⟨by omega, Position.ext_rc (by show q.row = p.row; omega)
        (by show q.column = p.column + 1; omega)⟩

/-- After `make_neighbours(p1, p2)`: the class of `p1` (and of `p2`)
gains exactly `p2`, every other class merely loses `p2`, and the
geometry is preserved. -/
theorem Universe.makeNeighbours_spec {u : Universe} (hWF : u.WellFormed)
    {p1 p2 : Position} (h1 : u.isInside p1) (h2 : u.isInside p2) (hne : p2 ≠ p1) :
    (u.makeNeighbours p1 p2).WellFormed ∧
    (u.makeNeighbours p1 p2).getWidth = u.getWidth ∧
    (u.makeNeighbours p1 p2).getHeight = u.getHeight ∧
    ∀ q, u.isInside q →
      ((u.makeNeighbours p1 p2).getGalaxy q).positions =
        if u.idAt q = u.idAt p1 ∨ q = p2 then insert p2 (u.getGalaxy p1).positions
        else (u.getGalaxy q).positions.erase p2 := by
  have hself : (u.makeNeighbours p1 p2).idAt p2 = u.idAt p1 :=
    Universe.idAt_setAt_self hWF h2 _
  have hframe : ∀ q, u.isInside q → q ≠ p2 →
      (u.makeNeighbours p1 p2).idAt q = u.idAt q :=
    fun q hq hqne => Universe.idAt_setAt_ne h2 hq hqne _
  have hins : ∀ q, (u.makeNeighbours p1 p2).isInside q ↔ u.isInside q :=
    fun q => Universe.isInside_setAt _
  refine ⟨Universe.wellFormed_setAt hWF h2 _, Universe.getWidth_setAt u p2 _,
    Universe.getHeight_setAt u p2 _, ?_⟩
  intro q hq
  by_cases hcase : u.idAt q = u.idAt p1 ∨ q = p2
  · rw [if_pos hcase]
    have hidq : (u.makeNeighbours p1 p2).idAt q = u.idAt p1 := by
      rcases hcase with hc | hc
      · by_cases hqp2 : q = p2
        · rw [hqp2]; exact hself
        · rw [hframe q hq hqp2]; exact hc
      · rw [hc]; exact hself
    ext y
    rw [Universe.mem_getGalaxy, hins y, Finset.mem_insert, Universe.mem_getGalaxy, hidq]
    constructor
    · rintro ⟨hy, hidy⟩
      by_cases hyp2 : y = p2
      · exact Or.inl hyp2
      · right
        refine ⟨hy, ?_⟩
        rw [hframe y hy hyp2] at hidy
        exact hidy
    · rintro (rfl | ⟨hy, hidy⟩)
      · exact ⟨h2, hself⟩
      · refine ⟨hy, ?_⟩
        by_cases hyp2 : y = p2
        · rw [hyp2]; exact hself
        · rw [hframe y hy hyp2]; exact hidy
  · rw [if_neg hcase]
    push_neg at hcase
    obtain ⟨hidne, hqp2⟩ := hcase
    have hidq : (u.makeNeighbours p1 p2).idAt q = u.idAt q := hframe q hq hqp2
    ext y
    rw [Universe.mem_getGalaxy, hins y, Finset.mem_erase, Universe.mem_getGalaxy, hidq]
    constructor
    · rintro ⟨hy, hidy⟩
      have hyp2 : y ≠ p2 := by
        rintro rfl
        rw [hself] at hidy
        exact hidne hidy.symm
      rw [hframe y hy hyp2] at hidy
      exact ⟨hyp2, hy, hidy⟩
    · rintro ⟨hyp2, hy, hidy⟩
      refine ⟨hy, ?_⟩
      rw [hframe y hy hyp2]
      exact hidy

/-- Classes with equal identifiers coincide. -/
theorem Universe.getGalaxy_eq_of_id {u : Universe} {a b : Position}
    (ha : u.isInside a) (hid : u.idAt a = u.idAt b) :
    u.getGalaxy a = u.getGalaxy b := by
  apply Galaxy.eq_of_positions_eq
  ext y
  rw [Universe.mem_getGalaxy, Universe.mem_getGalaxy, hid]

/-- The full post-condition of a successful
`remove_positions_from_galaxy` on the galaxy of a cell `p0`: validity,
singletons at the removed cells, untouched classes away from the
galaxy, and preserved geometry. -/
theorem Universe.remove_call_spec {u : Universe} {p0 : Position} {S : List Position}
    {u' : Universe} (hWF : u.WellFormed) (hval : u.IsValid) (hp0 : u.isInside p0)
    (hS : ∀ p ∈ S, p ∈ (u.getGalaxy p0).positions)
    (h : u.removePositionsFromGalaxy (u.getGalaxy p0) S = some u') :
    u'.IsValid ∧ u'.WellFormed ∧ u'.getWidth = u.getWidth ∧ u'.getHeight = u.getHeight ∧
    (∀ p ∈ S, (u'.getGalaxy p).positions = {p}) ∧
    (∀ q, u.isInside q → q ∉ (u.getGalaxy p0).positions →
      u'.getGalaxy q = u.getGalaxy q) := by
  have hGalIn : ∀ q ∈ (u.getGalaxy p0).positions, u.isInside q :=
    fun q hq => (Universe.mem_getGalaxy.mp hq).1
  have hGalValid : (u.getGalaxy p0).IsValid :=
    Universe.isValid_iff_forall.mp hval p0 (Universe.mem_positionsList.mpr hp0)
  have hGalSym : (u.getGalaxy p0).IsSymmetric := hGalValid.2.2.2
  have inv0 : RemInv u (u.getGalaxy p0) (u.idAt p0) u (u.getGalaxy p0) := by
    refine ⟨hWF, rfl, rfl, Finset.Subset.refl _, ?_, ?_, fun _ _ _ => rfl, ?_⟩
    · intro q hq
      exact (Universe.mem_getGalaxy.mp hq).2
    · intro _ q hq hid
      exact Universe.mem_getGalaxy.mpr ⟨hq, hid⟩
    · intro q hq hq'
      exact absurd hq hq'
  obtain ⟨gF, invF, hEoVF, _, hSF⟩ :=
    RemInv.loop_spec hGalIn hGalSym S u (u.getGalaxy p0) u' inv0 (Or.inr hGalValid) h
  refine ⟨?_, invF.wf, invF.width_eq, invF.height_eq, ?_, ?_⟩
  · rw [Universe.isValid_iff_forall]
    intro q hq
    have hq' : u.isInside q := by
      rw [Universe.mem_positionsList] at hq
      exact (invF.inside_iff q).mp hq
    by_cases hqgal : q ∈ (u.getGalaxy p0).positions
    · by_cases hqF : q ∈ gF.positions
      · have hres := RemInv.residual_galaxy hGalIn invF hqF
        have heq : u'.getGalaxy q = gF := Galaxy.eq_of_positions_eq hres
        rw [heq]
        rcases hEoVF with he | hv
        · rw [Galaxy.isEmpty] at he
          rw [he] at hqF
          exact absurd hqF (Finset.not_mem_empty q)
        · exact hv
      · have hsing := invF.single q hqgal hqF
        have heq : u'.getGalaxy q = ⟨{q}⟩ := Galaxy.eq_of_positions_eq hsing
        rw [heq]
        exact Galaxy.singleton_valid q
    · have hframe := invF.frameOut q ((invF.inside_iff q).mpr hq') hqgal
      have heq : u'.getGalaxy q = u.getGalaxy q := Galaxy.eq_of_positions_eq hframe
      rw [heq]
      exact Universe.isValid_iff_forall.mp hval q (Universe.mem_positionsList.mpr hq')
  · intro p hp
    exact invF.single p (hS p hp) (hSF p hp)
  · intro q hq hqout
    exact Galaxy.eq_of_positions_eq (invF.frameOut q ((invF.inside_iff q).mpr hq) hqout)

/-- Rebuilding one `make_neighbours(p1, p2)` on a valid universe in
which `p2` is a singleton and the joined galaxy is valid. -/
theorem Universe.make_one_assemble {u1 : Universe} {p1 p2 : Position} {G : Galaxy}
    (hWF : u1.WellFormed) (hval1 : u1.IsValid)
    (h1 : u1.isInside p1) (h2 : u1.isInside p2) (hne : p2 ≠ p1)
    (hg1 : (u1.getGalaxy p1).positions = G.positions)
    (hs2 : (u1.getGalaxy p2).positions = {p2})
    (hvalG : (G.withPosition p2).IsValid) :
    (u1.makeNeighbours p1 p2).IsValid := by
  obtain ⟨hWF', hw, hh, hgal⟩ := Universe.makeNeighbours_spec hWF h1 h2 hne
  rw [Universe.isValid_iff_forall]
  intro q hq
  have hq' : u1.isInside q := by
    rw [Universe.mem_positionsList] at hq
    exact (Universe.isInside_congr hw hh q).mp hq
  have hthis := hgal q hq'
  by_cases hcase : u1.idAt q = u1.idAt p1 ∨ q = p2
  · rw [if_pos hcase] at hthis
    have hEq : (u1.makeNeighbours p1 p2).getGalaxy q = G.withPosition p2 := by
      apply Galaxy.eq_of_positions_eq
      rw [hthis]
      show insert p2 (u1.getGalaxy p1).positions = insert p2 G.positions
      rw [hg1]
    rw [hEq]
    exact hvalG
  · rw [if_neg hcase] at hthis
    push_neg at hcase
    have hnp2 : p2 ∉ (u1.getGalaxy q).positions := by
      intro hmem
      rw [Universe.mem_getGalaxy] at hmem
      have hqmem : q ∈ (u1.getGalaxy p2).positions :=
        Universe.mem_getGalaxy.mpr ⟨hq', hmem.2.symm⟩
      rw [hs2, Finset.mem_singleton] at hqmem
      exact hcase.2 hqmem
    rw [Finset.erase_eq_of_not_mem hnp2] at hthis
    rw [Galaxy.eq_of_positions_eq hthis]
    exact Universe.isValid_iff_forall.mp hval1 q (Universe.mem_positionsList.mpr hq')

/-- Rebuilding the two `make_neighbours` calls of the asymmetric
branch on a valid universe in which `p2` and `p3` are singletons and
the doubly-extended galaxy is valid. -/
theorem Universe.make_two_assemble {u2 : Universe} {p1 p2 p3 : Position} {G : Galaxy}
    (hWF : u2.WellFormed) (hval2 : u2.IsValid)
    (h1 : u2.isInside p1) (h2 : u2.isInside p2) (h3 : u2.isInside p3)
    (hne21 : p2 ≠ p1) (hne31 : p3 ≠ p1) (hne32 : p3 ≠ p2)
    (hg1 : (u2.getGalaxy p1).positions = G.positions)
    (hs2 : (u2.getGalaxy p2).positions = {p2})
    (hs3 : (u2.getGalaxy p3).positions = {p3})
    (hvalG : ((G.withPosition p2).withPosition p3).IsValid) :
    ((u2.makeNeighbours p1 p2).makeNeighbours p1 p3).IsValid := by
  obtain ⟨hWFv, hwv, hhv, hgalv⟩ := Universe.makeNeighbours_spec hWF h1 h2 hne21
  have hinsv : ∀ q, (u2.makeNeighbours p1 p2).isInside q ↔ u2.isInside q :=
    fun q => Universe.isInside_congr hwv hhv q
  have hid13 : u2.idAt p3 ≠ u2.idAt p1 := by
    intro he
    have hmem : p1 ∈ (u2.getGalaxy p3).positions :=
      Universe.mem_getGalaxy.mpr ⟨h1, he.symm⟩
    rw [hs3, Finset.mem_singleton] at hmem
    exact hne31 hmem.symm
  have hgv1 : ((u2.makeNeighbours p1 p2).getGalaxy p1).positions
      = insert p2 G.positions := by
    have hthis := hgalv p1 h1
    rw [if_pos (Or.inl rfl)] at hthis
    rw [hthis, hg1]
  have hgv3 : ((u2.makeNeighbours p1 p2).getGalaxy p3).positions = {p3} := by
    have hthis := hgalv p3 h3
    rw [if_neg] at hthis
    · rw [hthis, hs3, Finset.erase_eq_of_not_mem]
      rw [Finset.mem_singleton]
      exact fun he => hne32 he.symm
    · rintro (hc | hc)
      · exact hid13 hc
      · exact hne32 hc
  have hidv1 : (u2.makeNeighbours p1 p2).idAt p1 = u2.idAt p1 :=
    Universe.idAt_setAt_ne h2 h1 (fun h => hne21 h.symm) _
  have hidv2 : (u2.makeNeighbours p1 p2).idAt p2 = u2.idAt p1 :=
    Universe.idAt_setAt_self hWF h2 _
  obtain ⟨hWF2, hw2, hh2, hgal2⟩ := Universe.makeNeighbours_spec hWFv
    ((hinsv p1).mpr h1) ((hinsv p3).mpr h3) hne31
  rw [Universe.isValid_iff_forall]
  intro q hq
  have hqv : (u2.makeNeighbours p1 p2).isInside q := by
    rw [Universe.mem_positionsList] at hq
    exact (Universe.isInside_congr hw2 hh2 q).mp hq
  have hqu : u2.isInside q := (hinsv q).mp hqv
  have hthis := hgal2 q hqv
  by_cases hcase : (u2.makeNeighbours p1 p2).idAt q = (u2.makeNeighbours p1 p2).idAt p1
      ∨ q = p3
  · rw [if_pos hcase] at hthis
    have hEq : ((u2.makeNeighbours p1 p2).makeNeighbours p1 p3).getGalaxy q
        = (G.withPosition p2).withPosition p3 := by
      apply Galaxy.eq_of_positions_eq
      rw [hthis]
      show insert p3 ((u2.makeNeighbours p1 p2).getGalaxy p1).positions
          = insert p3 (insert p2 G.positions)
      rw [hgv1]
    rw [hEq]
    exact hvalG
  · rw [if_neg hcase] at hthis
    push_neg at hcase
    have hnp3 : p3 ∉ ((u2.makeNeighbours p1 p2).getGalaxy q).positions := by
      intro hmem
      rw [Universe.mem_getGalaxy] at hmem
      have hqmem : q ∈ ((u2.makeNeighbours p1 p2).getGalaxy p3).positions :=
        Universe.mem_getGalaxy.mpr ⟨hqv, hmem.2.symm⟩
      rw [hgv3, Finset.mem_singleton] at hqmem
      exact hcase.2 hqmem
    rw [Finset.erase_eq_of_not_mem hnp3] at hthis
    have hthisv := hgalv q hqu
    have hcase2 : ¬(u2.idAt q = u2.idAt p1 ∨ q = p2) := by
      rintro (hc | hc)
      · apply hcase.1
        by_cases hqp2 : q = p2
        · rw [hqp2, hidv2, hidv1]
        · have e1 : (u2.makeNeighbours p1 p2).idAt q = u2.idAt q :=
            Universe.idAt_setAt_ne h2 hqu hqp2 _
          rw [e1, hc, hidv1]
      · apply hcase.1
        rw [hc, hidv2, hidv1]
    rw [if_neg hcase2] at hthisv
    push_neg at hcase2
    have hnp2 : p2 ∉ (u2.getGalaxy q).positions := by
      intro hmem
      rw [Universe.mem_getGalaxy] at hmem
      have hqmem : q ∈ (u2.getGalaxy p2).positions :=
        Universe.mem_getGalaxy.mpr ⟨hqu, hmem.2.symm⟩
      rw [hs2, Finset.mem_singleton] at hqmem
      exact hcase2.2 hqmem
    rw [Finset.erase_eq_of_not_mem hnp2] at hthisv
    rw [Galaxy.eq_of_positions_eq (hthis.trans hthisv)]
    exact Universe.isValid_iff_forall.mp hval2 q (Universe.mem_positionsList.mpr hqu)

/-- Claim C5: given a valid universe, a galaxy `gal` of it and a list
`S` of positions of `gal`, if `remove_positions_from_galaxy(gal, S)`
returns, the universe is valid again and every position of `S` is a
singleton galaxy.  (The processing order, the extra mirror detachment
on an asymmetric residual, and the early break-up of an invalid
residual are the definition `removePositionsFromGalaxy` itself.) -/
theorem c5_remove_positions_from_galaxy (u : Universe) (gal : Galaxy)
    (S : List Position) (u' : Universe) (hWF : u.WellFormed) (hval : u.IsValid)
    (hgal : gal ∈ u.getGalaxies) (hS : ∀ p ∈ S, p ∈ gal.positions)
    (h : u.removePositionsFromGalaxy gal S = some u') :
    u'.IsValid ∧ ∀ p ∈ S, (u'.getGalaxy p).positions = {p} := by
  obtain ⟨p0, hp0, rfl⟩ := Universe.mem_getGalaxies_iff.mp hgal
  have hGalIn : ∀ q ∈ (u.getGalaxy p0).positions, u.isInside q := by
    intro q hq
    exact (Universe.mem_getGalaxy.mp hq).1
  have hGalValid : (u.getGalaxy p0).IsValid := Universe.isValid_iff_forall.mp hval p0 hp0
  have hGalSym : (u.getGalaxy p0).IsSymmetric := hGalValid.2.2.2
  have inv0 : RemInv u (u.getGalaxy p0) (u.idAt p0) u (u.getGalaxy p0) := by
    refine ⟨hWF, rfl, rfl, Finset.Subset.refl _, ?_, ?_, fun _ _ _ => rfl, ?_⟩
    · intro q hq
      exact (Universe.mem_getGalaxy.mp hq).2
    · intro _ q hq hid
      exact Universe.mem_getGalaxy.mpr ⟨hq, hid⟩
    · intro q hq hq'
      exact absurd hq hq'
  obtain ⟨gF, invF, hEoVF, _, hSF⟩ :=
    RemInv.loop_spec hGalIn hGalSym S u (u.getGalaxy p0) u' inv0 (Or.inr hGalValid) h
  constructor
  · rw [Universe.isValid_iff_forall]
    intro q hq
    have hq' : u.isInside q := by
      rw [Universe.mem_positionsList] at hq
      exact (invF.inside_iff q).mp hq
    by_cases hqgal : q ∈ (u.getGalaxy p0).positions
    · by_cases hqF : q ∈ gF.positions
      · have hres := RemInv.residual_galaxy hGalIn invF hqF
        have : u'.getGalaxy q = gF := Galaxy.eq_of_positions_eq hres
        rw [this]
        rcases hEoVF with he | hv
        · rw [Galaxy.isEmpty] at he
          rw [he] at hqF
          exact absurd hqF (Finset.not_mem_empty q)
        · exact hv
      · have hsing := invF.single q hqgal hqF
        have : u'.getGalaxy q = ⟨{q}⟩ := Galaxy.eq_of_positions_eq hsing
        rw [this]
        exact Galaxy.singleton_valid q
    · have hframe := invF.frameOut q ((invF.inside_iff q).mpr hq') hqgal
      have : u'.getGalaxy q = u.getGalaxy q := Galaxy.eq_of_positions_eq hframe
      rw [this]
      exact Universe.isValid_iff_forall.mp hval q (Universe.mem_positionsList.mpr hq')
  · intro p hp
    exact invF.single p (hS p hp) (hSF p hp)

/-- Witness for C5 at a concrete input: the 2×1 universe whose two
cells form one galaxy, removing the left cell. -/
theorem c5_remove_positions_from_galaxy_witness :
    (⟨[[0, 0]]⟩ : Universe).WellFormed ∧ (⟨[[0, 0]]⟩ : Universe).IsValid ∧
    (⟨{⟨0, 0⟩, ⟨0, 1⟩}⟩ : Galaxy) ∈ (⟨[[0, 0]]⟩ : Universe).getGalaxies ∧
    (∀ p ∈ [(⟨0, 0⟩ : Position)], p ∈ (⟨{⟨0, 0⟩, ⟨0, 1⟩}⟩ : Galaxy).positions) ∧
    (⟨[[0, 0]]⟩ : Universe).removePositionsFromGalaxy ⟨{⟨0, 0⟩, ⟨0, 1⟩}⟩ [⟨0, 0⟩] =
      some ⟨[[1, 0]]⟩ ∧
    ((⟨[[1, 0]]⟩ : Universe).IsValid ∧ ∀ p ∈ [(⟨0, 0⟩ : Position)],
      ((⟨[[1, 0]]⟩ : Universe).getGalaxy p).positions = {p}) :=
  ⟨by decide, by decide, by decide, by decide, by decide,
    c5_remove_positions_from_galaxy ⟨[[0, 0]]⟩ ⟨{⟨0, 0⟩, ⟨0, 1⟩}⟩ [⟨0, 0⟩] ⟨[[1, 0]]⟩
      (by decide) (by decide) (by decide) (by decide) (by decide)⟩

/-- On the fresh 2×1 universe every draw makes `generate_step` merge
the two cells: it succeeds and leaves a constant grid. -/
theorem generateStep_new21 (rng : Nat → Nat) (k : Nat) :
    ∃ a : Nat, (Universe.new 2 1).generateStep rng k
      = some (true, ⟨[[a, a]]⟩, k + 2) := by
  have hmod : rng k % 2 = 0 ∨ rng k % 2 = 1 := by omega
  rcases hmod with h | h
  · refine ⟨0, ?_⟩
    have h1 : (Universe.new 2 1).positionsList[rng k %
        (Universe.new 2 1).positionsList.length]? = some ⟨0, 0⟩ := by
      rw [show (Universe.new 2 1).positionsList = [(⟨0, 0⟩ : Position), ⟨0, 1⟩] from rfl,
        show ([(⟨0, 0⟩ : Position), ⟨0, 1⟩] : List Position).length = 2 from rfl, h]
      rfl
    rw [Universe.generateStep, h1]
    dsimp only
    have h2 : ((Universe.new 2 1).getAdjacentNonNeighbours ⟨0, 0⟩)[rng (k + 1) %
        ((Universe.new 2 1).getAdjacentNonNeighbours ⟨0, 0⟩).length]? = some ⟨0, 1⟩ := by
      rw [show (Universe.new 2 1).getAdjacentNonNeighbours ⟨0, 0⟩
          = [(⟨0, 1⟩ : Position)] from by decide,
        show ([(⟨0, 1⟩ : Position)] : List Position).length = 1 from rfl, Nat.mod_one]
      rfl
    rw [h2]
    dsimp only
    rw [if_pos (show (((Universe.new 2 1).getGalaxy ⟨0, 0⟩).withPosition
      ⟨0, 1⟩).IsSymmetric from by decide)]
    rw [show (Universe.new 2 1).removePositionsFromGalaxy
        ((Universe.new 2 1).getGalaxy ⟨0, 1⟩) [⟨0, 1⟩] = some ⟨[[0, 2]]⟩ from by decide]
    dsimp only
    rw [show (⟨[[0, 2]]⟩ : Universe).makeNeighbours ⟨0, 0⟩ ⟨0, 1⟩ = ⟨[[0, 0]]⟩
      from by decide]
  · refine ⟨1, ?_⟩
    have h1 : (Universe.new 2 1).positionsList[rng k %
        (Universe.new 2 1).positionsList.length]? = some ⟨0, 1⟩ := by
      rw [show (Universe.new 2 1).positionsList = [(⟨0, 0⟩ : Position), ⟨0, 1⟩] from rfl,
        show ([(⟨0, 0⟩ : Position), ⟨0, 1⟩] : List Position).length = 2 from rfl, h]
      rfl
    rw [Universe.generateStep, h1]
    dsimp only
    have h2 : ((Universe.new 2 1).getAdjacentNonNeighbours ⟨0, 1⟩)[rng (k + 1) %
        ((Universe.new 2 1).getAdjacentNonNeighbours ⟨0, 1⟩).length]? = some ⟨0, 0⟩ := by
      rw [show (Universe.new 2 1).getAdjacentNonNeighbours ⟨0, 1⟩
          = [(⟨0, 0⟩ : Position)] from by decide,
        show ([(⟨0, 0⟩ : Position)] : List Position).length = 1 from rfl, Nat.mod_one]
      rfl
    rw [h2]
    dsimp only
    rw [if_pos (show (((Universe.new 2 1).getGalaxy ⟨0, 1⟩).withPosition
      ⟨0, 0⟩).IsSymmetric from by decide)]
    rw [show (Universe.new 2 1).removePositionsFromGalaxy
        ((Universe.new 2 1).getGalaxy ⟨0, 0⟩) [⟨0, 0⟩] = some ⟨[[2, 1]]⟩ from by decide]
    dsimp only
    rw [show (⟨[[2, 1]]⟩ : Universe).makeNeighbours ⟨0, 1⟩ ⟨0, 0⟩ = ⟨[[1, 1]]⟩
      from by decide]

/-- On a merged 2×1 universe (both cells the same identifier)
`generate_step` always fails without touching the universe. -/
theorem generateStep_merged (a : Nat) (rng : Nat → Nat) (k : Nat) :
    (⟨[[a, a]]⟩ : Universe).generateStep rng k = some (false, ⟨[[a, a]]⟩, k + 2) := by
  have hnn : ∀ p q : Position, (⟨[[a, a]]⟩ : Universe).adjacentPositions p = [q] →
      (⟨[[a, a]]⟩ : Universe).idAt p = a → (⟨[[a, a]]⟩ : Universe).idAt q = a →
      (⟨[[a, a]]⟩ : Universe).isInside p → (⟨[[a, a]]⟩ : Universe).isInside q →
      (⟨[[a, a]]⟩ : Universe).getAdjacentNonNeighbours p = [] := by
    intro p q hadj hip hiq hinp hinq
    rw [Universe.getAdjacentNonNeighbours, hadj, List.filter_cons, List.filter_nil]
    rw [if_neg]
    simp only [decide_eq_true_eq, not_not]
    exact ⟨hinp, hinq, by rw [hip, hiq]⟩
  have hin00 : (⟨[[a, a]]⟩ : Universe).isInside ⟨0, 0⟩ := by
    refine ⟨by norm_num, ?_, by norm_num, ?_⟩
    · rw [show (⟨[[a, a]]⟩ : Universe).getHeight = 1 from rfl]; norm_num
    · rw [show (⟨[[a, a]]⟩ : Universe).getWidth = 2 from rfl]; norm_num
  have hin01 : (⟨[[a, a]]⟩ : Universe).isInside ⟨0, 1⟩ := by
    refine ⟨by norm_num, ?_, by norm_num, ?_⟩
    · rw [show (⟨[[a, a]]⟩ : Universe).getHeight = 1 from rfl]; norm_num
    · rw [show (⟨[[a, a]]⟩ : Universe).getWidth = 2 from rfl]; norm_num
  have hmod : rng k % 2 = 0 ∨ rng k % 2 = 1 := by omega
  rcases hmod with h | h
  · have h1 : (⟨[[a, a]]⟩ : Universe).positionsList[rng k %
        (⟨[[a, a]]⟩ : Universe).positionsList.length]? = some ⟨0, 0⟩ := by
      rw [show (⟨[[a, a]]⟩ : Universe).positionsList
          = [(⟨0, 0⟩ : Position), ⟨0, 1⟩] from rfl,
        show ([(⟨0, 0⟩ : Position), ⟨0, 1⟩] : List Position).length = 2 from rfl, h]
      rfl
    rw [Universe.generateStep, h1]
    dsimp only
    rw [hnn ⟨0, 0⟩ ⟨0, 1⟩ rfl rfl rfl hin00 hin01]
    rfl
  · have h1 : (⟨[[a, a]]⟩ : Universe).positionsList[rng k %
        (⟨[[a, a]]⟩ : Universe).positionsList.length]? = some ⟨0, 1⟩ := by
      rw [show (⟨[[a, a]]⟩ : Universe).positionsList
          = [(⟨0, 0⟩ : Position), ⟨0, 1⟩] from rfl,
        show ([(⟨0, 0⟩ : Position), ⟨0, 1⟩] : List Position).length = 2 from rfl, h]
      rfl
    rw [Universe.generateStep, h1]
    dsimp only
    rw [hnn ⟨0, 1⟩ ⟨0, 0⟩ rfl rfl rfl hin01 hin00]
    rfl

/-- The branch loop on a merged 2×1 universe pushes nothing. -/
theorem branchesFold_merged (a : Nat) (rng : Nat → Nat) :
    ∀ (b k : Nat) (acc : List Universe),
      Universe.branchesFold ⟨[[a, a]]⟩ rng b k acc = some (acc, ⟨[[a, a]]⟩, k + 2 * b) := by
  intro b
  induction b with
  | zero =>
    intro k acc
    rw [Universe.branchesFold]
    simp
  | succ b ih =>
    intro k acc
    rw [Universe.branchesFold, generateStep_merged a rng k]
    dsimp only
    rw [if_neg (by simp)]
    rw [ih]
    simp only [Option.some.injEq, Prod.mk.injEq, true_and, and_true]
    omega

/-- The branch loop on the fresh 2×1 universe pushes exactly the one
pre-step snapshot — the fresh universe itself. -/
theorem branchesFold_new21 (rng : Nat → Nat) (b k : Nat) (hb : 0 < b) :
    ∃ (a k' : Nat), Universe.branchesFold (Universe.new 2 1) rng b k []
      = some ([Universe.new 2 1], ⟨[[a, a]]⟩, k') := by
  obtain ⟨b', rfl⟩ : ∃ b', b = b' + 1 := ⟨b - 1, by omega⟩
  obtain ⟨a, hstep⟩ := generateStep_new21 rng k
  rw [Universe.branchesFold, hstep]
  dsimp only
  rw [if_pos rfl, List.nil_append, branchesFold_merged]
  exact ⟨a, k + 2 + 2 * b', rfl⟩

/-- `max_by_key` returns an element of the list. -/
theorem maxByKey_foldl_mem {S : Type} [LinearOrder S] (f : Universe → S) :
    ∀ (xs : List Universe) (x : Universe),
      xs.foldl (fun best y => if f best ≤ f y then y else best) x ∈ x :: xs := by
  intro xs
  induction xs with
  | nil =>
    intro x
    exact List.mem_singleton.mpr rfl
  | cons y ys ih =>
    intro x
    rw [List.foldl_cons]
    by_cases hc : f x ≤ f y
    · rw [if_pos hc]
      exact List.mem_cons_of_mem x (ih y)
    · rw [if_neg hc]
      rcases List.mem_cons.mp (ih x) with hh | hh
      · rw [hh]; exact List.mem_cons_self x _
      · exact List.mem_cons_of_mem x (List.mem_cons_of_mem y hh)

/-- The code's iteration loop keeps the fresh 2×1 universe forever:
the only pushed snapshot is the pre-step universe. -/
theorem generateLoop_new21 {S : Type} [LinearOrder S] (score : Universe → S)
    (rng : Nat → Nat) :
    ∀ n k, ∃ k', Universe.generateLoop score rng n (Universe.new 2 1) k
      = some (Universe.new 2 1, k') := by
  intro n
  induction n with
  | zero =>
    intro k
    exact ⟨k, rfl⟩
  | succ n ih =>
    intro k
    rw [Universe.generateLoop]
    obtain ⟨a, k', hbf⟩ := branchesFold_new21 rng 5 k (by norm_num)
    rw [hbf]
    dsimp only
    rw [show Universe.maxByKey score [Universe.new 2 1]
      = some (Universe.new 2 1) from rfl]
    exact ih k'

/-- A merged 2×1 universe is valid: one two-cell galaxy. -/
theorem merged21_valid (a : Nat) : (⟨[[a, a]]⟩ : Universe).IsValid := by
  intro g hg
  rw [Universe.getGalaxies] at hg
  rw [show ((⟨[[a, a]]⟩ : Universe).positionsList.map
    (⟨[[a, a]]⟩ : Universe).idAt) = [a, a] from rfl] at hg
  rw [show List.dedup [a, a] = [a] from by simp] at hg
  simp only [List.map_cons, List.map_nil, List.mem_singleton] at hg
  subst hg
  have hfil : ((⟨[[a, a]]⟩ : Universe).positionsList.filter
      fun q => (⟨[[a, a]]⟩ : Universe).idAt q = a)
      = (⟨[[a, a]]⟩ : Universe).positionsList := by
    apply List.filter_eq_self.mpr
    intro q hq
    rw [show (⟨[[a, a]]⟩ : Universe).positionsList
      = [(⟨0, 0⟩ : Position), ⟨0, 1⟩] from rfl] at hq
    rcases List.mem_cons.mp hq with rfl | hq'
    · exact decide_eq_true rfl
    · rcases List.mem_singleton.mp hq' with rfl
      exact decide_eq_true rfl
  rw [hfil]
  show Galaxy.IsValid ⟨([(⟨0, 0⟩ : Position), ⟨0, 1⟩]).toFinset⟩
  decide

/-- The spec-worded branch loop on a merged 2×1 universe keeps
nothing. -/
theorem branchesFoldSpecC3_merged (a : Nat) (rng : Nat → Nat) :
    ∀ (b k : Nat) (acc : List Universe),
      Universe.branchesFoldSpecC3 ⟨[[a, a]]⟩ rng b k acc = some (acc, k + 2 * b) := by
  intro b
  induction b with
  | zero =>
    intro k acc
    rw [Universe.branchesFoldSpecC3]
    simp
  | succ b ih =>
    intro k acc
    rw [Universe.branchesFoldSpecC3, generateStep_merged a rng k]
    dsimp only
    rw [if_neg (by simp)]
    rw [ih]
    simp only [Option.some.injEq, Prod.mk.injEq, true_and, and_true]
    omega

/-- The spec-worded branch loop on the fresh 2×1 universe keeps `b`
stepped clones, all merged. -/
theorem branchesFoldSpecC3_new21 (rng : Nat → Nat) :
    ∀ (b k : Nat) (acc : List Universe),
      ∃ ms : List Universe, Universe.branchesFoldSpecC3 (Universe.new 2 1) rng b k acc
        = some (acc ++ ms, k + 2 * b) ∧ ms.length = b ∧
        ∀ m ∈ ms, ∃ a, m = ⟨[[a, a]]⟩ := by
  intro b
  induction b with
  | zero =>
    intro k acc
    refine ⟨[], ?_, rfl, by simp⟩
    rw [Universe.branchesFoldSpecC3]
    simp
  | succ b ih =>
    intro k acc
    obtain ⟨a, hstep⟩ := generateStep_new21 rng k
    rw [Universe.branchesFoldSpecC3, hstep]
    dsimp only
    rw [if_pos rfl]
    obtain ⟨ms, h1, hlen, hall⟩ := ih (k + 2) (acc ++ [⟨[[a, a]]⟩])
    refine ⟨⟨[[a, a]]⟩ :: ms, ?_, by simp [hlen], ?_⟩
    · rw [h1]
      simp only [Option.some.injEq, Prod.mk.injEq, List.append_assoc,
        List.singleton_append, true_and, and_true]
      omega
    · intro m hm
      rcases List.mem_cons.mp hm with rfl | hm'
      · exact ⟨a, rfl⟩
      · exact hall m hm'

/-- The spec-worded iteration loop keeps a merged 2×1 universe
forever. -/
theorem generateLoopSpecC3_merged {S : Type} [LinearOrder S] (score : Universe → S)
    (rng : Nat → Nat) (a : Nat) :
    ∀ n k, ∃ k', Universe.generateLoopSpecC3 score rng n ⟨[[a, a]]⟩ k
      = some (⟨[[a, a]]⟩, k') := by
  intro n
  induction n with
  | zero =>
    intro k
    exact ⟨k, rfl⟩
  | succ n ih =>
    intro k
    rw [Universe.generateLoopSpecC3, branchesFoldSpecC3_merged]
    dsimp only
    rw [show Universe.maxByKey score ([] : List Universe) = none from rfl]
    exact ih (k + 2 * 5)

/-- The spec-worded iteration loop on the fresh 2×1 universe ends on a
merged universe. -/
theorem generateLoopSpecC3_new21 {S : Type} [LinearOrder S] (score : Universe → S)
    (rng : Nat → Nat) (n k : Nat) (hn : 0 < n) :
    ∃ (a k' : Nat), Universe.generateLoopSpecC3 score rng n (Universe.new 2 1) k
      = some (⟨[[a, a]]⟩, k') := by
  obtain ⟨m, rfl⟩ : ∃ m, n = m + 1 := ⟨n - 1, by omega⟩
  rw [Universe.generateLoopSpecC3]
  obtain ⟨ms, hbf, hlen, hall⟩ := branchesFoldSpecC3_new21 rng 5 k []
  rw [hbf]
  dsimp only
  rcases ms with _ | ⟨m0, ms'⟩
  · exact absurd hlen (by simp)
  · rw [List.nil_append]
    obtain ⟨a, hMa⟩ := hall _ (maxByKey_foldl_mem score ms' m0)
    rw [show Universe.maxByKey score (m0 :: ms')
      = some (List.foldl (fun best y => if score best ≤ score y then y else best)
        m0 ms') from rfl]
    rw [hMa]
    obtain ⟨k2, hloop2⟩ := generateLoopSpecC3_merged score rng a m (k + 2 * 5)
    rw [show (some (⟨[[a, a]]⟩ : Universe)).getD (Universe.new 2 1)
      = (⟨[[a, a]]⟩ : Universe) from rfl]
    rw [hloop2]
    exact ⟨a, k2, rfl⟩

/-- Claim C3: the spec says each iteration steps the five clones and
keeps the successful stepped clones; the code pushes the pre-step
clone and steps the current universe in place.  On the 2×1 board the
two procedures diverge for every score function and every draw
stream: the code's `generate` returns the untouched all-singleton
universe, the claimed procedure always returns a universe whose two
cells were merged into one galaxy, and no such universe equals the
fresh one. -/
theorem c3_generate_branching (S : Type) [LinearOrder S] (score : Universe → S)
    (rng : Nat → Nat) :
    Universe.generate score 2 1 rng = some (Universe.new 2 1) ∧
    (∃ a : Nat, Universe.generateSpecC3 score 2 1 rng = some ⟨[[a, a]]⟩) ∧
    ∀ a : Nat, (⟨[[a, a]]⟩ : Universe) ≠ Universe.new 2 1 := by
  refine ⟨?_, ?_, ?_⟩
  · rw [Universe.generate]
    obtain ⟨k', hloop⟩ := generateLoop_new21 score rng (2 * 1 * 10) 0
    rw [hloop]
    dsimp only
    rw [if_pos (by decide)]
  · rw [Universe.generateSpecC3]
    obtain ⟨a, k', hloop⟩ := generateLoopSpecC3_new21 score rng (2 * 1 * 10) 0
      (by norm_num)
    rw [hloop]
    dsimp only
    rw [if_pos (merged21_valid a)]
    exact ⟨a, rfl⟩
  · intro a h
    have h2 := congrArg Universe.grid h
    rw [show (Universe.new 2 1).grid = [[0, 1]] from rfl] at h2
    simp at h2
    omega

/-- Claim C2: from a well-formed universe in which every galaxy is
valid, whatever the random draws, whenever `generate_step` returns —
with `true` or with `false` — every galaxy of the resulting universe
is again valid. -/
theorem c2_generate_step_preserves_validity (u : Universe) (rng : Nat → Nat) (k : Nat)
    (hWF : u.WellFormed) (hval : u.IsValid) (b : Bool) (u' : Universe) (k' : Nat)
    (h : u.generateStep rng k = some (b, u', k')) : u'.IsValid := by
  rw [Universe.generateStep] at h
  cases hp1m : (u.positionsList)[rng k % u.positionsList.length]? with
  | none => rw [hp1m] at h; exact absurd h (by simp)
  | some p1 =>
    rw [hp1m] at h
    dsimp only at h
    have hp1in : u.isInside p1 := Universe.mem_positionsList.mp (List.getElem?_mem hp1m)
    cases hp2m : (u.getAdjacentNonNeighbours p1)[rng (k + 1) %
        (u.getAdjacentNonNeighbours p1).length]? with
    | none =>
      rw [hp2m] at h
      dsimp only at h
      injection h with h2
      injection h2 with hb h3
      injection h3 with hu hk
      rw [← hu]
      exact hval
    | some p2 =>
      rw [hp2m] at h
      dsimp only at h
      have hp2mem : p2 ∈ u.getAdjacentNonNeighbours p1 := List.getElem?_mem hp2m
      rw [Universe.getAdjacentNonNeighbours, List.mem_filter] at hp2mem
      obtain ⟨hp2adj, hp2nb⟩ := hp2mem
      rw [Universe.mem_adjacentPositions hp1in] at hp2adj
      obtain ⟨hadj2, hp2in⟩ := hp2adj
      have hp2nb' : ¬u.areNeighbours p1 p2 := by simpa using hp2nb
      have hid21 : u.idAt p2 ≠ u.idAt p1 := by
        intro he
        exact hp2nb' ⟨hp1in, hp2in, he.symm⟩
      have hne21 : p2 ≠ p1 := by
        rintro rfl
        exact hid21 rfl
      have hp2ng1 : p2 ∉ (u.getGalaxy p1).positions := by
        intro hmem
        exact hid21 (Universe.mem_getGalaxy.mp hmem).2
      have hp1g1 : p1 ∈ (u.getGalaxy p1).positions :=
        Universe.mem_getGalaxy.mpr ⟨hp1in, rfl⟩
      have hg1val : (u.getGalaxy p1).IsValid :=
        Universe.isValid_iff_forall.mp hval p1 (Universe.mem_positionsList.mpr hp1in)
      have hnn : ∀ q ∈ (u.getGalaxy p1).positions, 0 ≤ q.row ∧ 0 ≤ q.column := by
        intro q hq
        obtain ⟨hin, _⟩ := Universe.mem_getGalaxy.mp hq
        exact ⟨hin.1, hin.2.2.1⟩
      have hnn2 : 0 ≤ p2.row ∧ 0 ≤ p2.column := ⟨hp2in.1, hp2in.2.2.1⟩
      have hp1ng2 : p1 ∉ (u.getGalaxy p2).positions := by
        intro hmem
        exact hid21 (Universe.mem_getGalaxy.mp hmem).2.symm
      by_cases hsymb : ((u.getGalaxy p1).withPosition p2).IsSymmetric
      · rw [if_pos hsymb] at h
        cases hrem : u.removePositionsFromGalaxy (u.getGalaxy p2) [p2] with
        | none => rw [hrem] at h; exact absurd h (by simp)
        | some u1 =>
          rw [hrem] at h
          dsimp only at h
          injection h with h2
          injection h2 with hb h3
          injection h3 with hu hk
          obtain ⟨hval1, hWF1, hw1, hh1, hsing1, hframe1⟩ :=
            Universe.remove_call_spec hWF hval hp2in
              (by intro p hp
                  rcases List.mem_singleton.mp hp with rfl
                  exact Universe.mem_getGalaxy.mpr ⟨hp2in, rfl⟩) hrem
          have hvalG : ((u.getGalaxy p1).withPosition p2).IsValid :=
            Galaxy.union_one_valid hg1val hp1g1 hadj2 hp2ng1 hsymb hnn hnn2
          have hins1 : ∀ q, u1.isInside q ↔ u.isInside q :=
            fun q => Universe.isInside_congr hw1 hh1 q
          have hres := Universe.make_one_assemble hWF1 hval1 ((hins1 p1).mpr hp1in)
            ((hins1 p2).mpr hp2in) hne21
            (by rw [hframe1 p1 hp1in hp1ng2])
            (hsing1 p2 (List.mem_singleton.mpr rfl))
            hvalG
          rw [← hu]
          exact hres
      · rw [if_neg hsymb] at h
        cases hp3m : (u.p3Candidates p1 p2)[rng (k + 2) %
            (u.p3Candidates p1 p2).length]? with
        | none =>
          rw [hp3m] at h
          dsimp only at h
          injection h with h2
          injection h2 with hb h3
          injection h3 with hu hk
          rw [← hu]
          exact hval
        | some p3 =>
          rw [hp3m] at h
          dsimp only at h
          have hp3mem : p3 ∈ u.p3Candidates p1 p2 := List.getElem?_mem hp3m
          rw [Universe.p3Candidates, List.mem_append] at hp3mem
          have hkey : u.isInside p3 ∧
              (((u.getGalaxy p1).withPosition p2).withPosition p3).IsValid ∧
              p3 ∉ (u.getGalaxy p1).positions ∧ p3 ≠ p2 := by
            rcases hp3mem with hmir | hfil
            · by_cases hin : u.isInside ((u.getGalaxy p1).mirrorPosition p2)
              · rw [if_pos hin, List.mem_singleton] at hmir
                subst hmir
                obtain ⟨hv, ho, hn⟩ :=
                  Galaxy.union_mirror_valid hg1val hp1g1 hadj2 hp2ng1
                exact ⟨hin, hv, ho, hn⟩
              · rw [if_neg hin] at hmir
                exact absurd hmir (List.not_mem_nil p3)
            · rw [List.mem_filter] at hfil
              obtain ⟨hfmem, hfsym⟩ := hfil
              rw [Universe.getAdjacentNonNeighbours, List.mem_filter] at hfmem
              obtain ⟨hfadj, _⟩ := hfmem
              rw [Universe.mem_adjacentPositions hp2in] at hfadj
              obtain ⟨hadj3, hp3in⟩ := hfadj
              have hsym3 : (((u.getGalaxy p1).withPosition p2).withPosition
                  p3).IsSymmetric := by simpa using hfsym
              obtain ⟨hv, ho, hn⟩ := Galaxy.union_two_adj_valid hg1val hp1g1 hadj2
                hp2ng1 hsymb hadj3 hsym3 hnn hnn2 ⟨hp3in.1, hp3in.2.2.1⟩
              exact ⟨hp3in, hv, ho, hn⟩
          obtain ⟨hp3in, hvalS3, hp3ng1, hp3ne2⟩ := hkey
          have hid31 : u.idAt p3 ≠ u.idAt p1 := by
            intro he
            exact hp3ng1 (Universe.mem_getGalaxy.mpr ⟨hp3in, he⟩)
          have hne31 : p3 ≠ p1 := by
            rintro rfl
            exact hid31 rfl
          have hp1ng3 : p1 ∉ (u.getGalaxy p3).positions := by
            intro hmem
            exact hid31 (Universe.mem_getGalaxy.mp hmem).2.symm
          by_cases hg23 : u.getGalaxy p2 = u.getGalaxy p3
          · rw [if_pos hg23] at h
            cases hrem : u.removePositionsFromGalaxy (u.getGalaxy p2) [p2, p3] with
            | none => rw [hrem] at h; exact absurd h (by simp)
            | some u1 =>
              rw [hrem] at h
              dsimp only at h
              injection h with h2
              injection h2 with hb h3
              injection h3 with hu hk
              obtain ⟨hval1, hWF1, hw1, hh1, hsing1, hframe1⟩ :=
                Universe.remove_call_spec hWF hval hp2in
                  (by intro p hp
                      rcases List.mem_cons.mp hp with rfl | hp'
                      · exact Universe.mem_getGalaxy.mpr ⟨hp2in, rfl⟩
                      · rcases List.mem_singleton.mp hp' with rfl
                        rw [hg23]
                        exact Universe.mem_getGalaxy.mpr ⟨hp3in, rfl⟩) hrem
              have hins1 : ∀ q, u1.isInside q ↔ u.isInside q :=
                fun q => Universe.isInside_congr hw1 hh1 q
              have hres := Universe.make_two_assemble hWF1 hval1 ((hins1 p1).mpr hp1in)
                ((hins1 p2).mpr hp2in) ((hins1 p3).mpr hp3in) hne21 hne31 hp3ne2
                (by rw [hframe1 p1 hp1in hp1ng2])
                (hsing1 p2 (List.mem_cons_self p2 _))
                (hsing1 p3 (List.mem_cons_of_mem p2 (List.mem_singleton.mpr rfl)))
                hvalS3
              rw [← hu]
              exact hres
          · rw [if_neg hg23] at h
            cases hrem1 : u.removePositionsFromGalaxy (u.getGalaxy p2) [p2] with
            | none => rw [hrem1] at h; exact absurd h (by simp)
            | some u1 =>
              rw [hrem1] at h
              dsimp only at h
              cases hrem2 : u1.removePositionsFromGalaxy (u.getGalaxy p3) [p3] with
              | none => rw [hrem2] at h; exact absurd h (by simp)
              | some u2 =>
                rw [hrem2] at h
                dsimp only at h
                injection h with h2
                injection h2 with hb h3
                injection h3 with hu hk
                obtain ⟨hval1, hWF1, hw1, hh1, hsing1, hframe1⟩ :=
                  Universe.remove_call_spec hWF hval hp2in
                    (by intro p hp
                        rcases List.mem_singleton.mp hp with rfl
                        exact Universe.mem_getGalaxy.mpr ⟨hp2in, rfl⟩) hrem1
                have hins1 : ∀ q, u1.isInside q ↔ u.isInside q :=
                  fun q => Universe.isInside_congr hw1 hh1 q
                have hp3ng2 : p3 ∉ (u.getGalaxy p2).positions := by
                  intro hmem
                  exact hg23 (Universe.getGalaxy_eq_of_id hp2in
                    (Universe.mem_getGalaxy.mp hmem).2.symm)
                have hfr3 : u1.getGalaxy p3 = u.getGalaxy p3 :=
                  hframe1 p3 hp3in hp3ng2
                rw [← hfr3] at hrem2
                obtain ⟨hval2, hWF2, hw2, hh2, hsing2, hframe2⟩ :=
                  Universe.remove_call_spec hWF1 hval1 ((hins1 p3).mpr hp3in)
                    (by intro p hp
                        rcases List.mem_singleton.mp hp with rfl
                        exact Universe.mem_getGalaxy.mpr ⟨(hins1 _).mpr hp3in, rfl⟩)
                    hrem2
                have hins2 : ∀ q, u2.isInside q ↔ u1.isInside q :=
                  fun q => Universe.isInside_congr hw2 hh2 q
                have hp1ngal3 : p1 ∉ (u1.getGalaxy p3).positions := by
                  rw [hfr3]
                  exact hp1ng3
                have hp2ngal3 : p2 ∉ (u1.getGalaxy p3).positions := by
                  rw [hfr3]
                  intro hmem
                  exact hg23 (Universe.getGalaxy_eq_of_id hp2in
                    (Universe.mem_getGalaxy.mp hmem).2)
                have hg1_2 : (u2.getGalaxy p1).positions = (u.getGalaxy p1).positions := by
                  rw [hframe2 p1 ((hins1 p1).mpr hp1in) hp1ngal3,
                    hframe1 p1 hp1in hp1ng2]
                have hs2_2 : (u2.getGalaxy p2).positions = {p2} := by
                  rw [hframe2 p2 ((hins1 p2).mpr hp2in) hp2ngal3]
                  exact hsing1 p2 (List.mem_singleton.mpr rfl)
                have hres := Universe.make_two_assemble hWF2 hval2
                  ((hins2 p1).mpr ((hins1 p1).mpr hp1in))
                  ((hins2 p2).mpr ((hins1 p2).mpr hp2in))
                  ((hins2 p3).mpr ((hins1 p3).mpr hp3in)) hne21 hne31 hp3ne2
                  hg1_2 hs2_2 (hsing2 p3 (List.mem_singleton.mpr rfl)) hvalS3
                rw [← hu]
                exact hres

/-- Witness for C2 at a concrete input: the fresh 2×1 universe with the
zero draw stream; the step merges the two cells. -/
theorem c2_generate_step_preserves_validity_witness :
    (Universe.new 2 1).WellFormed ∧ (Universe.new 2 1).IsValid ∧
    (Universe.new 2 1).generateStep (fun _ => 0) 0 = some (true, ⟨[[0, 0]]⟩, 2) ∧
    (⟨[[0, 0]]⟩ : Universe).IsValid :=
  ⟨by decide, by decide, by decide,
    c2_generate_step_preserves_validity (Universe.new 2 1) (fun _ => 0) 0 (by decide)
      (by decide) true ⟨[[0, 0]]⟩ 2 (by decide)⟩

/-- Witness for C10 at a concrete input: the fresh 2×1 universe with
cell `(0,0)`. -/
theorem c10_remove_all_neighbours_frame_witness :
    (Universe.new 2 1).WellFormed ∧ (Universe.new 2 1).isInside ⟨0, 0⟩ ∧
    (((∀ j ∈ (Universe.new 2 1).idsList,
        j < (Universe.new 2 1).getWidth * (Universe.new 2 1).getHeight) →
      ∃ u', (Universe.new 2 1).removeAllNeighbours ⟨0, 0⟩ = some u' ∧
        (∀ q, (Universe.new 2 1).isInside q → q ≠ ⟨0, 0⟩ →
          u'.idAt q = (Universe.new 2 1).idAt q) ∧
        (∀ q, (Universe.new 2 1).isInside q → q ≠ ⟨0, 0⟩ →
          u'.idAt q ≠ u'.idAt ⟨0, 0⟩) ∧
        (u'.getGalaxy ⟨0, 0⟩).positions = {⟨0, 0⟩} ∧
        (∀ q, (Universe.new 2 1).isInside q → q ≠ ⟨0, 0⟩ →
          (u'.getGalaxy q).positions =
            ((Universe.new 2 1).getGalaxy q).positions.erase ⟨0, 0⟩)) ∧
    ((∃ j ∈ (Universe.new 2 1).idsList,
        (Universe.new 2 1).getWidth * (Universe.new 2 1).getHeight ≤ j) →
      (Universe.new 2 1).removeAllNeighbours ⟨0, 0⟩ = none)) :=
  ⟨by decide, by decide,
    c10_remove_all_neighbours_frame (Universe.new 2 1) ⟨0, 0⟩ (by decide) (by decide)⟩

/-! Borders, objectives, and the solver (`border.rs`, `objective.rs`,
`solver.rs`). -/

/-- Borders (the file `border.rs` is absent from the sources).
Modelled from the spec §3: an unordered pair of positions differing by
one coordinate, canonicalized so that its lexicographically smaller
position is `p1`. -/
structure Border where
  p1 : Position
  p2 : Position
deriving DecidableEq

namespace Border

/-- Modelled from the spec: `Border::new` canonicalizes the pair so the
lexicographically smaller position comes first. -/
def new (a b : Position) : Border := if a ≤ b then ⟨a, b⟩ else ⟨b, a⟩

/-- Modelled from the spec: `Border::up(p)`, the border between `p` and
the cell above it. -/
def up (p : Position) : Border := Border.new p.up p

/-- Modelled from the spec: `Border::down(p)`. -/
def down (p : Position) : Border := Border.new p p.down

/-- Modelled from the spec: `Border::left(p)`. -/
def left (p : Position) : Border := Border.new p.left p

/-- Modelled from the spec: `Border::right(p)`. -/
def right (p : Position) : Border := Border.new p p.right

end Border

/-- Modelled from the spec:
`Rectangle::from_dimensions(w, h).positions()` (the file `rectangle.rs`
is absent from the sources), the cells of a `w × h` grid anchored at the
origin, in row-major order — which is also the ascending key order of
the `BTreeMap`/`BTreeSet` structures of the solver that are keyed by
positions. -/
def rectanglePositions (width height : Nat) : List Position :=
  (List.range height).flatMap fun (r : Nat) =>
    (List.range width).map fun (c : Nat) => ⟨(r : Int), (c : Int)⟩

/-- Lookup in the `BTreeMap<Border, bool>`: association-list lookup (the
embedding keeps the map as an association list with distinct keys; the
iteration order of this map is never observed by the solver except
through `get_borders`, which returns a set). -/
def bget (bs : List (Border × Bool)) (k : Border) : Option Bool :=
  (bs.find? fun e => e.1 = k).map fun e => e.2

/-- Insertion into the `BTreeMap<Border, bool>` of a key not yet present
(every insertion the solver performs is guarded by an absence check, and
the insertions of `Solver::new` all store `true`, so overwriting
semantics are never exercised). -/
def binsert (bs : List (Border × Bool)) (k : Border) (v : Bool) : List (Border × Bool) :=
  bs ++ [(k, v)]

/-- Lookup in the `BTreeMap<Position, BTreeSet<GalaxyId>>`.  A `BTreeSet` of
identifiers is embedded as its ascending list of elements. -/
def pget (m : List (Position × List Nat)) (p : Position) : Option (List Nat) :=
  (m.find? fun e => e.1 = p).map fun e => e.2

/-- In-place mutation of the set stored under key `p`
(`get_mut(&p)` followed by `retain`/`remove`): the key set of the map is
fixed at construction and never changes. -/
def pmodify (m : List (Position × List Nat)) (p : Position) (f : List Nat → List Nat) :
    List (Position × List Nat) :=
  m.map fun e => if e.1 = p then (e.1, f e.2) else e

/-- The solver state (`Solver` in `solver.rs`).  `galaxy_centers` is the
`Vec<GalaxyCenter>` collected from the objective's hash set of centers;
the iteration order of that hash set is unspecified, so the embedding
takes the resulting list as an input.  A `GalaxyCenter` carries a
position and an optional size, but the solver never reads the size, so a
center is embedded as its position. -/
structure Solver where
  width : Nat
  height : Nat
  galaxyCenters : List Position
  borders : List (Border × Bool)
  possible : List (Position × List Nat)
deriving DecidableEq

namespace Solver

/-- The per-center retain pass of `Solver::new`: for each footprint cell
of center number `gid`, `possible_galaxy_ids.get_mut(&position).unwrap()`
panics (modelled `none`) when the cell is not a key of the map, i.e.
lies outside the grid; otherwise the cell's set is retained to the
identifiers equal to `gid`. -/
def applyFootprint : List (Position × List Nat) → Nat → List Position →
    Option (List (Position × List Nat))
  | m, _, [] => some m
  | m, gid, q :: qs =>
    if (pget m q).isSome then
      applyFootprint (pmodify m q fun t => t.filter fun x => decide (x = gid)) gid qs
    else none

/-- The enumerated loop over `galaxy_centers` in `Solver::new`. -/
def applyCenters : List (Position × List Nat) → Nat → List Position →
    Option (List (Position × List Nat))
  | m, _, [] => some m
  | m, gid, c :: rest =>
    match applyFootprint m gid c.footprint with
    | none => none
    | some m2 => applyCenters m2 (gid + 1) rest

/-- Construction `Solver::new` (solver.rs): insert the objective's walls as `true`,
insert the frame borders as `true`, initialize every cell's possibility
set to all identifiers, then retain each center's footprint cells to
that center's identifier.  `none` models the `unwrap` panic on a center
whose footprint leaves the grid.  `walls` is the objective's hash set of
walls in iteration order (all inserted with the same value, so the
order is immaterial). -/
def new (width height : Nat) (centers : List Position) (walls : List Border) :
    Option Solver :=
  let borders0 := walls.foldl (fun bs k => if (bget bs k).isSome then bs else binsert bs k true) []
  let frame :=
    ((List.range width).flatMap fun c =>
      [Border.up ⟨0, (c : Int)⟩, Border.up ⟨(height : Int), (c : Int)⟩]) ++
    ((List.range height).flatMap fun r =>
      [Border.left ⟨(r : Int), 0⟩, Border.left ⟨(r : Int), (width : Int)⟩])
  let borders1 := frame.foldl (fun bs k => if (bget bs k).isSome then bs else binsert bs k true)
    borders0
  let possible0 := (rectanglePositions width height).map
    fun p => (p, List.range centers.length)
  match applyCenters possible0 0 centers with
  | none => none
  | some possible1 => some ⟨width, height, centers, borders1, possible1⟩

/-- The set of borders currently labelled `true`
(`Solver::get_borders`). -/
def getBorders (s : Solver) : Finset Border :=
  ((s.borders.filter fun e => e.2).map fun e => e.1).toFinset

/-- The certain cells (`Solver::get_cells_with_certain_galaxy_id`): the cells whose
possibility set has exactly one element, with that element
(`exactly_one`), in ascending key order. -/
def certainCells (s : Solver) : List (Position × Nat) :=
  s.possible.filterMap fun e =>
    match e.2 with
    | [gid] => some (e.1, gid)
    | _ => none

/-- Inner loop of `add_borders_between_known_galaxies` over the four
neighbours of a certain cell `p` with identifier `gid`. -/
def addBordersInner : Solver → Bool → Position → Nat → List Position →
    Except Unit (Bool × Solver)
  | s, ch, _, _, [] => .ok (ch, s)
  | s, ch, p, gid, n :: ns =>
    match pget s.possible n with
    | some [nid] =>
      let b := Border.new p n
      let should := decide (gid ≠ nid)
      match bget s.borders b with
      | some hb =>
        if hb = should then addBordersInner s ch p gid ns else .error ()
      | none => addBordersInner { s with borders := binsert s.borders b should } true p gid ns
    | _ => addBordersInner s ch p gid ns

/-- Outer loop of `add_borders_between_known_galaxies` over the snapshot
of certain cells. -/
def addBordersGo : Solver → Bool → List (Position × Nat) → Except Unit (Bool × Solver)
  | s, ch, [] => .ok (ch, s)
  | s, ch, (p, gid) :: rest =>
    match addBordersInner s ch p gid p.adjacent with
    | .error e => .error e
    | .ok (ch2, s2) => addBordersGo s2 ch2 rest

/-- Rule 1, `Solver::add_borders_between_known_galaxies`. -/
def addBordersBetweenKnownGalaxies (s : Solver) : Except Unit (Bool × Solver) :=
  addBordersGo s false (certainCells s)

/-- The four `(border, mirrored border)` pairs of `mirror_borders`. -/
def mirrorPairs (p m : Position) : List (Border × Border) :=
  [(Border.up p, Border.down m), (Border.left p, Border.right m),
    (Border.right p, Border.left m), (Border.down p, Border.up m)]

/-- Inner loop of `mirror_borders` over the four border pairs of a
certain cell. -/
def mirrorInner : Solver → Bool → List (Border × Border) → Except Unit (Bool × Solver)
  | s, ch, [] => .ok (ch, s)
  | s, ch, (b, mb) :: rest =>
    match bget s.borders b with
    | none => mirrorInner s ch rest
    | some hb =>
      match bget s.borders mb with
      | some hmb => if hb = hmb then mirrorInner s ch rest else .error ()
      | none => mirrorInner { s with borders := binsert s.borders mb hb } true rest

/-- Outer loop of `mirror_borders` over the snapshot of certain cells.
`self.galaxy_centers[galaxy_id]` is a vector access that panics out of
bounds; every identifier in a possibility set is below the number of
centers (established at construction and only narrowed), so the access
is embedded total with an irrelevant default. -/
def mirrorGo : Solver → Bool → List (Position × Nat) → Except Unit (Bool × Solver)
  | s, ch, [] => .ok (ch, s)
  | s, ch, (p, gid) :: rest =>
    let c := s.galaxyCenters.getD gid ⟨0, 0⟩
    match mirrorInner s ch (mirrorPairs p (c.mirrorPosition p)) with
    | .error e => .error e
    | .ok (ch2, s2) => mirrorGo s2 ch2 rest

/-- Rule 2, `Solver::mirror_borders`. -/
def mirrorBorders (s : Solver) : Except Unit (Bool × Solver) :=
  mirrorGo s false (certainCells s)

/-- The breadth-first search of `exclude_unreachable_galaxies`, fuelled:
each iteration pops one queued cell and enqueues its unvisited
neighbours that are not cut off by a border known `true` and whose
possibility set still contains `gid`.  The source reads
`possible_galaxy_ids.get(&neighbour).unwrap()` only behind the border
check — an out-of-grid neighbour is always cut off by a frame border in
any state built by `Solver::new`, so the total `getD []` default is
never observed there.  Every queued cell is recorded in `visited` when
enqueued, and cells passing the possibility check are grid cells, so at
most `|grid| + |footprint|` dequeues happen and the supplied fuel
exceeds the queue's total throughput. -/
def bfsGo (s : Solver) (gid : Nat) :
    Nat → List Position → Finset Position → Finset Position
  | 0, _, vis => vis
  | _ + 1, [], vis => vis
  | fuel + 1, c :: queue, vis =>
    let ns := c.adjacent.filter fun n =>
      !((bget s.borders (Border.new c n)).getD false) &&
        decide (gid ∈ (pget s.possible n).getD []) && decide (n ∉ vis)
    bfsGo s gid fuel (queue ++ ns) (vis ∪ ns.toFinset)

/-- The cells reached from the footprint of center `c` for identifier
`gid` (the `visited` set at the end of the BFS loop). -/
def reachable (s : Solver) (gid : Nat) (c : Position) : Finset Position :=
  bfsGo s gid (s.possible.length + c.footprint.length + 5) c.footprint c.footprint.toFinset

/-- The removal loop of `exclude_unreachable_galaxies` over the cells
not visited by the BFS (iterated in ascending order, the iteration
order of `all_cells.difference(&visited)`): remove `gid`, record
whether it was present, and signal a contradiction on an emptied
set. -/
def excludeRemoveGo : Solver → Bool → Nat → List Position → Except Unit (Bool × Solver)
  | s, ch, _, [] => .ok (ch, s)
  | s, ch, gid, q :: qs =>
    let ids := (pget s.possible q).getD []
    let ch2 := ch || decide (gid ∈ ids)
    let s2 := { s with possible := pmodify s.possible q fun t => t.erase gid }
    if ids.erase gid = [] then .error () else excludeRemoveGo s2 ch2 gid qs

/-- Outer loop of `exclude_unreachable_galaxies` over the enumerated
centers. -/
def excludeGo : Solver → Bool → Nat → List Position → Except Unit (Bool × Solver)
  | s, ch, _, [] => .ok (ch, s)
  | s, ch, gid, c :: rest =>
    let vis := reachable s gid c
    let unvisited := (rectanglePositions s.width s.height).filter fun q => decide (q ∉ vis)
    match excludeRemoveGo s ch gid unvisited with
    | .error e => .error e
    | .ok (ch2, s2) => excludeGo s2 ch2 (gid + 1) rest

/-- Rule 3, `Solver::exclude_unreachable_galaxies`. -/
def excludeUnreachableGalaxies (s : Solver) : Except Unit (Bool × Solver) :=
  excludeGo s false 0 s.galaxyCenters

/-- Inner loop of `remove_impossible_galaxy_mirrors` over the snapshot
of one cell's possibility set (a `BTreeSet` iterated in ascending
order, which is the stored list itself): if the mirrored position is
outside the map or its current set lacks `gid`, remove `gid` from the
live set of `p` and signal a contradiction if it empties. -/
def removeMirrorsInner : Solver → Bool → Position → List Nat → Except Unit (Bool × Solver)
  | s, ch, _, [] => .ok (ch, s)
  | s, ch, p, gid :: gids =>
    let c := s.galaxyCenters.getD gid ⟨0, 0⟩
    let m := c.mirrorPosition p
    let bad := match pget s.possible m with
      | none => true
      | some mids => decide (gid ∉ mids)
    if bad then
      let cur := (pget s.possible p).getD []
      let ch2 := ch || decide (gid ∈ cur)
      let s2 := { s with possible := pmodify s.possible p fun t => t.erase gid }
      if cur.erase gid = [] then .error () else removeMirrorsInner s2 ch2 p gids
    else removeMirrorsInner s ch p gids

/-- Outer loop of `remove_impossible_galaxy_mirrors` over the cloned
snapshot of the possibility map. -/
def removeMirrorsGo : Solver → Bool → List (Position × List Nat) → Except Unit (Bool × Solver)
  | s, ch, [] => .ok (ch, s)
  | s, ch, (p, ids) :: rest =>
    match removeMirrorsInner s ch p ids with
    | .error e => .error e
    | .ok (ch2, s2) => removeMirrorsGo s2 ch2 rest

/-- Rule 4, `Solver::remove_impossible_galaxy_mirrors`. -/
def removeImpossibleGalaxyMirrors (s : Solver) : Except Unit (Bool × Solver) :=
  removeMirrorsGo s false s.possible

/-- Stable insertion of an entry into a list sorted by ascending
possibility-set size: the entry goes after every earlier entry whose
set is not larger. -/
def insertByLen (x : Position × List Nat) :
    List (Position × List Nat) → List (Position × List Nat)
  | [] => [x]
  | y :: ys => if y.2.length ≤ x.2.length then y :: insertByLen x ys else x :: y :: ys

/-- Stable sort by ascending possibility-set size (itertools
`sorted_by_key`, which is stable, applied to the map iterated in
ascending key order). -/
def sortByLen (l : List (Position × List Nat)) : List (Position × List Nat) :=
  l.foldl (fun acc x => insertByLen x acc) []

/-- The case-split candidates of `assume_galaxy`: the cells with at
least two possible identifiers sorted by ascending set size (stable),
each paired with each of its identifiers in ascending order. -/
def assumeCandidates (s : Solver) : List (Position × Nat) :=
  (sortByLen (s.possible.filter fun e => decide (1 < e.2.length))).flatMap
    fun e => e.2.map fun gid => (e.1, gid)

/-- The clone-and-narrow of `assume_galaxy`: retain the possibility set
of `p` to the identifiers equal to `gid`. -/
def retainAt (s : Solver) (p : Position) (gid : Nat) : Solver :=
  { s with possible := pmodify s.possible p fun t => t.filter fun x => decide (x = gid) }

/-- The elimination of `assume_galaxy`: remove `gid` from the
possibility set of `p`. -/
def removeIdAt (s : Solver) (p : Position) (gid : Nat) : Solver :=
  { s with possible := pmodify s.possible p fun t => t.erase gid }

/-- The candidate loop of `assume_galaxy`: clone the solver, narrow the
chosen cell to the assumed identifier and solve the clone recursively
(`solveF`); the first assumption whose clone reaches a contradiction is
removed from the original state and the rule reports a change; if no
clone fails the rule reports no change.  `none` propagates exhausted
fuel of the embedded recursion. -/
def assumeGo (solveF : Solver → Option (Except Unit (Finset Border))) :
    Solver → List (Position × Nat) → Option (Bool × Solver)
  | s, [] => some (false, s)
  | s, (p, gid) :: rest =>
    match solveF (retainAt s p gid) with
    | none => none
    | some (.error _) => some (true, removeIdAt s p gid)
    | some (.ok _) => assumeGo solveF s rest

/-- The solve loop `Solver::solve`, fuelled: run the five rules in order; restart the
loop after the first rule that reports a change; on a contradiction
return it; when no rule changed anything return the borders currently
labelled `true` (the `Solution`).  `none` means the fuel ran out — the
termination theorem shows fuel `mu s + 1` always suffices. -/
def solveFuel : Nat → Solver → Option (Except Unit (Finset Border))
  | 0, _ => none
  | fuel + 1, s =>
    match addBordersBetweenKnownGalaxies s with
    | .error e => some (.error e)
    | .ok (true, s1) => solveFuel fuel s1
    | .ok (false, s1) =>
      match mirrorBorders s1 with
      | .error e => some (.error e)
      | .ok (true, s2) => solveFuel fuel s2
      | .ok (false, s2) =>
        match excludeUnreachableGalaxies s2 with
        | .error e => some (.error e)
        | .ok (true, s3) => solveFuel fuel s3
        | .ok (false, s3) =>
          match removeImpossibleGalaxyMirrors s3 with
          | .error e => some (.error e)
          | .ok (true, s4) => solveFuel fuel s4
          | .ok (false, s4) =>
            match assumeGo (solveFuel fuel) s4 (assumeCandidates s4) with
            | none => none
            | some (true, s5) => solveFuel fuel s5
            | some (false, s5) => some (.ok (getBorders s5))

/-- Well-formedness of a solver state, established by `Solver::new` and
preserved by every rule: the possibility map is keyed by exactly the
grid cells in row-major order, every possibility set is strictly
ascending (it embeds a `BTreeSet`), and every identifier in it indexes
into `galaxy_centers`. -/
def WFS (s : Solver) : Prop :=
  (s.possible.map fun e => e.1) = rectanglePositions s.width s.height ∧
  (∀ e ∈ s.possible, e.2.Pairwise (· < ·)) ∧
  (∀ e ∈ s.possible, ∀ g ∈ e.2, g < s.galaxyCenters.length)

instance (s : Solver) : Decidable s.WFS := by
  unfold WFS; infer_instance

/-- The set of border keys present in the border map. -/
def bdom (s : Solver) : Finset Border := (s.borders.map fun e => e.1).toFinset

/-- The borders of the grid cells: every key
`add_borders_between_known_galaxies` can insert. -/
def cellBorders (s : Solver) : Finset Border :=
  ((s.possible.map fun e => e.1).flatMap fun p => p.adjacent.map fun n => Border.new p n).toFinset

/-- The borders of the mirror images of grid cells through galaxy
centers: every key `mirror_borders` can insert. -/
def mirBorders (s : Solver) : Finset Border :=
  (s.galaxyCenters.flatMap fun c => (s.possible.map fun e => e.1).flatMap fun p =>
    (c.mirrorPosition p).adjacent.map fun n => Border.new (c.mirrorPosition p) n).toFinset

/-- The static key space: every border key any propagation rule can
insert; fixed along the propagation because the grid cells and centers
are fixed. -/
def staticKS (s : Solver) : Finset Border := cellBorders s ∪ mirBorders s

/-- The termination measure of the propagation loop: the number of not
yet inserted insertable border keys plus the total size of the
possibility sets.  Every rule that reports a change strictly decreases
it, and the case-split recursion of `assume_galaxy` runs on a state of
strictly smaller measure. -/
def mu (s : Solver) : Nat :=
  (staticKS s \ bdom s).card + (s.possible.map fun e => e.2.length).sum

/-- Monotonic narrowing from state `s` to state `s'`: the immutable
fields agree, each possibility set only loses elements (entrywise as a
sublist), every border label already present keeps its value, and every
newly present border key lies in the static key space. -/
structure Narrows (s s' : Solver) : Prop where
  width_eq : s'.width = s.width
  height_eq : s'.height = s.height
  centers_eq : s'.galaxyCenters = s.galaxyCenters
  p_rel : List.Forall₂ (fun e' e => e'.1 = e.1 ∧ e'.2.Sublist e.2) s'.possible s.possible
  b_mono : ∀ k v, bget s.borders k = some v → bget s'.borders k = some v
  b_new : ∀ k, k ∈ bdom s' → k ∉ bdom s → k ∈ staticKS s

end Solver


namespace Solver

/-! Association-list and map lemmas. -/

theorem pget_cons (e : Position × List Nat) (rest : List (Position × List Nat)) (q : Position) :
    pget (e :: rest) q = if e.1 = q then some e.2 else pget rest q := by
  by_cases h : e.1 = q <;> simp [pget, List.find?_cons, h]

theorem pmodify_cons (e : Position × List Nat) (rest : List (Position × List Nat))
    (p : Position) (f : List Nat → List Nat) :
    pmodify (e :: rest) p f = (if e.1 = p then (e.1, f e.2) else e) :: pmodify rest p f := rfl

theorem bget_cons (e : Border × Bool) (rest : List (Border × Bool)) (k : Border) :
    bget (e :: rest) k = if e.1 = k then some e.2 else bget rest k := by
  by_cases h : e.1 = k <;> simp [bget, List.find?_cons, h]

theorem bget_binsert (bs : List (Border × Bool)) (k : Border) (v : Bool) (k' : Border) :
    bget (binsert bs k v) k' = (bget bs k').or (if k = k' then some v else none) := by
  induction bs with
  | nil => by_cases h : k = k' <;> simp [bget, binsert, List.find?_cons, h]
  | cons e rest ih =>
    have h1 : binsert (e :: rest) k v = e :: binsert rest k v := rfl
    rw [h1, bget_cons, bget_cons]
    by_cases he : e.1 = k' <;> simp [he, ih]

theorem bget_binsert_of_some {bs : List (Border × Bool)} {k' : Border} {w : Bool}
    (h : bget bs k' = some w) (k : Border) (v : Bool) :
    bget (binsert bs k v) k' = some w := by
  rw [bget_binsert, h]; rfl

theorem bget_binsert_self {bs : List (Border × Bool)} {k : Border}
    (h : bget bs k = none) (v : Bool) :
    bget (binsert bs k v) k = some v := by
  rw [bget_binsert, h, if_pos rfl]; rfl

theorem bget_isSome_iff (bs : List (Border × Bool)) (k : Border) :
    (bget bs k).isSome = true ↔ k ∈ bs.map fun e => e.1 := by
  induction bs with
  | nil => simp [bget]
  | cons e rest ih =>
    rw [bget_cons, List.map_cons]
    by_cases he : e.1 = k
    · simp [he]
    · rw [if_neg he, List.mem_cons]
      constructor
      · intro h
        exact Or.inr (ih.mp h)
      · rintro (h | h)
        · exact absurd h.symm he
        · exact ih.mpr h

theorem mem_bdom_iff {s : Solver} {k : Border} :
    k ∈ bdom s ↔ (bget s.borders k).isSome = true := by
  rw [bdom, List.mem_toFinset, ← bget_isSome_iff]

theorem bdom_binsert {s : Solver} {k : Border} {v : Bool} :
    bdom { s with borders := binsert s.borders k v } = insert k (bdom s) := by
  simp only [bdom, binsert, List.map_append, List.toFinset_append]
  rw [Finset.union_comm]
  simp [Finset.insert_eq, Finset.union_comm]

theorem pget_pmodify (m : List (Position × List Nat)) (p : Position)
    (f : List Nat → List Nat) (q : Position) :
    pget (pmodify m p f) q = if q = p then (pget m q).map f else pget m q := by
  induction m with
  | nil => simp [pget, pmodify]
  | cons e rest ih =>
    rw [pmodify_cons]
    by_cases he : e.1 = p
    · by_cases hq : e.1 = q
      · have hqp : q = p := by rw [← hq, he]
        rw [if_pos he, pget_cons]
        simp only
        rw [if_pos hq, if_pos hqp, pget_cons, if_pos hq]
        rfl
      · have hqp : ¬q = p := fun h => hq (by rw [he, ← h])
        rw [if_pos he, pget_cons]
        simp only
        rw [if_neg hq, ih, if_neg hqp, if_neg hqp, pget_cons, if_neg hq]
    · by_cases hq : e.1 = q
      · have hqp : ¬q = p := fun h => he (by rw [hq, h])
        rw [if_neg he, pget_cons, if_pos hq, if_neg hqp, pget_cons, if_pos hq]
      · rw [if_neg he, pget_cons, if_neg hq, ih, pget_cons, if_neg hq]

theorem pmodify_map_fst (m : List (Position × List Nat)) (p : Position)
    (f : List Nat → List Nat) :
    ((pmodify m p f).map fun e => e.1) = m.map fun e => e.1 := by
  induction m with
  | nil => rfl
  | cons e rest ih =>
    rw [pmodify_cons]
    by_cases he : e.1 = p <;> simp [he, ih]

theorem pmodify_forall2 (m : List (Position × List Nat)) (p : Position)
    {f : List Nat → List Nat} (hf : ∀ t, (f t).Sublist t) :
    List.Forall₂ (fun e' e => e'.1 = e.1 ∧ e'.2.Sublist e.2) (pmodify m p f) m := by
  induction m with
  | nil => exact List.Forall₂.nil
  | cons e rest ih =>
    rw [pmodify_cons]
    by_cases he : e.1 = p
    · rw [if_pos he]
      exact List.Forall₂.cons ⟨rfl, hf e.2⟩ ih
    · rw [if_neg he]
      exact List.Forall₂.cons ⟨rfl, List.Sublist.refl e.2⟩ ih

theorem forall2_sum_le {m' m : List (Position × List Nat)}
    (h : List.Forall₂ (fun e' e => e'.1 = e.1 ∧ e'.2.Sublist e.2) m' m) :
    (m'.map fun e => e.2.length).sum ≤ (m.map fun e => e.2.length).sum := by
  induction h with
  | nil => simp
  | cons he _ ih =>
    simp only [List.map_cons, List.sum_cons]
    exact Nat.add_le_add he.2.length_le ih

theorem forall2_map_fst {m' m : List (Position × List Nat)}
    (h : List.Forall₂ (fun e' e => e'.1 = e.1 ∧ e'.2.Sublist e.2) m' m) :
    (m'.map fun e => e.1) = m.map fun e => e.1 := by
  induction h with
  | nil => rfl
  | cons he _ ih => simp [he.1, ih]

theorem forall2_mem_left {m' m : List (Position × List Nat)}
    (h : List.Forall₂ (fun e' e => e'.1 = e.1 ∧ e'.2.Sublist e.2) m' m)
    {a : Position × List Nat} (ha : a ∈ m') :
    ∃ b ∈ m, a.1 = b.1 ∧ a.2.Sublist b.2 := by
  induction h with
  | nil => cases ha
  | cons he _ ih =>
    rcases List.mem_cons.mp ha with rfl | ha'
    · exact ⟨_, List.mem_cons_self _ _, he⟩
    · obtain ⟨b, hb, hab⟩ := ih ha'
      exact ⟨b, List.mem_cons_of_mem _ hb, hab⟩

theorem forall2_trans {m₁ m₂ m₃ : List (Position × List Nat)}
    (h₁ : List.Forall₂ (fun e' e => e'.1 = e.1 ∧ e'.2.Sublist e.2) m₁ m₂)
    (h₂ : List.Forall₂ (fun e' e => e'.1 = e.1 ∧ e'.2.Sublist e.2) m₂ m₃) :
    List.Forall₂ (fun e' e => e'.1 = e.1 ∧ e'.2.Sublist e.2) m₁ m₃ := by
  induction h₂ generalizing m₁ with
  | nil => cases h₁; exact List.Forall₂.nil
  | cons he _ ih =>
    cases h₁ with
    | cons he' htail =>
      exact List.Forall₂.cons ⟨he'.1.trans he.1, he'.2.trans he.2⟩ (ih htail)

theorem pmodify_sum_lt {m : List (Position × List Nat)} {p : Position} {ids : List Nat}
    (h : pget m p = some ids) {f : List Nat → List Nat} (hf : ∀ t, (f t).Sublist t)
    (hlt : (f ids).length < ids.length) :
    ((pmodify m p f).map fun e => e.2.length).sum < (m.map fun e => e.2.length).sum := by
  induction m with
  | nil => simp [pget] at h
  | cons e rest ih =>
    rw [pget_cons] at h
    rw [pmodify_cons]
    by_cases he : e.1 = p
    · rw [if_pos he] at h ⊢
      injection h with h; subst h
      simp only [List.map_cons, List.sum_cons]
      have h2 : ((pmodify rest p f).map fun e => e.2.length).sum ≤
          (rest.map fun e => e.2.length).sum :=
        forall2_sum_le (pmodify_forall2 rest p hf)
      omega
    · rw [if_neg he] at h ⊢
      simp only [List.map_cons, List.sum_cons]
      have := ih h
      omega

theorem pget_eq_of_mem {m : List (Position × List Nat)}
    (hnd : (m.map fun e => e.1).Nodup) {e : Position × List Nat} (he : e ∈ m) :
    pget m e.1 = some e.2 := by
  induction m with
  | nil => cases he
  | cons x rest ih =>
    simp only [List.map_cons, List.nodup_cons] at hnd
    rcases List.mem_cons.mp he with rfl | he'
    · rw [pget_cons, if_pos rfl]
    · rw [pget_cons, if_neg, ih hnd.2 he']
      intro hx
      exact hnd.1 (List.mem_map.mpr ⟨e, he', hx.symm⟩)

theorem pget_mem {m : List (Position × List Nat)} {p : Position} {ids : List Nat}
    (h : pget m p = some ids) : (p, ids) ∈ m := by
  induction m with
  | nil => simp [pget] at h
  | cons e rest ih =>
    rw [pget_cons] at h
    by_cases he : e.1 = p
    · rw [if_pos he] at h
      injection h with h
      have hpe : (p, ids) = e := by cases e; simp_all
      rw [hpe]
      exact List.mem_cons_self _ _
    · rw [if_neg he] at h
      exact List.mem_cons_of_mem _ (ih h)

end Solver

namespace Solver

/-! The narrowing preorder and the measure. -/

theorem narrows_self (s : Solver) : Narrows s s where
  width_eq := rfl
  height_eq := rfl
  centers_eq := rfl
  p_rel := List.forall₂_same.mpr fun _ _ => ⟨rfl, List.Sublist.refl _⟩
  b_mono := fun _ _ h => h
  b_new := fun _ h h' => absurd h h'

theorem Narrows.keys_eq {s s' : Solver} (h : Narrows s s') :
    (s'.possible.map fun e => e.1) = s.possible.map fun e => e.1 :=
  forall2_map_fst h.p_rel

theorem Narrows.staticKS_eq {s s' : Solver} (h : Narrows s s') :
    staticKS s' = staticKS s := by
  unfold staticKS cellBorders mirBorders
  rw [h.keys_eq, h.centers_eq]

theorem Narrows.bdom_subset {s s' : Solver} (h : Narrows s s') :
    bdom s ⊆ bdom s' := by
  intro k hk
  rw [mem_bdom_iff] at hk ⊢
  obtain ⟨v, hv⟩ := Option.isSome_iff_exists.mp hk
  rw [h.b_mono k v hv]
  rfl

theorem Narrows.trans {s₁ s₂ s₃ : Solver} (h₁ : Narrows s₁ s₂) (h₂ : Narrows s₂ s₃) :
    Narrows s₁ s₃ where
  width_eq := h₂.width_eq.trans h₁.width_eq
  height_eq := h₂.height_eq.trans h₁.height_eq
  centers_eq := h₂.centers_eq.trans h₁.centers_eq
  p_rel := forall2_trans h₂.p_rel h₁.p_rel
  b_mono := fun k v hv => h₂.b_mono k v (h₁.b_mono k v hv)
  b_new := by
    intro k hk3 hk1
    by_cases hk2 : k ∈ bdom s₂
    · exact h₁.b_new k hk2 hk1
    · rw [← h₁.staticKS_eq]
      exact h₂.b_new k hk3 hk2

theorem Narrows.mu_le {s s' : Solver} (h : Narrows s s') : mu s' ≤ mu s := by
  unfold mu
  have h1 : staticKS s' \ bdom s' ⊆ staticKS s \ bdom s := by
    rw [h.staticKS_eq]
    exact Finset.sdiff_subset_sdiff (le_refl _) h.bdom_subset
  exact Nat.add_le_add (Finset.card_le_card h1) (forall2_sum_le h.p_rel)

theorem Narrows.wfs {s s' : Solver} (hn : Narrows s s') (h : WFS s) : WFS s' := by
  obtain ⟨hkeys, hpair, hbound⟩ := h
  refine ⟨?_, ?_, ?_⟩
  · rw [hn.keys_eq, hkeys, hn.width_eq, hn.height_eq]
  · intro e' he'
    obtain ⟨e, he, _, hsub⟩ := forall2_mem_left hn.p_rel he'
    exact (hpair e he).sublist hsub
  · intro e' he' g hg
    obtain ⟨e, he, _, hsub⟩ := forall2_mem_left hn.p_rel he'
    rw [hn.centers_eq]
    exact hbound e he g (hsub.subset hg)

/-- Atomic narrowing: shrinking the possibility set of one cell. -/
theorem narrows_pmodify (s : Solver) (p : Position) {f : List Nat → List Nat}
    (hf : ∀ t, (f t).Sublist t) :
    Narrows s { s with possible := pmodify s.possible p f } where
  width_eq := rfl
  height_eq := rfl
  centers_eq := rfl
  p_rel := pmodify_forall2 s.possible p hf
  b_mono := fun _ _ h => h
  b_new := fun _ h h' => absurd h h'

/-- Atomic narrowing: inserting an absent border key from the static
key space, with the strict measure decrease. -/
theorem narrows_binsert {s : Solver} {k : Border} (hnone : bget s.borders k = none)
    (hks : k ∈ staticKS s) (v : Bool) :
    Narrows s { s with borders := binsert s.borders k v } ∧
      mu { s with borders := binsert s.borders k v } < mu s := by
  have hdom : k ∉ bdom s := by
    rw [mem_bdom_iff, hnone]
    simp
  have hn : Narrows s { s with borders := binsert s.borders k v } := by
    refine ⟨rfl, rfl, rfl,
      List.forall₂_same.mpr fun _ _ => ⟨rfl, List.Sublist.refl _⟩, ?_, ?_⟩
    · intro k' v' hv'
      exact bget_binsert_of_some hv' k v
    · intro k' hk' hk'New
      rw [bdom_binsert, Finset.mem_insert] at hk'
      rcases hk' with rfl | hk'
      · exact hks
      · exact absurd hk' hk'New
  refine ⟨hn, ?_⟩
  unfold mu
  have hks' : staticKS { s with borders := binsert s.borders k v } = staticKS s := hn.staticKS_eq
  have hsum : ({ s with borders := binsert s.borders k v } : Solver).possible = s.possible := rfl
  rw [hks', hsum, bdom_binsert]
  have hstrict : staticKS s \ insert k (bdom s) ⊂ staticKS s \ bdom s := by
    constructor
    · exact Finset.sdiff_subset_sdiff (le_refl _) (Finset.subset_insert _ _)
    · intro hsub
      have hk : k ∈ staticKS s \ bdom s := Finset.mem_sdiff.mpr ⟨hks, hdom⟩
      have := hsub hk
      rw [Finset.mem_sdiff] at this
      exact this.2 (Finset.mem_insert_self _ _)
  exact Nat.add_lt_add_right (Finset.card_lt_card hstrict) _

/-- Atomic narrowing: removing a present identifier strictly decreases
the measure. -/
theorem narrows_removeIdAt {s : Solver} {p : Position} {ids : List Nat} {gid : Nat}
    (h : pget s.possible p = some ids) (hg : gid ∈ ids) :
    Narrows s (removeIdAt s p gid) ∧ mu (removeIdAt s p gid) < mu s := by
  have hf : ∀ t : List Nat, (t.erase gid).Sublist t := fun t => List.erase_sublist _ _
  refine ⟨narrows_pmodify s p hf, ?_⟩
  unfold mu removeIdAt
  have hks : staticKS { s with possible := pmodify s.possible p fun t => t.erase gid } =
      staticKS s := (narrows_pmodify s p hf).staticKS_eq
  rw [hks]
  have hlt : (ids.erase gid).length < ids.length := by
    rw [List.length_erase_of_mem hg]
    have : 0 < ids.length := List.length_pos_of_mem hg
    omega
  exact Nat.add_lt_add_left (pmodify_sum_lt h hf hlt) _

end Solver

namespace Solver

/-! Per-rule narrowing and measure lemmas. -/

/-- One rule pass from `(s, ch)` to `(s', ch')`: the state narrows, and
a newly raised change flag witnesses a strict measure decrease. -/
def Step (s : Solver) (ch : Bool) (s' : Solver) (ch' : Bool) : Prop :=
  Narrows s s' ∧ (ch' = true → ch = true ∨ mu s' < mu s)

theorem step_refl (s : Solver) (ch : Bool) : Step s ch s ch :=
  ⟨narrows_self s, fun h => Or.inl h⟩

theorem step_trans {s₁ s₂ s₃ : Solver} {ch₁ ch₂ ch₃ : Bool}
    (h₁ : Step s₁ ch₁ s₂ ch₂) (h₂ : Step s₂ ch₂ s₃ ch₃) : Step s₁ ch₁ s₃ ch₃ := by
  refine ⟨h₁.1.trans h₂.1, ?_⟩
  intro h3
  rcases h₂.2 h3 with h | h
  · rcases h₁.2 h with h' | h'
    · exact Or.inl h'
    · exact Or.inr (lt_of_le_of_lt h₂.1.mu_le h')
  · exact Or.inr (lt_of_lt_of_le h h₁.1.mu_le)

theorem step_insert {s : Solver} {k : Border} (hnone : bget s.borders k = none)
    (hks : k ∈ staticKS s) (v : Bool) (ch : Bool) :
    Step s ch { s with borders := binsert s.borders k v } true := by
  obtain ⟨hn, hmu⟩ := narrows_binsert hnone hks v
  exact ⟨hn, fun _ => Or.inr hmu⟩

theorem step_remove (s : Solver) (q : Position) (gid : Nat) (ch : Bool) :
    Step s ch (removeIdAt s q gid) (ch || decide (gid ∈ (pget s.possible q).getD [])) := by
  by_cases hg : gid ∈ (pget s.possible q).getD []
  · cases hpq : pget s.possible q with
    | none => rw [hpq] at hg; simp at hg
    | some ids =>
      rw [hpq] at hg
      simp only [Option.getD_some] at hg
      obtain ⟨hn, hmu⟩ := narrows_removeIdAt hpq hg
      exact ⟨hn, fun _ => Or.inr hmu⟩
  · have hch : (ch || decide (gid ∈ (pget s.possible q).getD [])) = ch := by simp [hg]
    rw [hch]
    exact ⟨narrows_pmodify s q fun t => List.erase_sublist _ _, fun h => Or.inl h⟩

theorem Border.new_comm (a b : Position) : Border.new a b = Border.new b a := by
  unfold Border.new
  rcases le_total a b with h | h
  · rw [if_pos h]
    by_cases h2 : b ≤ a
    · have hab : a = b := le_antisymm h h2
      subst hab
      rw [if_pos h2]
    · rw [if_neg h2]
  · rw [if_pos h]
    by_cases h2 : a ≤ b
    · have hab : a = b := le_antisymm h2 h
      subst hab
      rw [if_pos h]
    · rw [if_neg h2]

theorem mem_cellBorders {s : Solver} {p n : Position}
    (hp : p ∈ s.possible.map fun e => e.1) (hn : n ∈ p.adjacent) :
    Border.new p n ∈ staticKS s := by
  unfold staticKS
  apply Finset.mem_union_left
  unfold cellBorders
  rw [List.mem_toFinset]
  exact List.mem_flatMap.mpr ⟨p, hp, List.mem_map.mpr ⟨n, hn, rfl⟩⟩

theorem mem_mirBorders {s : Solver} {c p n : Position}
    (hc : c ∈ s.galaxyCenters) (hp : p ∈ s.possible.map fun e => e.1)
    (hn : n ∈ (c.mirrorPosition p).adjacent) :
    Border.new (c.mirrorPosition p) n ∈ staticKS s := by
  unfold staticKS
  apply Finset.mem_union_right
  unfold mirBorders
  rw [List.mem_toFinset]
  exact List.mem_flatMap.mpr ⟨c, hc,
    List.mem_flatMap.mpr ⟨p, hp, List.mem_map.mpr ⟨n, hn, rfl⟩⟩⟩

theorem certainCells_mem {s : Solver} {p : Position} {gid : Nat}
    (h : (p, gid) ∈ certainCells s) : (p, [gid]) ∈ s.possible := by
  unfold certainCells at h
  rw [List.mem_filterMap] at h
  obtain ⟨e, he, hm⟩ := h
  obtain ⟨p', ids⟩ := e
  match ids with
  | [] => simp at hm
  | [a] =>
    simp only at hm
    injection hm with hm
    injection hm with hm1 hm2
    subst hm1; subst hm2
    exact he
  | a :: b :: tl => simp at hm

theorem addBordersInner_spec :
    ∀ (ns : List Position) (s : Solver) (ch : Bool) (p : Position) (gid : Nat),
      (∀ n ∈ ns, Border.new p n ∈ staticKS s) → ∀ {r : Bool × Solver},
      addBordersInner s ch p gid ns = .ok r → Step s ch r.2 r.1 := by
  intro ns
  induction ns with
  | nil =>
    intro s ch p gid hks r h
    simp only [addBordersInner] at h
    injection h with h
    rw [← h]
    exact step_refl s ch
  | cons n ns ih =>
    intro s ch p gid hks r h
    rcases hpg : pget s.possible n with _ | ids
    · rw [addBordersInner, hpg] at h
      exact ih s ch p gid (fun x hx => hks x (List.mem_cons_of_mem _ hx)) h
    · match ids with
      | [] =>
        rw [addBordersInner, hpg] at h
        exact ih s ch p gid (fun x hx => hks x (List.mem_cons_of_mem _ hx)) h
      | a :: b :: tl =>
        rw [addBordersInner, hpg] at h
        exact ih s ch p gid (fun x hx => hks x (List.mem_cons_of_mem _ hx)) h
      | [nid] =>
        rw [addBordersInner, hpg] at h
        dsimp only at h
        rcases hbg : bget s.borders (Border.new p n) with _ | hb
        · rw [hbg] at h
          have hstep := step_insert hbg (hks n (List.mem_cons_self _ _))
            (decide (gid ≠ nid)) ch
          have hrest := ih _ true p gid
            (fun x hx => by
              rw [hstep.1.staticKS_eq]
              exact hks x (List.mem_cons_of_mem _ hx)) h
          exact step_trans hstep hrest
        · rw [hbg] at h
          dsimp only at h
          by_cases heq : hb = decide (gid ≠ nid)
          · rw [if_pos heq] at h
            exact ih s ch p gid (fun x hx => hks x (List.mem_cons_of_mem _ hx)) h
          · rw [if_neg heq] at h
            cases h

theorem addBordersGo_spec :
    ∀ (L : List (Position × Nat)) (s : Solver) (ch : Bool),
      (∀ e ∈ L, e.1 ∈ s.possible.map fun x => x.1) → ∀ {r : Bool × Solver},
      addBordersGo s ch L = .ok r → Step s ch r.2 r.1 := by
  intro L
  induction L with
  | nil =>
    intro s ch hkeys r h
    simp only [addBordersGo] at h
    injection h with h
    rw [← h]
    exact step_refl s ch
  | cons e L ih =>
    intro s ch hkeys r h
    obtain ⟨p, gid⟩ := e
    rcases hin : addBordersInner s ch p gid p.adjacent with e' | r2
    · rw [addBordersGo, hin] at h
      cases h
    · rw [addBordersGo, hin] at h
      obtain ⟨ch2, s2⟩ := r2
      have hstep : Step s ch s2 ch2 :=
        addBordersInner_spec p.adjacent s ch p gid
          (fun n hn => mem_cellBorders (hkeys (p, gid) (List.mem_cons_self _ _)) hn) hin
      have hrest := ih s2 ch2
        (fun x hx => by
          rw [hstep.1.keys_eq]
          exact hkeys x (List.mem_cons_of_mem _ hx)) h
      exact step_trans hstep hrest

theorem addBorders_spec {s : Solver} {ch : Bool} {s' : Solver}
    (h : addBordersBetweenKnownGalaxies s = .ok (ch, s')) :
    Narrows s s' ∧ (ch = true → mu s' < mu s) := by
  have hstep : Step s false s' ch := by
    have := addBordersGo_spec (certainCells s) s false
      (fun e he => by
        obtain ⟨p, gid⟩ := e
        exact List.mem_map.mpr ⟨(p, [gid]), certainCells_mem he, rfl⟩) h
    exact this
  refine ⟨hstep.1, fun hch => ?_⟩
  rcases hstep.2 hch with h' | h'
  · cases h'
  · exact h'

end Solver

namespace Solver

theorem mirrorInner_spec :
    ∀ (prs : List (Border × Border)) (s : Solver) (ch : Bool),
      (∀ e ∈ prs, e.2 ∈ staticKS s) → ∀ {r : Bool × Solver},
      mirrorInner s ch prs = .ok r → Step s ch r.2 r.1 := by
  intro prs
  induction prs with
  | nil =>
    intro s ch hks r h
    simp only [mirrorInner] at h
    injection h with h
    rw [← h]
    exact step_refl s ch
  | cons e prs ih =>
    intro s ch hks r h
    obtain ⟨b, mb⟩ := e
    rcases hb : bget s.borders b with _ | hbv
    · rw [mirrorInner, hb] at h
      exact ih s ch (fun x hx => hks x (List.mem_cons_of_mem _ hx)) h
    · rw [mirrorInner, hb] at h
      dsimp only at h
      rcases hmb : bget s.borders mb with _ | hmbv
      · rw [hmb] at h
        have hstep := step_insert hmb (hks (b, mb) (List.mem_cons_self _ _)) hbv ch
        have hrest := ih _ true
          (fun x hx => by
            rw [hstep.1.staticKS_eq]
            exact hks x (List.mem_cons_of_mem _ hx)) h
        exact step_trans hstep hrest
      · rw [hmb] at h
        dsimp only at h
        by_cases heq : hbv = hmbv
        · rw [if_pos heq] at h
          exact ih s ch (fun x hx => hks x (List.mem_cons_of_mem _ hx)) h
        · rw [if_neg heq] at h
          cases h

theorem getD_mem_of_lt {l : List Position} {n : Nat} (h : n < l.length) (d : Position) :
    l.getD n d ∈ l := by
  rw [List.getD_eq_getElem?_getD, List.getElem?_eq_getElem h]
  exact List.getElem_mem h

theorem mirrorPairs_snd_mem {s : Solver} {c p : Position}
    (hc : c ∈ s.galaxyCenters) (hp : p ∈ s.possible.map fun e => e.1) :
    ∀ e ∈ mirrorPairs p (c.mirrorPosition p), e.2 ∈ staticKS s := by
  intro e he
  have hup : (c.mirrorPosition p).up ∈ (c.mirrorPosition p).adjacent := by
    simp [Position.adjacent]
  have hdown : (c.mirrorPosition p).down ∈ (c.mirrorPosition p).adjacent := by
    simp [Position.adjacent]
  have hleft : (c.mirrorPosition p).left ∈ (c.mirrorPosition p).adjacent := by
    simp [Position.adjacent]
  have hright : (c.mirrorPosition p).right ∈ (c.mirrorPosition p).adjacent := by
    simp [Position.adjacent]
  simp only [mirrorPairs, List.mem_cons, List.not_mem_nil, or_false] at he
  rcases he with rfl | rfl | rfl | rfl
  · exact mem_mirBorders hc hp hdown
  · exact mem_mirBorders hc hp hright
  · show Border.left (c.mirrorPosition p) ∈ staticKS s
    rw [Border.left, Border.new_comm]
    exact mem_mirBorders hc hp hleft
  · show Border.up (c.mirrorPosition p) ∈ staticKS s
    rw [Border.up, Border.new_comm]
    exact mem_mirBorders hc hp hup

theorem mirrorGo_spec :
    ∀ (L : List (Position × Nat)) (s : Solver) (ch : Bool),
      (∀ e ∈ L, e.1 ∈ (s.possible.map fun x => x.1) ∧ e.2 < s.galaxyCenters.length) →
      ∀ {r : Bool × Solver},
      mirrorGo s ch L = .ok r → Step s ch r.2 r.1 := by
  intro L
  induction L with
  | nil =>
    intro s ch hkeys r h
    simp only [mirrorGo] at h
    injection h with h
    rw [← h]
    exact step_refl s ch
  | cons e L ih =>
    intro s ch hkeys r h
    obtain ⟨p, gid⟩ := e
    have hpg := hkeys (p, gid) (List.mem_cons_self _ _)
    have hc : s.galaxyCenters.getD gid ⟨0, 0⟩ ∈ s.galaxyCenters :=
      getD_mem_of_lt hpg.2 _
    rcases hin : mirrorInner s ch
        (mirrorPairs p ((s.galaxyCenters.getD gid ⟨0, 0⟩).mirrorPosition p)) with e' | r2
    · rw [mirrorGo, hin] at h
      cases h
    · rw [mirrorGo, hin] at h
      obtain ⟨ch2, s2⟩ := r2
      have hstep : Step s ch s2 ch2 :=
        mirrorInner_spec _ s ch (mirrorPairs_snd_mem hc hpg.1) hin
      have hrest := ih s2 ch2
        (fun x hx => by
          rw [hstep.1.keys_eq, hstep.1.centers_eq]
          exact hkeys x (List.mem_cons_of_mem _ hx)) h
      exact step_trans hstep hrest

theorem mirror_spec {s : Solver} {ch : Bool} {s' : Solver} (hWF : WFS s)
    (h : mirrorBorders s = .ok (ch, s')) :
    Narrows s s' ∧ (ch = true → mu s' < mu s) := by
  have hstep : Step s false s' ch := by
    refine mirrorGo_spec (certainCells s) s false (fun e he => ?_) h
    obtain ⟨p, gid⟩ := e
    have hmem := certainCells_mem he
    refine ⟨List.mem_map.mpr ⟨(p, [gid]), hmem, rfl⟩, ?_⟩
    exact hWF.2.2 (p, [gid]) hmem gid (List.mem_cons_self _ _)
  refine ⟨hstep.1, fun hch => ?_⟩
  rcases hstep.2 hch with h' | h'
  · cases h'
  · exact h'

theorem excludeRemoveGo_spec :
    ∀ (qs : List Position) (s : Solver) (ch : Bool) (gid : Nat) {r : Bool × Solver},
      excludeRemoveGo s ch gid qs = .ok r → Step s ch r.2 r.1 := by
  intro qs
  induction qs with
  | nil =>
    intro s ch gid r h
    simp only [excludeRemoveGo] at h
    injection h with h
    rw [← h]
    exact step_refl s ch
  | cons q qs ih =>
    intro s ch gid r h
    rw [excludeRemoveGo] at h
    by_cases hemp : ((pget s.possible q).getD []).erase gid = []
    · rw [if_pos hemp] at h
      cases h
    · rw [if_neg hemp] at h
      have hstep := step_remove s q gid ch
      exact step_trans hstep (ih _ _ gid h)

theorem excludeGo_spec :
    ∀ (cs : List Position) (s : Solver) (ch : Bool) (gid : Nat) {r : Bool × Solver},
      excludeGo s ch gid cs = .ok r → Step s ch r.2 r.1 := by
  intro cs
  induction cs with
  | nil =>
    intro s ch gid r h
    simp only [excludeGo] at h
    injection h with h
    rw [← h]
    exact step_refl s ch
  | cons c cs ih =>
    intro s ch gid r h
    rw [excludeGo] at h
    rcases hrg : excludeRemoveGo s ch gid
        ((rectanglePositions s.width s.height).filter fun q =>
          decide (q ∉ reachable s gid c)) with e' | r2
    · rw [hrg] at h
      cases h
    · rw [hrg] at h
      obtain ⟨ch2, s2⟩ := r2
      exact step_trans (excludeRemoveGo_spec _ s ch gid hrg) (ih s2 ch2 (gid + 1) h)

theorem exclude_spec {s : Solver} {ch : Bool} {s' : Solver}
    (h : excludeUnreachableGalaxies s = .ok (ch, s')) :
    Narrows s s' ∧ (ch = true → mu s' < mu s) := by
  have hstep : Step s false s' ch := excludeGo_spec s.galaxyCenters s false 0 h
  refine ⟨hstep.1, fun hch => ?_⟩
  rcases hstep.2 hch with h' | h'
  · cases h'
  · exact h'

theorem removeMirrorsInner_spec :
    ∀ (gids : List Nat) (s : Solver) (ch : Bool) (p : Position) {r : Bool × Solver},
      removeMirrorsInner s ch p gids = .ok r → Step s ch r.2 r.1 := by
  intro gids
  induction gids with
  | nil =>
    intro s ch p r h
    simp only [removeMirrorsInner] at h
    injection h with h
    rw [← h]
    exact step_refl s ch
  | cons gid gids ih =>
    intro s ch p r h
    rw [removeMirrorsInner] at h
    dsimp only at h
    rcases hm : pget s.possible
        ((s.galaxyCenters.getD gid ⟨0, 0⟩).mirrorPosition p) with _ | mids
    · rw [hm] at h
      dsimp only at h
      by_cases hemp : ((pget s.possible p).getD []).erase gid = []
      · rw [if_pos hemp] at h
        cases h
      · rw [if_neg hemp] at h
        exact step_trans (step_remove s p gid ch) (ih _ _ p h)
    · rw [hm] at h
      dsimp only at h
      by_cases hbad : gid ∉ mids
      · rw [if_pos (by simpa using hbad)] at h
        by_cases hemp : ((pget s.possible p).getD []).erase gid = []
        · rw [if_pos hemp] at h
          cases h
        · rw [if_neg hemp] at h
          exact step_trans (step_remove s p gid ch) (ih _ _ p h)
      · rw [if_neg (by simpa using hbad)] at h
        exact ih s ch p h

theorem removeMirrorsGo_spec :
    ∀ (L : List (Position × List Nat)) (s : Solver) (ch : Bool) {r : Bool × Solver},
      removeMirrorsGo s ch L = .ok r → Step s ch r.2 r.1 := by
  intro L
  induction L with
  | nil =>
    intro s ch r h
    simp only [removeMirrorsGo] at h
    injection h with h
    rw [← h]
    exact step_refl s ch
  | cons e L ih =>
    intro s ch r h
    obtain ⟨p, ids⟩ := e
    rcases hin : removeMirrorsInner s ch p ids with e' | r2
    · rw [removeMirrorsGo, hin] at h
      cases h
    · rw [removeMirrorsGo, hin] at h
      obtain ⟨ch2, s2⟩ := r2
      exact step_trans (removeMirrorsInner_spec ids s ch p hin) (ih s2 ch2 h)

theorem removeMirrors_spec {s : Solver} {ch : Bool} {s' : Solver}
    (h : removeImpossibleGalaxyMirrors s = .ok (ch, s')) :
    Narrows s s' ∧ (ch = true → mu s' < mu s) := by
  have hstep : Step s false s' ch := removeMirrorsGo_spec s.possible s false h
  refine ⟨hstep.1, fun hch => ?_⟩
  rcases hstep.2 hch with h' | h'
  · cases h'
  · exact h'

end Solver

namespace Solver

/-! The case-split rule and termination. -/

theorem forall2_pget {m' m : List (Position × List Nat)}
    (h : List.Forall₂ (fun e' e => e'.1 = e.1 ∧ e'.2.Sublist e.2) m' m)
    {p : Position} {ids' : List Nat} (hp : pget m' p = some ids') :
    ∃ ids, pget m p = some ids ∧ ids'.Sublist ids := by
  induction h with
  | nil => simp [pget] at hp
  | cons he htail ih =>
    rename_i e' e m'' m'''
    rw [pget_cons] at hp
    by_cases hk : e'.1 = p
    · rw [if_pos hk] at hp
      injection hp with hp
      refine ⟨e.2, ?_, hp ▸ he.2⟩
      rw [pget_cons, if_pos (he.1 ▸ hk)]
    · rw [if_neg hk] at hp
      obtain ⟨ids, hids, hsub⟩ := ih hp
      refine ⟨ids, ?_, hsub⟩
      rw [pget_cons, if_neg (he.1 ▸ hk)]
      exact hids

theorem Narrows.pget_sub {s s' : Solver} (h : Narrows s s') {p : Position} {ids' : List Nat}
    (hp : pget s'.possible p = some ids') :
    ∃ ids, pget s.possible p = some ids ∧ ids'.Sublist ids :=
  forall2_pget h.p_rel hp

theorem mem_rectanglePositions {w h : Nat} {q : Position} :
    q ∈ rectanglePositions w h ↔
      0 ≤ q.row ∧ q.row < (h : Int) ∧ 0 ≤ q.column ∧ q.column < (w : Int) := by
  unfold rectanglePositions
  simp only [List.mem_flatMap, List.mem_map, List.mem_range]
  constructor
  · rintro ⟨r, hr, c, hc, rfl⟩
    refine ⟨?_, ?_, ?_, ?_⟩ <;> simp <;> omega
  · rintro ⟨h1, h2, h3, h4⟩
    refine ⟨q.row.toNat, by omega, q.column.toNat, by omega, ?_⟩
    apply Position.ext_rc <;> simp <;> omega

theorem rectanglePositions_nodup (w h : Nat) : (rectanglePositions w h).Nodup := by
  induction h with
  | zero => simp [rectanglePositions]
  | succ h ih =>
    have hsplit : rectanglePositions w (h + 1) =
        rectanglePositions w h ++ (List.range w).map fun c => ⟨(h : Int), (c : Int)⟩ := by
      unfold rectanglePositions
      rw [List.range_succ, List.flatMap_append, List.flatMap_cons, List.flatMap_nil,
        List.append_nil]
    rw [hsplit]
    refine List.Nodup.append ih ?_ ?_
    · refine List.Nodup.map ?_ (List.nodup_range _)
      intro a b hab
      have := congrArg Position.column hab
      simpa using this
    · intro x hx hx'
      rw [mem_rectanglePositions] at hx
      rw [List.mem_map] at hx'
      obtain ⟨c, _, rfl⟩ := hx'
      exact absurd hx.2.1 (lt_irrefl ((h : Int)))

theorem mem_insertByLen {x a : Position × List Nat} {l : List (Position × List Nat)} :
    a ∈ insertByLen x l ↔ a = x ∨ a ∈ l := by
  induction l with
  | nil => simp [insertByLen]
  | cons y ys ih =>
    by_cases hc : y.2.length ≤ x.2.length
    · simp only [insertByLen, if_pos hc, List.mem_cons, ih]
      tauto
    · simp only [insertByLen, if_neg hc, List.mem_cons]

theorem mem_sortByLen {l : List (Position × List Nat)} {a : Position × List Nat} :
    a ∈ sortByLen l ↔ a ∈ l := by
  have hgen : ∀ (l acc : List (Position × List Nat)),
      (a ∈ l.foldl (fun acc x => insertByLen x acc) acc ↔ a ∈ acc ∨ a ∈ l) := by
    intro l
    induction l with
    | nil => intro acc; simp
    | cons x xs ih =>
      intro acc
      rw [List.foldl_cons, ih, mem_insertByLen, List.mem_cons]
      tauto
  rw [sortByLen, hgen]
  simp

theorem wfs_keys_nodup {s : Solver} (hWF : WFS s) :
    (s.possible.map fun e => e.1).Nodup := by
  rw [hWF.1]
  exact rectanglePositions_nodup _ _

theorem assumeCandidates_spec {s : Solver} (hWF : WFS s) {p : Position} {gid : Nat}
    (h : (p, gid) ∈ assumeCandidates s) :
    ∃ ids, pget s.possible p = some ids ∧ 1 < ids.length ∧ gid ∈ ids := by
  unfold assumeCandidates at h
  rw [List.mem_flatMap] at h
  obtain ⟨e, he, hm⟩ := h
  rw [List.mem_map] at hm
  obtain ⟨g, hg, heq⟩ := hm
  injection heq with heq1 heq2
  rw [mem_sortByLen, List.mem_filter] at he
  obtain ⟨hemem, hlen⟩ := he
  have hget : pget s.possible e.1 = some e.2 := by
    have := pget_eq_of_mem (wfs_keys_nodup hWF) hemem
    exact this
  refine ⟨e.2, heq1 ▸ hget, by simpa using hlen, heq2 ▸ hg⟩

theorem length_filter_eq_le_one {l : List Nat} (hnd : l.Nodup) (a : Nat) :
    (l.filter fun x => decide (x = a)).length ≤ 1 := by
  induction l with
  | nil => simp
  | cons b tl ih =>
    rw [List.nodup_cons] at hnd
    by_cases hb : b = a
    · subst hb
      have htl : tl.filter (fun x => decide (x = b)) = [] := by
        rw [List.filter_eq_nil_iff]
        intro x hx
        simp only [decide_eq_true_eq]
        intro hxb
        exact hnd.1 (hxb ▸ hx)
      rw [List.filter_cons_of_pos (by simp), htl]
      simp
    · rw [List.filter_cons_of_neg (by simp [hb])]
      exact ih hnd.2

theorem mu_retainAt_lt {s : Solver} {p : Position} {ids : List Nat} (gid : Nat)
    (h : pget s.possible p = some ids) (hlen : 1 < ids.length) (hnd : ids.Nodup) :
    Narrows s (retainAt s p gid) ∧ mu (retainAt s p gid) < mu s := by
  have hf : ∀ t : List Nat, (t.filter fun x => decide (x = gid)).Sublist t :=
    fun t => List.filter_sublist t
  refine ⟨narrows_pmodify s p hf, ?_⟩
  have hks : staticKS (retainAt s p gid) = staticKS s :=
    (narrows_pmodify s p hf).staticKS_eq
  have hbd : bdom (retainAt s p gid) = bdom s := rfl
  have hposs : (retainAt s p gid).possible =
      pmodify s.possible p (fun t => t.filter fun x => decide (x = gid)) := rfl
  have hlt : (ids.filter fun x => decide (x = gid)).length < ids.length :=
    lt_of_le_of_lt (length_filter_eq_le_one hnd gid) hlen
  unfold mu
  rw [hks, hbd, hposs]
  exact Nat.add_lt_add_left (pmodify_sum_lt h hf hlt) _

theorem assumeGo_spec {solveF : Solver → Option (Except Unit (Finset Border))} :
    ∀ (cands : List (Position × Nat)) (s : Solver) {flag : Bool} {s' : Solver},
      assumeGo solveF s cands = some (flag, s') →
      (flag = false ∧ s' = s) ∨
        (flag = true ∧ ∃ p gid, (p, gid) ∈ cands ∧ s' = removeIdAt s p gid) := by
  intro cands
  induction cands with
  | nil =>
    intro s flag s' h
    simp only [assumeGo] at h
    injection h with h
    injection h with h1 h2
    exact Or.inl ⟨h1.symm, h2.symm⟩
  | cons e cands ih =>
    intro s flag s' h
    obtain ⟨p, gid⟩ := e
    rcases hsf : solveF (retainAt s p gid) with _ | v
    · rw [assumeGo, hsf] at h
      cases h
    · rcases v with e' | sol
      · rw [assumeGo, hsf] at h
        injection h with h
        injection h with h1 h2
        exact Or.inr ⟨h1.symm, p, gid, List.mem_cons_self _ _, h2.symm⟩
      · rw [assumeGo, hsf] at h
        rcases ih s h with hl | ⟨hf, p', gid', hmem, hs'⟩
        · exact Or.inl hl
        · exact Or.inr ⟨hf, p', gid', List.mem_cons_of_mem _ hmem, hs'⟩

theorem assumeGo_isSome {solveF : Solver → Option (Except Unit (Finset Border))} :
    ∀ (cands : List (Position × Nat)) (s : Solver),
      (∀ p gid, (p, gid) ∈ cands → (solveF (retainAt s p gid)).isSome = true) →
      (assumeGo solveF s cands).isSome = true := by
  intro cands
  induction cands with
  | nil => intro s _; simp [assumeGo]
  | cons e cands ih =>
    intro s hyp
    obtain ⟨p, gid⟩ := e
    have h1 := hyp p gid (List.mem_cons_self _ _)
    obtain ⟨v, hv⟩ := Option.isSome_iff_exists.mp h1
    rcases v with e' | sol
    · rw [assumeGo, hv]
      rfl
    · rw [assumeGo, hv]
      exact ih s fun p' gid' hm => hyp p' gid' (List.mem_cons_of_mem _ hm)

end Solver

namespace Solver

theorem wfs_set_nodup {s : Solver} (hWF : WFS s) {p : Position} {ids : List Nat}
    (h : pget s.possible p = some ids) : ids.Nodup := by
  have hmem := pget_mem h
  have hpair := hWF.2.1 (p, ids) hmem
  exact hpair.imp fun hlt => Nat.ne_of_lt hlt

/-- Termination of the propagation loop: from any well-formed state,
fuel exceeding the measure suffices for `solve` to return (either a
solution or a contradiction, but not fuel exhaustion). -/
theorem solveFuel_total :
    ∀ (fuel : Nat) (s : Solver), WFS s → mu s < fuel →
      (solveFuel fuel s).isSome = true := by
  intro fuel
  induction fuel with
  | zero => intro s _ h; exact absurd h (Nat.not_lt_zero _)
  | succ fuel ih =>
    intro s hWF hmu
    have hmu' : mu s ≤ fuel := Nat.lt_succ_iff.mp hmu
    rw [solveFuel]
    rcases h1 : addBordersBetweenKnownGalaxies s with e | ⟨ch1, s1⟩
    · simp
    obtain ⟨hn1, hlt1⟩ := addBorders_spec h1
    have hWF1 : WFS s1 := hn1.wfs hWF
    cases ch1 with
    | true =>
      simp only
      exact ih s1 hWF1 (lt_of_lt_of_le (hlt1 rfl) hmu')
    | false =>
    simp only
    have hle1 : mu s1 ≤ mu s := hn1.mu_le
    rcases h2 : mirrorBorders s1 with e | ⟨ch2, s2⟩
    · simp
    obtain ⟨hn2, hlt2⟩ := mirror_spec hWF1 h2
    have hWF2 : WFS s2 := hn2.wfs hWF1
    cases ch2 with
    | true =>
      simp only
      exact ih s2 hWF2 (lt_of_lt_of_le (lt_of_lt_of_le (hlt2 rfl) hle1) hmu')
    | false =>
    simp only
    have hle2 : mu s2 ≤ mu s1 := hn2.mu_le
    rcases h3 : excludeUnreachableGalaxies s2 with e | ⟨ch3, s3⟩
    · simp
    obtain ⟨hn3, hlt3⟩ := exclude_spec h3
    have hWF3 : WFS s3 := hn3.wfs hWF2
    cases ch3 with
    | true =>
      simp only
      refine ih s3 hWF3 ?_
      have := hlt3 rfl
      omega
    | false =>
    simp only
    have hle3 : mu s3 ≤ mu s2 := hn3.mu_le
    rcases h4 : removeImpossibleGalaxyMirrors s3 with e | ⟨ch4, s4⟩
    · simp
    obtain ⟨hn4, hlt4⟩ := removeMirrors_spec h4
    have hWF4 : WFS s4 := hn4.wfs hWF3
    cases ch4 with
    | true =>
      simp only
      refine ih s4 hWF4 ?_
      have := hlt4 rfl
      omega
    | false =>
    simp only
    have hle4 : mu s4 ≤ mu s3 := hn4.mu_le
    have hcands : ∀ p gid, (p, gid) ∈ assumeCandidates s4 →
        (solveFuel fuel (retainAt s4 p gid)).isSome = true := by
      intro p gid hpg
      obtain ⟨ids, hget, hlen, hgid⟩ := assumeCandidates_spec hWF4 hpg
      obtain ⟨hnr, hmur⟩ := mu_retainAt_lt gid hget hlen (wfs_set_nodup hWF4 hget)
      refine ih (retainAt s4 p gid) (hnr.wfs hWF4) ?_
      omega
    have hsome := assumeGo_isSome (assumeCandidates s4) s4 hcands
    rcases h5 : assumeGo (solveFuel fuel) s4 (assumeCandidates s4) with _ | ⟨flag, s5⟩
    · rw [h5] at hsome
      cases hsome
    cases flag with
    | true =>
      simp only
      rcases assumeGo_spec (assumeCandidates s4) s4 h5 with ⟨hfl, _⟩ | ⟨_, p, gid, hpg, hs5⟩
      · cases hfl
      obtain ⟨ids, hget, hlen, hgid⟩ := assumeCandidates_spec hWF4 hpg
      obtain ⟨hnr, hmur⟩ := narrows_removeIdAt hget hgid
      refine ih s5 ?_ ?_
      · rw [hs5]
        exact hnr.wfs hWF4
      · rw [hs5]
        omega
    | false =>
      simp only
      rfl

end Solver

namespace Solver

/-! Construction: well-formedness and failure modes of the solver. -/

theorem pget_isSome_iff (m : List (Position × List Nat)) (p : Position) :
    (pget m p).isSome = true ↔ p ∈ m.map fun e => e.1 := by
  induction m with
  | nil => simp [pget]
  | cons e rest ih =>
    rw [pget_cons, List.map_cons]
    by_cases he : e.1 = p
    · simp [he]
    · rw [if_neg he, List.mem_cons]
      constructor
      · intro h
        exact Or.inr (ih.mp h)
      · rintro (h | h)
        · exact absurd h.symm he
        · exact ih.mpr h

theorem applyFootprint_map_fst :
    ∀ (fp : List Position) (m : List (Position × List Nat)) (gid : Nat)
      {m' : List (Position × List Nat)}, applyFootprint m gid fp = some m' →
      (m'.map fun e => e.1) = m.map fun e => e.1 := by
  intro fp
  induction fp with
  | nil =>
    intro m gid m' h
    injection h with h
    rw [h]
  | cons q qs ih =>
    intro m gid m' h
    rw [applyFootprint] at h
    by_cases hs : (pget m q).isSome
    · rw [if_pos hs] at h
      exact (ih _ gid h).trans (pmodify_map_fst m q _)
    · rw [if_neg hs] at h
      cases h

theorem applyFootprint_forall2 :
    ∀ (fp : List Position) (m : List (Position × List Nat)) (gid : Nat)
      {m' : List (Position × List Nat)}, applyFootprint m gid fp = some m' →
      List.Forall₂ (fun e' e => e'.1 = e.1 ∧ e'.2.Sublist e.2) m' m := by
  intro fp
  induction fp with
  | nil =>
    intro m gid m' h
    injection h with h
    rw [h]
    exact List.forall₂_same.mpr fun _ _ => ⟨rfl, List.Sublist.refl _⟩
  | cons q qs ih =>
    intro m gid m' h
    rw [applyFootprint] at h
    by_cases hs : (pget m q).isSome
    · rw [if_pos hs] at h
      exact forall2_trans (ih _ gid h) (pmodify_forall2 m q fun t => List.filter_sublist t)
    · rw [if_neg hs] at h
      cases h

theorem applyCenters_map_fst :
    ∀ (cs : List Position) (m : List (Position × List Nat)) (gid : Nat)
      {m' : List (Position × List Nat)}, applyCenters m gid cs = some m' →
      (m'.map fun e => e.1) = m.map fun e => e.1 := by
  intro cs
  induction cs with
  | nil =>
    intro m gid m' h
    injection h with h
    rw [h]
  | cons c cs ih =>
    intro m gid m' h
    rw [applyCenters] at h
    rcases hf : applyFootprint m gid c.footprint with _ | m2
    · rw [hf] at h
      cases h
    · rw [hf] at h
      exact (ih _ _ h).trans (applyFootprint_map_fst c.footprint m gid hf)

theorem applyCenters_forall2 :
    ∀ (cs : List Position) (m : List (Position × List Nat)) (gid : Nat)
      {m' : List (Position × List Nat)}, applyCenters m gid cs = some m' →
      List.Forall₂ (fun e' e => e'.1 = e.1 ∧ e'.2.Sublist e.2) m' m := by
  intro cs
  induction cs with
  | nil =>
    intro m gid m' h
    injection h with h
    rw [h]
    exact List.forall₂_same.mpr fun _ _ => ⟨rfl, List.Sublist.refl _⟩
  | cons c cs ih =>
    intro m gid m' h
    rw [applyCenters] at h
    rcases hf : applyFootprint m gid c.footprint with _ | m2
    · rw [hf] at h
      cases h
    · rw [hf] at h
      exact forall2_trans (ih _ _ h) (applyFootprint_forall2 c.footprint m gid hf)

theorem applyFootprint_isSome :
    ∀ (fp : List Position) (m : List (Position × List Nat)) (gid : Nat),
      (∀ q ∈ fp, q ∈ m.map fun e => e.1) →
      ∃ m', applyFootprint m gid fp = some m' := by
  intro fp
  induction fp with
  | nil => intro m gid _; exact ⟨m, rfl⟩
  | cons q qs ih =>
    intro m gid hall
    rw [applyFootprint]
    have hq : (pget m q).isSome := by
      rw [pget_isSome_iff]
      exact hall q (List.mem_cons_self _ _)
    rw [if_pos hq]
    refine ih _ gid fun x hx => ?_
    rw [pmodify_map_fst]
    exact hall x (List.mem_cons_of_mem _ hx)

theorem applyFootprint_none :
    ∀ (fp : List Position) (m : List (Position × List Nat)) (gid : Nat),
      (∃ q ∈ fp, q ∉ m.map fun e => e.1) →
      applyFootprint m gid fp = none := by
  intro fp
  induction fp with
  | nil => intro m gid h; simp at h
  | cons q qs ih =>
    intro m gid hex
    rw [applyFootprint]
    by_cases hq : q ∈ m.map fun e => e.1
    · have hqs : (pget m q).isSome := (pget_isSome_iff m q).mpr hq
      rw [if_pos hqs]
      obtain ⟨x, hx, hxn⟩ := hex
      rcases List.mem_cons.mp hx with rfl | hx'
      · exact absurd hq hxn
      · refine ih _ gid ⟨x, hx', ?_⟩
        rw [pmodify_map_fst]
        exact hxn
    · have hqs : ¬(pget m q).isSome = true := fun hh => hq ((pget_isSome_iff m q).mp hh)
      rw [if_neg hqs]

theorem applyCenters_isSome :
    ∀ (cs : List Position) (m : List (Position × List Nat)) (gid : Nat),
      (∀ c ∈ cs, ∀ q ∈ c.footprint, q ∈ m.map fun e => e.1) →
      ∃ m', applyCenters m gid cs = some m' := by
  intro cs
  induction cs with
  | nil => intro m gid _; exact ⟨m, rfl⟩
  | cons c cs ih =>
    intro m gid hall
    rw [applyCenters]
    obtain ⟨m2, hm2⟩ := applyFootprint_isSome c.footprint m gid
      (hall c (List.mem_cons_self _ _))
    rw [hm2]
    refine ih m2 (gid + 1) fun x hx q hq => ?_
    rw [applyFootprint_map_fst c.footprint m gid hm2]
    exact hall x (List.mem_cons_of_mem _ hx) q hq

theorem applyCenters_none :
    ∀ (cs : List Position) (m : List (Position × List Nat)) (gid : Nat),
      (∃ c ∈ cs, ∃ q ∈ c.footprint, q ∉ m.map fun e => e.1) →
      applyCenters m gid cs = none := by
  intro cs
  induction cs with
  | nil => intro m gid h; simp at h
  | cons c cs ih =>
    intro m gid hex
    rw [applyCenters]
    obtain ⟨c', hc', q, hq, hqn⟩ := hex
    rcases List.mem_cons.mp hc' with rfl | hc''
    · rw [applyFootprint_none c'.footprint m gid ⟨q, hq, hqn⟩]
    · rcases hf : applyFootprint m gid c.footprint with _ | m2
      · rfl
      · refine ih m2 (gid + 1) ⟨c', hc'', q, hq, ?_⟩
        rw [applyFootprint_map_fst c.footprint m gid hf]
        exact hqn

end Solver

namespace Solver

theorem filter_eq_idem (l : List Nat) (gid : Nat) :
    ((l.filter fun x => decide (x = gid)).filter fun x => decide (x = gid)) =
      l.filter fun x => decide (x = gid) := by
  induction l with
  | nil => rfl
  | cons b tl ih =>
    by_cases hb : b = gid
    · rw [List.filter_cons_of_pos (by simp [hb]), List.filter_cons_of_pos (by simp [hb]), ih]
    · rw [List.filter_cons_of_neg (by simp [hb])]
      exact ih

theorem applyFootprint_pget :
    ∀ (fp : List Position) (m : List (Position × List Nat)) (gid : Nat)
      {m' : List (Position × List Nat)}, applyFootprint m gid fp = some m' →
      ∀ q, pget m' q = if q ∈ fp
        then (pget m q).map (List.filter fun x => decide (x = gid))
        else pget m q := by
  intro fp
  induction fp with
  | nil =>
    intro m gid m' h q
    injection h with h
    rw [h, if_neg (List.not_mem_nil q)]
  | cons a fp ih =>
    intro m gid m' h q
    rw [applyFootprint] at h
    by_cases hs : (pget m a).isSome
    · rw [if_pos hs] at h
      have hrec := ih _ gid h q
      have hpm := pget_pmodify m a (List.filter fun x => decide (x = gid)) q
      by_cases hqa : q = a
      · subst hqa
        rw [if_pos (List.mem_cons_self _ _)]
        by_cases hqfp : q ∈ fp
        · rw [if_pos hqfp] at hrec
          rw [hrec, hpm, if_pos rfl]
          rcases hv : pget m q with _ | v
          · rfl
          · exact congrArg some (filter_eq_idem v gid)
        · rw [if_neg hqfp] at hrec
          rw [hrec, hpm, if_pos rfl]
      · rw [hrec, hpm, if_neg hqa]
        by_cases hqfp : q ∈ fp
        · rw [if_pos hqfp, if_pos (List.mem_cons_of_mem _ hqfp)]
        · rw [if_neg hqfp, if_neg (by simp [hqa, hqfp])]
    · rw [if_neg hs] at h
      cases h

theorem applyCenters_pget_empty :
    ∀ (cs : List Position) (m : List (Position × List Nat)) (gid : Nat)
      {m' : List (Position × List Nat)}, applyCenters m gid cs = some m' →
      ∀ q, pget m q = some [] → pget m' q = some [] := by
  intro cs
  induction cs with
  | nil =>
    intro m gid m' h q hq
    injection h with h
    rw [← h]
    exact hq
  | cons c cs ih =>
    intro m gid m' h q hq
    rw [applyCenters] at h
    rcases hf : applyFootprint m gid c.footprint with _ | m2
    · rw [hf] at h
      cases h
    · rw [hf] at h
      refine ih _ _ h q ?_
      rw [applyFootprint_pget c.footprint m gid hf q]
      by_cases hqc : q ∈ c.footprint
      · rw [if_pos hqc, hq]
        rfl
      · rw [if_neg hqc]
        exact hq

theorem applyCenters_late :
    ∀ (cs : List Position) (k : Nat) (m : List (Position × List Nat)) (gid : Nat)
      {m' : List (Position × List Nat)}, applyCenters m gid cs = some m' →
      ∀ (ck : Position) (q : Position) (v : List Nat),
        cs[k]? = some ck → q ∈ ck.footprint → pget m q = some v →
        (∀ x ∈ v, x < gid + k) → pget m' q = some [] := by
  intro cs
  induction cs with
  | nil =>
    intro k m gid m' h ck q v hk
    rw [List.getElem?_nil] at hk
    cases hk
  | cons c cs ih =>
    intro k m gid m' h ck q v hk hq hv hbound
    rw [applyCenters] at h
    rcases hf : applyFootprint m gid c.footprint with _ | m2
    · rw [hf] at h
      cases h
    · rw [hf] at h
      match k with
      | 0 =>
        rw [List.getElem?_cons_zero] at hk
        injection hk with hk
        subst hk
        have hnil : (v.filter fun x => decide (x = gid)) = [] := by
          rw [List.filter_eq_nil_iff]
          intro x hx
          simp only [decide_eq_true_eq]
          have := hbound x hx
          omega
        have hm2 : pget m2 q = some [] := by
          rw [applyFootprint_pget c.footprint m gid hf q, if_pos hq, hv]
          exact congrArg some hnil
        exact applyCenters_pget_empty cs m2 (gid + 1) h q hm2
      | k + 1 =>
        rw [List.getElem?_cons_succ] at hk
        have hm2 : ∃ v2, pget m2 q = some v2 ∧ ∀ x ∈ v2, x < (gid + 1) + k := by
          rw [applyFootprint_pget c.footprint m gid hf q]
          by_cases hqc : q ∈ c.footprint
          · rw [if_pos hqc, hv]
            refine ⟨_, rfl, fun x hx => ?_⟩
            have := hbound x (List.mem_of_mem_filter hx)
            omega
          · rw [if_neg hqc, hv]
            refine ⟨v, rfl, fun x hx => ?_⟩
            have := hbound x hx
            omega
        obtain ⟨v2, hv2, hb2⟩ := hm2
        exact ih k m2 (gid + 1) h ck q v2 hk hq hv2 hb2

theorem applyCenters_overlap :
    ∀ (cs : List Position) (i j : Nat) (m : List (Position × List Nat)) (gid : Nat)
      {m' : List (Position × List Nat)}, applyCenters m gid cs = some m' →
      ∀ (ci cj : Position) (q : Position), i < j →
        cs[i]? = some ci → cs[j]? = some cj →
        q ∈ ci.footprint → q ∈ cj.footprint → (pget m q).isSome →
        pget m' q = some [] := by
  intro cs
  induction cs with
  | nil =>
    intro i j m gid m' h ci cj q hij hi
    rw [List.getElem?_nil] at hi
    cases hi
  | cons c cs ih =>
    intro i j m gid m' h ci cj q hij hi hj hqi hqj hsome
    rw [applyCenters] at h
    rcases hf : applyFootprint m gid c.footprint with _ | m2
    · rw [hf] at h
      cases h
    · rw [hf] at h
      obtain ⟨v, hv⟩ := Option.isSome_iff_exists.mp hsome
      match i with
      | 0 =>
        rw [List.getElem?_cons_zero] at hi
        injection hi with hi
        subst hi
        match j with
        | 0 => exact absurd hij (lt_irrefl 0)
        | j + 1 =>
          rw [List.getElem?_cons_succ] at hj
          have hm2 : pget m2 q = some (v.filter fun x => decide (x = gid)) := by
            rw [applyFootprint_pget c.footprint m gid hf q, if_pos hqi, hv]
            rfl
          refine applyCenters_late cs j m2 (gid + 1) h cj q _ hj hqj hm2 ?_
          intro x hx
          have := List.of_mem_filter hx
          simp only [decide_eq_true_eq] at this
          omega
      | i + 1 =>
        match j with
        | 0 => exact absurd hij (by omega)
        | j + 1 =>
          rw [List.getElem?_cons_succ] at hi hj
          have hm2 : (pget m2 q).isSome := by
            rw [applyFootprint_pget c.footprint m gid hf q]
            by_cases hqc : q ∈ c.footprint
            · rw [if_pos hqc, hv]
              rfl
            · rw [if_neg hqc, hv]
              rfl
          exact ih i j m2 (gid + 1) h ci cj q (by omega) hi hj hqi hqj hm2

theorem new_shape {width height : Nat} {centers : List Position} {walls : List Border}
    {s₀ : Solver} (h : new width height centers walls = some s₀) :
    s₀.width = width ∧ s₀.height = height ∧ s₀.galaxyCenters = centers ∧
      applyCenters ((rectanglePositions width height).map fun p =>
        (p, List.range centers.length)) 0 centers = some s₀.possible := by
  rw [new] at h
  rcases hc : applyCenters ((rectanglePositions width height).map fun p =>
      (p, List.range centers.length)) 0 centers with _ | m1
  · rw [hc] at h
    cases h
  · rw [hc] at h
    injection h with h
    subst h
    exact ⟨rfl, rfl, rfl, rfl⟩

theorem possible0_map_fst (width height : Nat) (n : Nat) :
    (((rectanglePositions width height).map fun p => (p, List.range n)).map fun e => e.1) =
      rectanglePositions width height := by
  rw [List.map_map]
  exact List.map_id _

theorem new_wfs {width height : Nat} {centers : List Position} {walls : List Border}
    {s₀ : Solver} (h : new width height centers walls = some s₀) : WFS s₀ := by
  obtain ⟨hw, hh, hc, happ⟩ := new_shape h
  have hkeys : (s₀.possible.map fun e => e.1) = rectanglePositions width height := by
    rw [applyCenters_map_fst centers _ 0 happ]
    exact possible0_map_fst width height centers.length
  refine ⟨by rw [hkeys, hw, hh], ?_, ?_⟩
  · intro e' he'
    obtain ⟨e, he, _, hsub⟩ := forall2_mem_left (applyCenters_forall2 centers _ 0 happ) he'
    rw [List.mem_map] at he
    obtain ⟨p, _, rfl⟩ := he
    exact List.Pairwise.sublist hsub (List.pairwise_lt_range _)
  · intro e' he' g hg
    obtain ⟨e, he, _, hsub⟩ := forall2_mem_left (applyCenters_forall2 centers _ 0 happ) he'
    rw [List.mem_map] at he
    obtain ⟨p, _, rfl⟩ := he
    have := hsub.subset hg
    rw [hc]
    simpa using List.mem_range.mp this

end Solver

namespace Solver

theorem new_none_of_applyCenters {width height : Nat} {centers : List Position}
    (walls : List Border)
    (h : applyCenters ((rectanglePositions width height).map fun p =>
      (p, List.range centers.length)) 0 centers = none) :
    new width height centers walls = none := by
  rw [new, h]

theorem new_isSome_of_applyCenters {width height : Nat} {centers : List Position}
    (walls : List Border) {m' : List (Position × List Nat)}
    (h : applyCenters ((rectanglePositions width height).map fun p =>
      (p, List.range centers.length)) 0 centers = some m') :
    ∃ s, new width height centers walls = some s := by
  rw [new, h]
  exact ⟨_, rfl⟩

/-- The narrowing conclusions in interface terms: border labels are
kept, and possibility sets only shrink, cell by cell. -/
theorem narrows_claims {s s' : Solver} (h : Narrows s s') :
    (∀ k v, bget s.borders k = some v → bget s'.borders k = some v) ∧
    (∀ p ids', pget s'.possible p = some ids' →
      ∃ ids, pget s.possible p = some ids ∧ ids' ⊆ ids) := by
  refine ⟨h.b_mono, fun p ids' hp => ?_⟩
  obtain ⟨ids, h1, h2⟩ := h.pget_sub hp
  exact ⟨ids, h1, h2.subset⟩

end Solver

deriving instance DecidableEq for Except

/-- A concrete solver state: the state `Solver::new` builds for a
`1 × 1` grid with the single center on its only cell. -/
def c6Solver : Solver :=
  ⟨1, 1, [⟨0, 0⟩],
    [(⟨⟨-1, 0⟩, ⟨0, 0⟩⟩, true), (⟨⟨0, 0⟩, ⟨1, 0⟩⟩, true),
      (⟨⟨0, -1⟩, ⟨0, 0⟩⟩, true), (⟨⟨0, 0⟩, ⟨0, 1⟩⟩, true)],
    [(⟨0, 0⟩, [0])]⟩


/-- Claim C6: for every objective and dimensions on which the solver can
be constructed, `Solver::solve` terminates (fuel one more than the
measure `mu` suffices, so the unfuelled loop of the source reaches its
fixpoint), and throughout the propagation loop the state narrows
monotonically: each of the five rules keeps every border label already
set (never flipping `true` to `false` or vice versa) and never lets a
cell's possibility set gain an element; the case-split of
`assume_galaxy` likewise only removes possibilities from the original
state. -/
theorem c6_solver_terminates_and_narrows :
    (∀ (width height : Nat) (centers : List Position) (walls : List Border) (s₀ : Solver),
        Solver.new width height centers walls = some s₀ →
        (Solver.solveFuel (Solver.mu s₀ + 1) s₀).isSome = true) ∧
    (∀ (s : Solver) (ch : Bool) (s' : Solver), s.WFS →
        Solver.addBordersBetweenKnownGalaxies s = .ok (ch, s') →
        (∀ k v, bget s.borders k = some v → bget s'.borders k = some v) ∧
        (∀ p ids', pget s'.possible p = some ids' →
          ∃ ids, pget s.possible p = some ids ∧ ids' ⊆ ids)) ∧
    (∀ (s : Solver) (ch : Bool) (s' : Solver), s.WFS →
        Solver.mirrorBorders s = .ok (ch, s') →
        (∀ k v, bget s.borders k = some v → bget s'.borders k = some v) ∧
        (∀ p ids', pget s'.possible p = some ids' →
          ∃ ids, pget s.possible p = some ids ∧ ids' ⊆ ids)) ∧
    (∀ (s : Solver) (ch : Bool) (s' : Solver), s.WFS →
        Solver.excludeUnreachableGalaxies s = .ok (ch, s') →
        (∀ k v, bget s.borders k = some v → bget s'.borders k = some v) ∧
        (∀ p ids', pget s'.possible p = some ids' →
          ∃ ids, pget s.possible p = some ids ∧ ids' ⊆ ids)) ∧
    (∀ (s : Solver) (ch : Bool) (s' : Solver), s.WFS →
        Solver.removeImpossibleGalaxyMirrors s = .ok (ch, s') →
        (∀ k v, bget s.borders k = some v → bget s'.borders k = some v) ∧
        (∀ p ids', pget s'.possible p = some ids' →
          ∃ ids, pget s.possible p = some ids ∧ ids' ⊆ ids)) ∧
    (∀ (solveF : Solver → Option (Except Unit (Finset Border))) (s : Solver)
        (flag : Bool) (s' : Solver), s.WFS →
        Solver.assumeGo solveF s (Solver.assumeCandidates s) = some (flag, s') →
        (∀ k v, bget s.borders k = some v → bget s'.borders k = some v) ∧
        (∀ p ids', pget s'.possible p = some ids' →
          ∃ ids, pget s.possible p = some ids ∧ ids' ⊆ ids)) := by
  refine ⟨?_, ?_, ?_, ?_, ?_, ?_⟩
  · intro width height centers walls s₀ h
    exact Solver.solveFuel_total _ s₀ (Solver.new_wfs h) (Nat.lt_succ_self _)
  · intro s ch s' _ h
    exact Solver.narrows_claims (Solver.addBorders_spec h).1
  · intro s ch s' hWF h
    exact Solver.narrows_claims (Solver.mirror_spec hWF h).1
  · intro s ch s' _ h
    exact Solver.narrows_claims (Solver.exclude_spec h).1
  · intro s ch s' _ h
    exact Solver.narrows_claims (Solver.removeMirrors_spec h).1
  · intro solveF s flag s' hWF h
    rcases Solver.assumeGo_spec _ s h with ⟨_, hs⟩ | ⟨_, p, gid, hpg, hs⟩
    · rw [hs]
      exact Solver.narrows_claims (Solver.narrows_self s)
    · rw [hs]
      obtain ⟨ids, hget, hlen, hgid⟩ := Solver.assumeCandidates_spec hWF hpg
      exact Solver.narrows_claims (Solver.narrows_removeIdAt hget hgid).1

/-- Witness for C6 at a concrete input: the `1 × 1` objective with one
center on the only cell. -/
theorem c6_solver_terminates_and_narrows_witness :
    (Solver.new 1 1 [⟨0, 0⟩] [] = some c6Solver ∧
      (Solver.solveFuel (Solver.mu c6Solver + 1) c6Solver).isSome = true) ∧
    (c6Solver.WFS ∧
      Solver.addBordersBetweenKnownGalaxies c6Solver = .ok (false, c6Solver) ∧
      ((∀ k v, bget c6Solver.borders k = some v →
          bget c6Solver.borders k = some v) ∧
        (∀ p ids', pget c6Solver.possible p = some ids' →
          ∃ ids, pget c6Solver.possible p = some ids ∧ ids' ⊆ ids))) :=
  ⟨⟨by decide, c6_solver_terminates_and_narrows.1 1 1 [⟨0, 0⟩] [] c6Solver (by decide)⟩,
    ⟨by decide, by decide,
      c6_solver_terminates_and_narrows.2.1 c6Solver false c6Solver (by decide) (by decide)⟩⟩

/-- Claim C7 (corrected): `Solver::new` does not surface a synchronous
invalid-input error for any of the claimed invalid inputs: whenever
every center's footprint lies on the grid the construction succeeds,
and if two centers' footprints overlap at a cell the solver is built
silently with an empty possibility set at that cell; a center whose
footprint leaves the grid makes the construction panic on an `unwrap`
(modelled `none`), which is not a synchronous error value; and the
dimensions are unsigned, so "dimensions ≤ 0" is representable only as
zero, which is accepted silently. -/
theorem c7_solver_new_error_handling :
    (∀ (width height : Nat) (centers : List Position) (walls : List Border),
      (∀ c ∈ centers, ∀ q ∈ c.footprint, q ∈ rectanglePositions width height) →
      ∃ s, Solver.new width height centers walls = some s ∧
        ∀ (i j : Nat) (ci cj q : Position), i < j →
          centers[i]? = some ci → centers[j]? = some cj →
          q ∈ ci.footprint → q ∈ cj.footprint →
          pget s.possible q = some []) ∧
    (∀ (width height : Nat) (centers : List Position) (walls : List Border),
      (∃ c ∈ centers, ∃ q ∈ c.footprint, q ∉ rectanglePositions width height) →
      Solver.new width height centers walls = none) ∧
    Solver.new 0 0 [] [] = some ⟨0, 0, [], [], []⟩ := by
  refine ⟨?_, ?_, by decide⟩
  · intro width height centers walls hin
    have hall : ∀ c ∈ centers, ∀ q ∈ c.footprint,
        q ∈ (((rectanglePositions width height).map fun p =>
          (p, List.range centers.length)).map fun e => e.1) := by
      intro c hc q hq
      rw [Solver.possible0_map_fst]
      exact hin c hc q hq
    obtain ⟨m', hm'⟩ := Solver.applyCenters_isSome centers _ 0 hall
    obtain ⟨s, hs⟩ := Solver.new_isSome_of_applyCenters walls hm'
    refine ⟨s, hs, ?_⟩
    intro i j ci cj q hij hi hj hqi hqj
    obtain ⟨hw, hh, hcent, happ⟩ := Solver.new_shape hs
    refine Solver.applyCenters_overlap centers i j _ 0 happ ci cj q hij hi hj hqi hqj ?_
    rw [Solver.pget_isSome_iff, Solver.possible0_map_fst]
    have hci : ci ∈ centers := by
      have h1 : i < centers.length := by
        by_contra hlen
        rw [List.getElem?_eq_none (by omega)] at hi
        cases hi
      rw [List.getElem?_eq_getElem h1] at hi
      injection hi with hi
      rw [← hi]
      exact List.getElem_mem h1
    exact hin ci hci q hqi
  · rintro width height centers walls ⟨c, hc, q, hq, hqn⟩
    apply Solver.new_none_of_applyCenters
    apply Solver.applyCenters_none
    refine ⟨c, hc, q, hq, ?_⟩
    rw [Solver.possible0_map_fst]
    exact hqn

/-- Counterexample for C7 at concrete inputs: the out-of-bounds center
`(4,0)` on a `1 × 1` grid yields no synchronous error — construction
panics (`none`) — and the overlapping centers `(0,0)` and `(1,0)` on a
`1 × 2` grid are accepted without any error, leaving the silently empty
possibility set at the shared footprint cell `(0,0)`. -/
theorem c7_solver_new_error_handling_counterexample :
    Solver.new 1 1 [⟨4, 0⟩] [] = none ∧
    ((Solver.new 1 2 [⟨0, 0⟩, ⟨1, 0⟩] []).map fun s => pget s.possible ⟨0, 0⟩) =
      some (some []) :=
  ⟨by decide, by decide⟩

/-- Witness for C7 at concrete inputs: overlapping centers `(0,0)` and
`(1,0)` on a `1 × 2` grid are accepted silently, and the out-of-bounds
center `(4,0)` on a `1 × 1` grid makes construction panic. -/
theorem c7_solver_new_error_handling_witness :
    ((∀ c ∈ ([⟨0, 0⟩, ⟨1, 0⟩] : List Position), ∀ q ∈ c.footprint,
        q ∈ rectanglePositions 1 2) ∧
      ∃ s, Solver.new 1 2 [⟨0, 0⟩, ⟨1, 0⟩] [] = some s ∧
        ∀ (i j : Nat) (ci cj q : Position), i < j →
          ([⟨0, 0⟩, ⟨1, 0⟩] : List Position)[i]? = some ci →
          ([⟨0, 0⟩, ⟨1, 0⟩] : List Position)[j]? = some cj →
          q ∈ ci.footprint → q ∈ cj.footprint →
          pget s.possible q = some []) ∧
    ((∃ c ∈ ([⟨4, 0⟩] : List Position), ∃ q ∈ c.footprint,
        q ∉ rectanglePositions 1 1) ∧
      Solver.new 1 1 [⟨4, 0⟩] [] = none) :=
  ⟨⟨by decide, c7_solver_new_error_handling.1 1 2 [⟨0, 0⟩, ⟨1, 0⟩] [] (by decide)⟩,
    ⟨by decide, c7_solver_new_error_handling.2.1 1 1 [⟨4, 0⟩] [] (by decide)⟩⟩

/-! The greedy rectangle decomposition of a galaxy (`galaxy.rs` lines
656 to 730) and the rectangle type it produces (`rectangle.rs`, a file
absent from the sources and therefore modelled from the spec). -/

/-- Modelled from the spec: a rectangle is the half-open cell block
`[min_row, max_row) x [min_column, max_column)`.  `Rectangle::default`
is the all-zero rectangle. -/
structure Rectangle where
  min_row : Int
  max_row : Int
  min_column : Int
  max_column : Int
deriving DecidableEq

namespace Rectangle

/-- Modelled from the spec: the `Default` rectangle has all four
bounds zero. -/
def default : Rectangle := ⟨0, 0, 0, 0⟩

/-- Modelled from the spec: area is width times height of the
half-open block. -/
def area (R : Rectangle) : Int :=
  (R.max_row - R.min_row) * (R.max_column - R.min_column)

end Rectangle

/-- A Rust iterator `a..b` over signed integers, as a list. -/
def intRange (a b : Int) : List Int :=
  (List.range (b - a).toNat).map fun (i : Nat) => a + (i : Int)

/-- Modelled from the spec: the positions iterator of a rectangle
enumerates the cells of the half-open block. -/
def Rectangle.positions (R : Rectangle) : List Position :=
  (intRange R.min_row R.max_row).flatMap fun r =>
    (intRange R.min_column R.max_column).map fun c => ⟨r, c⟩

/-- The heights pass of `Galaxy::rectangles_internal` (the first inner
loop of galaxy.rs lines 677 to 686): a present cell increments the
column height, an absent cell resets it to zero.  The `height` vector
is indexed by the column offset from the minimum column, so walking
the list with a running column is exactly the `for col` loop. -/
def heightsRow (S : Finset Position) (r : Int) : Int → List Int → List Int
  | _, [] => []
  | c, h :: t =>
    (if (⟨r, c⟩ : Position) ∈ S then h + 1 else 0) :: heightsRow S r (c + 1) t

/-- The left-extents pass (galaxy.rs lines 687 to 697): scanning the
columns left to right with a running `current_left`, a present cell
keeps the larger of its old extent and `current_left`, an absent cell
stores `0` and moves `current_left` past itself. -/
def leftsRow (S : Finset Position) (r : Int) : Int → Int → List Int → List Int
  | _, _, [] => []
  | cur, c, l :: t =>
    if (⟨r, c⟩ : Position) ∈ S then max l cur :: leftsRow S r cur (c + 1) t
    else 0 :: leftsRow S r (c + 1) (c + 1) t

/-- The right-extents pass (galaxy.rs lines 698 to 708): the source
scans the columns right to left with a running `current_right`; here
the recursion processes the tail (the higher columns) first and
returns the updated vector together with the `current_right` value
seen by the head column. -/
def rightsRow (S : Finset Position) (maxCol r : Int) : Int → List Int → List Int × Int
  | _, [] => ([], maxCol)
  | c, rt :: t =>
    let res := rightsRow S maxCol r (c + 1) t
    if (⟨r, c⟩ : Position) ∈ S then (min rt res.2 :: res.1, res.2)
    else (maxCol :: res.1, c)

/-- The candidate pass (galaxy.rs lines 709 to 720): every column of
the row proposes the rectangle of its height and extents, and the
running maximum is replaced whenever a candidate has strictly larger
area. -/
def bestRow (r : Int) : List Int → List Int → List Int → Rectangle → Rectangle
  | h :: ht, l :: lt, rt :: rtt, best =>
    let rect : Rectangle := ⟨r - h + 1, r + 1, l, rt⟩
    bestRow r ht lt rtt (if best.area < rect.area then rect else best)
  | _, _, _, best => best

/-- The row loop of `Galaxy::rectangles_internal` (galaxy.rs lines 677
to 721): for every row run the four passes in order, each reading the
vectors left by the previous row. -/
def rowsGo (S : Finset Position) (minCol maxCol : Int) :
    List Int → List Int → List Int → List Int → Rectangle → Rectangle
  | [], _, _, _, best => best
  | r :: rs, h, l, rt, best =>
    let h2 := heightsRow S r minCol h
    let l2 := leftsRow S r minCol minCol l
    let rt2 := (rightsRow S maxCol r minCol rt).1
    rowsGo S minCol maxCol rs h2 l2 rt2 (bestRow r h2 l2 rt2 best)

/-- The largest-rectangle search of `Galaxy::rectangles_internal`
(galaxy.rs lines 665 to 721): compute the bounding box of the
non-empty cell set, initialise `height` to zeroes, `left` to the
minimum column and `right` to the maximum column, and run the row
loop starting from `Rectangle::default()`. -/
def maxRectangle (S : Finset Position) (h : S.Nonempty) : Rectangle :=
  let minCol := (S.image Position.column).min' (h.image _)
  let minRow := (S.image Position.row).min' (h.image _)
  let maxCol := (S.image Position.column).max' (h.image _) + 1
  let maxRow := (S.image Position.row).max' (h.image _) + 1
  let width := (maxCol - minCol).toNat
  rowsGo S minCol maxCol (intRange minRow maxRow)
    (List.replicate width 0) (List.replicate width minCol)
    (List.replicate width maxCol) Rectangle.default

/-- `Galaxy::rectangles_internal` (galaxy.rs lines 660 to 727): find
the largest rectangle of the cell set, remove its cells, recurse, and
push the rectangle after the recursive results.  The fuel argument
makes the recursion structural; the initial fuel `card` is enough
because every round removes at least one cell from a non-empty set. -/
def rectanglesInternal : Nat → Finset Position → List Rectangle
  | 0, _ => []
  | fuel + 1, S =>
    if h : S.Nonempty then
      rectanglesInternal fuel (S \ (maxRectangle S h).positions.toFinset) ++
        [maxRectangle S h]
    else []

/-- `Galaxy::rectangles` (galaxy.rs lines 656 to 658). -/
def Galaxy.rectangles (g : Galaxy) : List Rectangle :=
  rectanglesInternal g.positions.card g.positions

theorem mem_intRange {a b c : Int} : c ∈ intRange a b ↔ a ≤ c ∧ c < b := by
  unfold intRange
  rw [List.mem_map]
  constructor
  · rintro ⟨i, hi, rfl⟩
    rw [List.mem_range] at hi
    omega
  · rintro ⟨h1, h2⟩
    refine ⟨(c - a).toNat, ?_, by omega⟩
    rw [List.mem_range]
    omega

theorem intRange_succ {a b : Int} (h : a < b) :
    intRange a b = a :: intRange (a + 1) b := by
  unfold intRange
  have hn : (b - a).toNat = (b - (a + 1)).toNat + 1 := by omega
  rw [hn, List.range_succ_eq_map, List.map_cons, List.map_map]
  refine List.cons_eq_cons.mpr ⟨by omega, ?_⟩
  apply List.map_congr_left
  intro i _
  simp only [Function.comp_apply]
  push_cast
  omega

theorem heightsRow_length (S : Finset Position) (r : Int) :
    ∀ (c : Int) (t : List Int), (heightsRow S r c t).length = t.length
  | _, [] => rfl
  | c, _ :: t => by
    rw [heightsRow, List.length_cons, List.length_cons, heightsRow_length S r (c + 1) t]

theorem leftsRow_length (S : Finset Position) (r : Int) :
    ∀ (cur c : Int) (t : List Int), (leftsRow S r cur c t).length = t.length
  | _, _, [] => rfl
  | cur, c, l :: t => by
    rw [leftsRow]
    by_cases hm : (⟨r, c⟩ : Position) ∈ S
    · rw [if_pos hm, List.length_cons, List.length_cons,
        leftsRow_length S r cur (c + 1) t]
    · rw [if_neg hm, List.length_cons, List.length_cons,
        leftsRow_length S r (c + 1) (c + 1) t]

theorem rightsRow_length (S : Finset Position) (maxCol r : Int) :
    ∀ (c : Int) (t : List Int), (rightsRow S maxCol r c t).1.length = t.length
  | _, [] => rfl
  | c, rt :: t => by
    rw [rightsRow]
    by_cases hm : (⟨r, c⟩ : Position) ∈ S
    · rw [if_pos hm, List.length_cons, List.length_cons,
        rightsRow_length S maxCol r (c + 1) t]
    · rw [if_neg hm, List.length_cons, List.length_cons,
        rightsRow_length S maxCol r (c + 1) t]

theorem heightsRow_getD (S : Finset Position) (r : Int) :
    ∀ (t : List Int) (c : Int) (i : Nat), i < t.length →
      (heightsRow S r c t).getD i 0 =
        if (⟨r, c + i⟩ : Position) ∈ S then t.getD i 0 + 1 else 0
  | [], _, _, hi => absurd hi (by simp)
  | h :: t, c, 0, _ => by
    rw [heightsRow]
    simp only [List.getD_cons_zero, Int.ofNat_zero, add_zero]
  | h :: t, c, i + 1, hi => by
    rw [heightsRow]
    simp only [List.getD_cons_succ]
    rw [heightsRow_getD S r t (c + 1) i (by simpa using hi)]
    have : c + 1 + (i : Int) = c + ((i : Int) + 1) := by omega
    rw [this]
    norm_cast

theorem leftsRow_spec (S : Finset Position) (r : Int) :
    ∀ (t : List Int) (cur c : Int), cur ≤ c →
      (∀ x, cur ≤ x → x < c → (⟨r, x⟩ : Position) ∈ S) →
      ∀ i, i < t.length → (⟨r, c + (i : Int)⟩ : Position) ∈ S →
        t.getD i 0 ≤ (leftsRow S r cur c t).getD i 0 ∧
        (leftsRow S r cur c t).getD i 0 ≤ max (t.getD i 0) (c + (i : Int)) ∧
        ∀ x, (leftsRow S r cur c t).getD i 0 ≤ x → x ≤ c + (i : Int) →
          (⟨r, x⟩ : Position) ∈ S
  | [], _, _, _, _, i, hi, _ => absurd hi (by simp)
  | l :: t, cur, c, hcur, hrange, 0, _, hmem => by
    rw [leftsRow, if_pos (by simpa using hmem)]
    simp only [List.getD_cons_zero, Int.ofNat_zero, add_zero] at hmem ⊢
    refine ⟨le_max_left _ _, max_le_max_left _ hcur, ?_⟩
    intro x hx1 hx2
    rcases lt_or_eq_of_le hx2 with hlt | heq
    · exact hrange x (le_trans (le_max_right _ _) hx1) hlt
    · exact heq ▸ hmem
  | l :: t, cur, c, hcur, hrange, i + 1, hi, hmem => by
    rw [leftsRow]
    by_cases hm : (⟨r, c⟩ : Position) ∈ S
    · rw [if_pos hm]
      simp only [List.getD_cons_succ]
      have hmem2 : (⟨r, c + 1 + (i : Int)⟩ : Position) ∈ S := by
        have : c + 1 + (i : Int) = c + ((i : Int) + 1) := by omega
        rw [this]
        exact_mod_cast hmem
      have hrange2 : ∀ x, cur ≤ x → x < c + 1 → (⟨r, x⟩ : Position) ∈ S := by
        intro x hx1 hx2
        rcases lt_or_eq_of_le (by omega : x ≤ c) with hlt | heq
        · exact hrange x hx1 hlt
        · exact heq ▸ hm
      have := leftsRow_spec S r t cur (c + 1) (by omega) hrange2 i
        (by simpa using hi) hmem2
      have hc : c + 1 + (i : Int) = c + ((i : Int) + 1) := by omega
      rw [hc] at this
      push_cast at this ⊢
      exact this
    · rw [if_neg hm]
      simp only [List.getD_cons_succ]
      have hmem2 : (⟨r, c + 1 + (i : Int)⟩ : Position) ∈ S := by
        have : c + 1 + (i : Int) = c + ((i : Int) + 1) := by omega
        rw [this]
        exact_mod_cast hmem
      have := leftsRow_spec S r t (c + 1) (c + 1) (le_refl _)
        (fun x hx1 hx2 => absurd (lt_of_le_of_lt hx1 hx2) (lt_irrefl _)) i
        (by simpa using hi) hmem2
      have hc : c + 1 + (i : Int) = c + ((i : Int) + 1) := by omega
      rw [hc] at this
      push_cast at this ⊢
      exact this

theorem rightsRow_spec (S : Finset Position) (maxCol r : Int) :
    ∀ (t : List Int) (c : Int), c + (t.length : Int) = maxCol →
      (c ≤ (rightsRow S maxCol r c t).2 ∧
        (rightsRow S maxCol r c t).2 ≤ maxCol ∧
        ∀ x, c ≤ x → x < (rightsRow S maxCol r c t).2 →
          (⟨r, x⟩ : Position) ∈ S) ∧
      ∀ i, i < t.length → (⟨r, c + (i : Int)⟩ : Position) ∈ S →
        (rightsRow S maxCol r c t).1.getD i 0 ≤ t.getD i 0 ∧
        min (t.getD i 0) (c + (i : Int) + 1) ≤ (rightsRow S maxCol r c t).1.getD i 0 ∧
        ∀ x, c + (i : Int) ≤ x → x < (rightsRow S maxCol r c t).1.getD i 0 →
          (⟨r, x⟩ : Position) ∈ S
  | [], c, hc => by
    have hr : rightsRow S maxCol r c [] = ([], maxCol) := rfl
    rw [hr]
    have hcm : c = maxCol := by simpa using hc
    refine ⟨⟨le_of_eq hcm, le_refl _, ?_⟩, ?_⟩
    · intro x hx1 hx2
      exact absurd (lt_of_le_of_lt hx1 hx2) (hcm ▸ lt_irrefl _)
    · intro i hi
      exact absurd hi (by simp)
  | rt :: t, c, hc => by
    have hc2 : c + 1 + (t.length : Int) = maxCol := by
      rw [List.length_cons] at hc
      push_cast at hc ⊢
      omega
    obtain ⟨⟨ht1, ht2, ht3⟩, htp⟩ := rightsRow_spec S maxCol r t (c + 1) hc2
    rw [rightsRow]
    by_cases hm : (⟨r, c⟩ : Position) ∈ S
    · rw [if_pos hm]
      simp only
      have hrow : ∀ x, c ≤ x → x < (rightsRow S maxCol r (c + 1) t).2 →
          (⟨r, x⟩ : Position) ∈ S := by
        intro x hx1 hx2
        rcases lt_or_eq_of_le hx1 with hlt | heq
        · exact ht3 x (by omega) hx2
        · exact heq ▸ hm
      refine ⟨⟨by omega, ht2, hrow⟩, ?_⟩
      intro i hi
      match i with
      | 0 =>
        intro _
        simp only [List.getD_cons_zero, Int.ofNat_zero, add_zero]
        refine ⟨min_le_left _ _, min_le_min_left _ (by omega), ?_⟩
        intro x hx1 hx2
        exact hrow x hx1 (lt_of_lt_of_le hx2 (min_le_right _ _))
      | i + 1 =>
        intro hmem
        simp only [List.getD_cons_succ]
        have hc3 : c + ((i : Int) + 1) = c + 1 + (i : Int) := by omega
        push_cast at hmem ⊢
        rw [hc3] at hmem ⊢
        exact htp i (by simpa using hi) hmem
    · rw [if_neg hm]
      simp only
      refine ⟨⟨le_refl _, by rw [List.length_cons] at hc; push_cast at hc; omega, ?_⟩, ?_⟩
      · intro x hx1 hx2
        exact absurd (lt_of_le_of_lt hx1 hx2) (lt_irrefl _)
      · intro i hi
        match i with
        | 0 =>
          intro hmem
          simp only [Int.ofNat_zero, add_zero] at hmem
          exact absurd hmem hm
        | i + 1 =>
          intro hmem
          simp only [List.getD_cons_succ]
          have hc3 : c + ((i : Int) + 1) = c + 1 + (i : Int) := by omega
          push_cast at hmem ⊢
          rw [hc3] at hmem ⊢
          exact htp i (by simpa using hi) hmem

/-- The per-column loop invariant of the histogram scan, stated after
processing row `r`: heights are non-negative, and a column of positive
height certifies that the block of its height and extents, ending at
row `r`, lies inside the cell set. -/
def InvTriple (S : Finset Position) (r h l rt : Int) : Prop :=
  0 ≤ h ∧ (1 ≤ h → ∀ r2 x, r + 1 - h ≤ r2 → r2 ≤ r → l ≤ x → x < rt →
    (⟨r2, x⟩ : Position) ∈ S)

theorem rowStep_inv (S : Finset Position) (r minCol maxCol : Int)
    (h l rt : List Int)
    (hlh : l.length = h.length) (hlr : rt.length = h.length)
    (hwidth : minCol + (h.length : Int) = maxCol)
    (hInv : ∀ i, i < h.length →
      InvTriple S (r - 1) (h.getD i 0) (l.getD i 0) (rt.getD i 0)) :
    ∀ i, i < h.length →
      InvTriple S r ((heightsRow S r minCol h).getD i 0)
        ((leftsRow S r minCol minCol l).getD i 0)
        (((rightsRow S maxCol r minCol rt).1).getD i 0) := by
  intro i hi
  rw [heightsRow_getD S r h minCol i hi]
  by_cases hm : (⟨r, minCol + (i : Int)⟩ : Position) ∈ S
  · rw [if_pos hm]
    obtain ⟨hl1, hl2, hl3⟩ := leftsRow_spec S r l minCol minCol (le_refl _)
      (fun x hx1 hx2 => absurd (lt_of_le_of_lt hx1 hx2) (lt_irrefl _)) i
      (hlh ▸ hi) hm
    obtain ⟨-, hrp⟩ := rightsRow_spec S maxCol r rt minCol
      (by rw [hlr]; exact hwidth)
    obtain ⟨hr1, hr2, hr3⟩ := hrp i (hlr ▸ hi) hm
    obtain ⟨hh0, hhc⟩ := hInv i hi
    constructor
    · omega
    intro _ r2 x hr2a hr2b hxa hxb
    rcases lt_or_eq_of_le hr2b with hlt | heq
    · have hh1 : 1 ≤ h.getD i 0 := by omega
      exact hhc hh1 r2 x (by omega) (by omega)
        (le_trans hl1 hxa) (lt_of_lt_of_le hxb hr1)
    · subst heq
      rcases le_or_lt x (minCol + (i : Int)) with hxc | hxc
      · exact hl3 x hxa hxc
      · exact hr3 x (le_of_lt hxc) hxb
  · rw [if_neg hm]
    exact ⟨le_refl 0, fun habs => absurd habs (by omega)⟩

/-- A sound running maximum: the row span is non-negative and every
cell of the rectangle belongs to the set. -/
def GoodRect (S : Finset Position) (R : Rectangle) : Prop :=
  0 ≤ R.max_row - R.min_row ∧ ∀ p ∈ R.positions, p ∈ S

theorem mem_rectangle_positions {R : Rectangle} {p : Position} :
    p ∈ R.positions ↔
      R.min_row ≤ p.row ∧ p.row < R.max_row ∧
      R.min_column ≤ p.column ∧ p.column < R.max_column := by
  unfold Rectangle.positions
  rw [List.mem_flatMap]
  constructor
  · rintro ⟨r, hr, hp⟩
    rw [List.mem_map] at hp
    obtain ⟨c, hc, rfl⟩ := hp
    rw [mem_intRange] at hr hc
    exact ⟨hr.1, hr.2, hc.1, hc.2⟩
  · rintro ⟨h1, h2, h3, h4⟩
    refine ⟨p.row, mem_intRange.mpr ⟨h1, h2⟩, ?_⟩
    rw [List.mem_map]
    exact ⟨p.column, mem_intRange.mpr ⟨h3, h4⟩, rfl⟩

theorem bestRow_good (S : Finset Position) (r : Int) :
    ∀ (h l rt : List Int) (best : Rectangle),
      (∀ i, i < h.length →
        InvTriple S r (h.getD i 0) (l.getD i 0) (rt.getD i 0)) →
      GoodRect S best → GoodRect S (bestRow r h l rt best)
  | [], _, _, best, _, hbest => hbest
  | _ :: _, [], _, best, _, hbest => hbest
  | _ :: _, _ :: _, [], best, _, hbest => hbest
  | h0 :: ht, l0 :: lt, rt0 :: rtt, best, hInv, hbest => by
    rw [bestRow]
    apply bestRow_good S r ht lt rtt
    · intro i hi
      have := hInv (i + 1) (by simpa using hi)
      simpa using this
    · obtain ⟨hh0, hhc⟩ := by simpa [InvTriple] using hInv 0 (by simp)
      by_cases harea : best.area < (⟨r - h0 + 1, r + 1, l0, rt0⟩ : Rectangle).area
      · rw [if_pos harea]
        constructor
        · show (0 : Int) ≤ r + 1 - (r - h0 + 1)
          omega
        · intro p hp
          rw [mem_rectangle_positions] at hp
          obtain ⟨h1, h2, h3, h4⟩ := hp
          have h1a : r - h0 + 1 ≤ p.row := h1
          have h2a : p.row < r + 1 := h2
          have hh1 : 1 ≤ h0 := by omega
          have := hhc hh1 p.row p.column (by omega) (by omega) h3 h4
          simpa using this
      · rw [if_neg harea]
        exact hbest

theorem bestRow_area_le (r : Int) :
    ∀ (h l rt : List Int) (best : Rectangle),
      best.area ≤ (bestRow r h l rt best).area
  | [], _, _, _ => le_refl _
  | _ :: _, [], _, _ => le_refl _
  | _ :: _, _ :: _, [], _ => le_refl _
  | h0 :: ht, l0 :: lt, rt0 :: rtt, best => by
    rw [bestRow]
    refine le_trans ?_ (bestRow_area_le r ht lt rtt _)
    by_cases harea : best.area < (⟨r - h0 + 1, r + 1, l0, rt0⟩ : Rectangle).area
    · rw [if_pos harea]
      exact le_of_lt harea
    · rw [if_neg harea]

theorem bestRow_ge_cand (r : Int) :
    ∀ (h l rt : List Int) (best : Rectangle) (i : Nat),
      i < h.length → i < l.length → i < rt.length →
      (⟨r - h.getD i 0 + 1, r + 1, l.getD i 0, rt.getD i 0⟩ : Rectangle).area ≤
        (bestRow r h l rt best).area
  | [], _, _, _, i, hi, _, _ => absurd hi (by simp)
  | _ :: _, [], _, _, i, _, hi, _ => absurd hi (by simp)
  | _ :: _, _ :: _, [], _, i, _, _, hi => absurd hi (by simp)
  | h0 :: ht, l0 :: lt, rt0 :: rtt, best, 0, _, _, _ => by
    rw [bestRow]
    simp only [List.getD_cons_zero]
    refine le_trans ?_ (bestRow_area_le r ht lt rtt _)
    by_cases harea : best.area < (⟨r - h0 + 1, r + 1, l0, rt0⟩ : Rectangle).area
    · rw [if_pos harea]
    · rw [if_neg harea]
      exact le_of_not_lt harea
  | h0 :: ht, l0 :: lt, rt0 :: rtt, best, i + 1, hi1, hi2, hi3 => by
    rw [bestRow]
    simp only [List.getD_cons_succ]
    exact bestRow_ge_cand r ht lt rtt _ i (by simpa using hi1)
      (by simpa using hi2) (by simpa using hi3)

theorem getD_replicate {n i : Nat} {a d : Int} (h : i < n) :
    (List.replicate n a).getD i d = a := by
  rw [List.getD_eq_getElem?_getD, List.getElem?_replicate, if_pos h]
  rfl

theorem intRange_nil {a b : Int} (h : b ≤ a) : intRange a b = [] := by
  unfold intRange
  rw [show (b - a).toNat = 0 by omega]
  rfl

theorem rowsGo_area_le (S : Finset Position) (minCol maxCol : Int) :
    ∀ (rows : List Int) (h l rt : List Int) (best : Rectangle),
      best.area ≤ (rowsGo S minCol maxCol rows h l rt best).area
  | [], _, _, _, _ => le_refl _
  | r :: rs, h, l, rt, best => by
    rw [rowsGo]
    exact le_trans (bestRow_area_le r _ _ _ best)
      (rowsGo_area_le S minCol maxCol rs _ _ _ _)

theorem rowsGo_good (S : Finset Position) (minCol maxCol : Int) :
    ∀ (n : Nat) (a : Int) (h l rt : List Int) (best : Rectangle),
      l.length = h.length → rt.length = h.length →
      minCol + (h.length : Int) = maxCol →
      (∀ i, i < h.length →
        InvTriple S (a - 1) (h.getD i 0) (l.getD i 0) (rt.getD i 0)) →
      GoodRect S best →
      GoodRect S (rowsGo S minCol maxCol (intRange a (a + (n : Int))) h l rt best)
  | 0, a, h, l, rt, best, _, _, _, _, hbest => by
    rw [intRange_nil (by omega), rowsGo]
    exact hbest
  | n + 1, a, h, l, rt, best, hlh, hlr, hw, hInv, hbest => by
    rw [intRange_succ (by push_cast; omega), rowsGo]
    have hInv2 := rowStep_inv S a minCol maxCol h l rt hlh hlr hw hInv
    have hlen2 : (heightsRow S a minCol h).length = h.length :=
      heightsRow_length S a minCol h
    have hlenl : (leftsRow S a minCol minCol l).length = h.length := by
      rw [leftsRow_length, hlh]
    have hlenr : ((rightsRow S maxCol a minCol rt).1).length = h.length := by
      rw [rightsRow_length, hlr]
    have hshift : a + ((n : Int) + 1) = (a + 1) + (n : Int) := by omega
    have hgo := rowsGo_good S minCol maxCol n (a + 1)
      (heightsRow S a minCol h) (leftsRow S a minCol minCol l)
      ((rightsRow S maxCol a minCol rt).1)
      (bestRow a (heightsRow S a minCol h) (leftsRow S a minCol minCol l)
        ((rightsRow S maxCol a minCol rt).1) best)
      (by rw [hlenl, hlen2]) (by rw [hlenr, hlen2]) (by rw [hlen2]; exact hw)
      (by
        rw [hlen2]
        intro i hi
        have := hInv2 i hi
        simpa using this)
      (bestRow_good S a _ _ _ best
        (by
          rw [hlen2]
          intro i hi
          exact hInv2 i hi) hbest)
    rw [show a + (((n + 1 : Nat) : Int)) = (a + 1) + (n : Int) by push_cast; omega]
    exact hgo

theorem default_good (S : Finset Position) : GoodRect S Rectangle.default := by
  constructor
  · exact le_refl 0
  · intro p hp
    rw [mem_rectangle_positions] at hp
    obtain ⟨h1, h2, -, -⟩ := hp
    exact absurd (lt_of_le_of_lt h1 h2) (lt_irrefl _)

theorem maxRectangle_good (S : Finset Position) (h : S.Nonempty) :
    GoodRect S (maxRectangle S h) := by
  have hmc : (S.image Position.column).min' (h.image _) ≤
      (S.image Position.column).max' (h.image _) :=
    Finset.min'_le _ _ ((S.image Position.column).max'_mem (h.image _))
  set minCol := (S.image Position.column).min' (h.image _) with hminCol
  set minRow := (S.image Position.row).min' (h.image _) with hminRow
  set maxCol := (S.image Position.column).max' (h.image _) + 1 with hmaxCol
  set maxRow := (S.image Position.row).max' (h.image _) + 1 with hmaxRow
  set width := (maxCol - minCol).toNat with hwidth
  have hmr : minRow ≤ maxRow := by
    have := Finset.min'_le _ _ ((S.image Position.row).max'_mem (h.image _))
    omega
  have hshape : maxRectangle S h =
      rowsGo S minCol maxCol (intRange minRow (minRow + ((maxRow - minRow).toNat : Int)))
        (List.replicate width 0) (List.replicate width minCol)
        (List.replicate width maxCol) Rectangle.default := by
    rw [maxRectangle, show minRow + (((maxRow - minRow).toNat : Nat) : Int) = maxRow by omega]
  rw [hshape]
  apply rowsGo_good
  · rw [List.length_replicate, List.length_replicate]
  · rw [List.length_replicate, List.length_replicate]
  · rw [List.length_replicate]
    omega
  · intro i hi
    rw [List.length_replicate] at hi
    rw [getD_replicate hi, getD_replicate hi, getD_replicate hi]
    exact ⟨le_refl 0, fun habs => absurd habs (by omega)⟩
  · exact default_good S

theorem maxRectangle_area (S : Finset Position) (h : S.Nonempty) :
    1 ≤ (maxRectangle S h).area := by
  obtain ⟨p0r, hp0r, hp0row⟩ :=
    Finset.mem_image.mp ((S.image Position.row).min'_mem (h.image _))
  have hmc : (S.image Position.column).min' (h.image _) ≤
      (S.image Position.column).max' (h.image _) :=
    Finset.min'_le _ _ ((S.image Position.column).max'_mem (h.image _))
  set minCol := (S.image Position.column).min' (h.image _) with hminCol
  set minRow := (S.image Position.row).min' (h.image _) with hminRow
  set maxCol := (S.image Position.column).max' (h.image _) + 1 with hmaxCol
  set maxRow := (S.image Position.row).max' (h.image _) + 1 with hmaxRow
  set width := (maxCol - minCol).toNat with hwidth
  have hcol1 : minCol ≤ p0r.column :=
    Finset.min'_le _ _ (Finset.mem_image_of_mem _ hp0r)
  have hcol2 : p0r.column < maxCol := by
    have := Finset.le_max' (S.image Position.column) _ (Finset.mem_image_of_mem _ hp0r)
    omega
  have hmr : minRow < maxRow := by
    have hrm := Finset.min'_le _ _ ((S.image Position.row).max'_mem (h.image _))
    rw [hminRow, hmaxRow]
    omega
  have hrows : intRange minRow maxRow = minRow :: intRange (minRow + 1) maxRow :=
    intRange_succ hmr
  have hshape : maxRectangle S h =
      rowsGo S minCol maxCol (intRange minRow maxRow)
        (List.replicate width 0) (List.replicate width minCol)
        (List.replicate width maxCol) Rectangle.default := rfl
  set i0 := (p0r.column - minCol).toNat with hi0
  have hcc : minCol ≤ maxCol := le_trans hmc (by rw [hmaxCol]; omega)
  have hiw : (width : Int) = maxCol - minCol := by
    rw [hwidth]
    exact Int.toNat_of_nonneg (by omega)
  have hii : (i0 : Int) = p0r.column - minCol := by
    rw [hi0]
    exact Int.toNat_of_nonneg (by omega)
  have hi0w : i0 < width := by omega
  have hcast : minCol + (i0 : Int) = p0r.column := by omega
  have hp0eq : (⟨minRow, minCol + (i0 : Int)⟩ : Position) = p0r := by
    rw [hcast]
    exact Position.ext_rc hp0row.symm rfl
  have hp0mem : (⟨minRow, minCol + (i0 : Int)⟩ : Position) ∈ S := by
    rw [hp0eq]
    exact hp0r
  set h2 := heightsRow S minRow minCol (List.replicate width 0) with hh2
  set l2 := leftsRow S minRow minCol minCol (List.replicate width minCol) with hl2
  set rt2 := (rightsRow S maxCol minRow minCol (List.replicate width maxCol)).1 with hrt2
  have hlen2 : h2.length = width := by
    rw [hh2, heightsRow_length, List.length_replicate]
  have hlenl : l2.length = width := by
    rw [hl2, leftsRow_length, List.length_replicate]
  have hlenr : rt2.length = width := by
    rw [hrt2, rightsRow_length, List.length_replicate]
  have hh2v : h2.getD i0 0 = 1 := by
    rw [hh2, heightsRow_getD S minRow _ minCol i0 (by rw [List.length_replicate]; exact hi0w),
      if_pos hp0mem, getD_replicate hi0w]
    omega
  have hl2v : l2.getD i0 0 ≤ p0r.column := by
    obtain ⟨-, hb, -⟩ := leftsRow_spec S minRow (List.replicate width minCol) minCol minCol
      (le_refl _) (fun x hx1 hx2 => absurd (lt_of_le_of_lt hx1 hx2) (lt_irrefl _)) i0
      (by rw [List.length_replicate]; exact hi0w) hp0mem
    rw [getD_replicate hi0w] at hb
    rw [hl2]
    exact le_trans hb (max_le hcol1 (le_of_eq hcast))
  have hrt2v : p0r.column + 1 ≤ rt2.getD i0 0 := by
    obtain ⟨-, hrp⟩ := rightsRow_spec S maxCol minRow (List.replicate width maxCol) minCol
      (by rw [List.length_replicate]; omega)
    obtain ⟨-, hb, -⟩ := hrp i0 (by rw [List.length_replicate]; exact hi0w) hp0mem
    rw [getD_replicate hi0w] at hb
    rw [hrt2]
    exact le_trans (le_min (by omega) (by omega)) hb
  have hcand := bestRow_ge_cand minRow h2 l2 rt2 Rectangle.default i0
    (by omega) (by omega) (by omega)
  have hcarea : 1 ≤
      (⟨minRow - h2.getD i0 0 + 1, minRow + 1, l2.getD i0 0, rt2.getD i0 0⟩ :
        Rectangle).area := by
    rw [Rectangle.area]
    simp only
    rw [hh2v]
    have hfac : minRow + 1 - (minRow - 1 + 1) = 1 := by omega
    rw [hfac, one_mul]
    omega
  rw [hshape, hrows, rowsGo]
  calc (1 : Int) ≤ _ := hcarea
    _ ≤ (bestRow minRow h2 l2 rt2 Rectangle.default).area := hcand
    _ ≤ _ := rowsGo_area_le S minCol maxCol _ _ _ _ _

theorem maxRectangle_corner_mem (S : Finset Position) (h : S.Nonempty) :
    (⟨(maxRectangle S h).min_row, (maxRectangle S h).min_column⟩ : Position) ∈
      (maxRectangle S h).positions := by
  obtain ⟨hspan, -⟩ := maxRectangle_good S h
  have harea := maxRectangle_area S h
  rw [Rectangle.area] at harea
  have hr1 : 1 ≤ (maxRectangle S h).max_row - (maxRectangle S h).min_row := by
    rcases lt_or_eq_of_le hspan with hlt | heq
    · omega
    · rw [← heq, zero_mul] at harea
      exact absurd harea (by omega)
  have hc1 : 1 ≤ (maxRectangle S h).max_column - (maxRectangle S h).min_column := by
    by_contra hneg
    push_neg at hneg
    have hle : ((maxRectangle S h).max_row - (maxRectangle S h).min_row) *
        ((maxRectangle S h).max_column - (maxRectangle S h).min_column) ≤ 0 :=
      mul_nonpos_iff.mpr (Or.inl ⟨by omega, by omega⟩)
    omega
  rw [mem_rectangle_positions]
  exact ⟨le_refl _, by simp only; omega, le_refl _, by simp only; omega⟩

theorem maxRectangle_card_lt (S : Finset Position) (h : S.Nonempty) :
    (S \ (maxRectangle S h).positions.toFinset).card < S.card := by
  obtain ⟨-, hsub⟩ := maxRectangle_good S h
  set x : Position := ⟨(maxRectangle S h).min_row, (maxRectangle S h).min_column⟩
  have hx1 : x ∈ (maxRectangle S h).positions := maxRectangle_corner_mem S h
  have hx2 : x ∈ S := hsub x hx1
  apply Finset.card_lt_card
  rw [Finset.ssubset_iff_of_subset (Finset.sdiff_subset)]
  refine ⟨x, hx2, ?_⟩
  rw [Finset.mem_sdiff]
  push_neg
  intro _
  rw [List.mem_toFinset]
  exact hx1

theorem rectanglesInternal_spec :
    ∀ (fuel : Nat) (S : Finset Position), S.card ≤ fuel →
      (List.Pairwise (fun R1 R2 => ∀ p ∈ R1.positions, p ∉ R2.positions)
        (rectanglesInternal fuel S)) ∧
      ∀ p : Position, p ∈ S ↔ ∃ R ∈ rectanglesInternal fuel S, p ∈ R.positions
  | 0, S, hfuel => by
    have hS : S = ∅ := Finset.card_eq_zero.mp (Nat.le_zero.mp hfuel)
    subst hS
    rw [rectanglesInternal]
    refine ⟨List.Pairwise.nil, ?_⟩
    intro p
    simp
  | fuel + 1, S, hfuel => by
    rw [rectanglesInternal]
    by_cases h : S.Nonempty
    · rw [dif_pos h]
      set M := maxRectangle S h with hM
      set S2 := S \ M.positions.toFinset with hS2
      have hcard : S2.card ≤ fuel := by
        have hlt := maxRectangle_card_lt S h
        rw [hS2, hM]
        omega
      obtain ⟨hpair, hunion⟩ := rectanglesInternal_spec fuel S2 hcard
      have hsubS2 : ∀ R ∈ rectanglesInternal fuel S2, ∀ p ∈ R.positions, p ∈ S2 := by
        intro R hR p hp
        exact (hunion p).mpr ⟨R, hR, hp⟩
      obtain ⟨-, hMsub⟩ := maxRectangle_good S h
      constructor
      · rw [List.pairwise_append]
        refine ⟨hpair, List.pairwise_singleton _ _, ?_⟩
        intro R1 hR1 R2 hR2 p hp
        rw [List.mem_singleton] at hR2
        subst hR2
        have hpS2 : p ∈ S2 := hsubS2 R1 hR1 p hp
        rw [hS2, Finset.mem_sdiff, List.mem_toFinset] at hpS2
        exact hpS2.2
      · intro p
        constructor
        · intro hp
          by_cases hpM : p ∈ M.positions
          · exact ⟨M, List.mem_append_right _ (List.mem_singleton_self M), hpM⟩
          · have hpS2 : p ∈ S2 := by
              rw [hS2, Finset.mem_sdiff, List.mem_toFinset]
              exact ⟨hp, hpM⟩
            obtain ⟨R, hR, hpR⟩ := (hunion p).mp hpS2
            exact ⟨R, List.mem_append_left _ hR, hpR⟩
        · rintro ⟨R, hR, hpR⟩
          rw [List.mem_append] at hR
          rcases hR with hR | hR
          · have := hsubS2 R hR p hpR
            rw [hS2, Finset.mem_sdiff] at this
            exact this.1
          · rw [List.mem_singleton] at hR
            subst hR
            exact hMsub p hpR
    · rw [dif_neg h]
      rw [Finset.not_nonempty_iff_eq_empty] at h
      subst h
      refine ⟨List.Pairwise.nil, ?_⟩
      intro p
      simp

/-- Claim C9: for every galaxy, any finite set of cell positions, the
list returned by the greedy rectangle decomposition consists of
pairwise disjoint rectangles whose cells together are exactly the
galaxy's cell set. -/
theorem c9_rectangles_partition (g : Galaxy) :
    List.Pairwise (fun R1 R2 => ∀ p ∈ R1.positions, p ∉ R2.positions)
      g.rectangles ∧
    ∀ p : Position, p ∈ g.positions ↔ ∃ R ∈ g.rectangles, p ∈ R.positions :=
  rectanglesInternal_spec g.positions.card g.positions (le_refl _)

open Solver

/-! The board and its textual rendering (`board.rs`). -/

/-- The board (`Board` in `board.rs`): dimensions and the set of
borders, including the outer frame and any internal borders
(`BTreeSet<Border>` becomes a `Finset`). -/
structure Board where
  width : Nat
  height : Nat
  borders : Finset Border
deriving DecidableEq

/-- The frame borders that `Board::new` inserts: the left and right
edge of every row, the top and bottom edge of every column. -/
def frameBorders (width height : Nat) : Finset Border :=
  (((List.range height).flatMap fun (r : Nat) =>
      [Border.left ⟨(r : Int), 0⟩, Border.left ⟨(r : Int), (width : Int)⟩]) ++
    ((List.range width).flatMap fun (c : Nat) =>
      [Border.up ⟨0, (c : Int)⟩, Border.up ⟨(height : Int), (c : Int)⟩])).toFinset

/-- The interior borders of a `width × height` board: the borders
between two adjacent grid cells (the only borders `add_border` /
`add_wall` can add beyond the frame, both being guarded by
`is_border_within_bounds`). -/
def interiorBorders (width height : Nat) : Finset Border :=
  ((rectanglePositions width height).flatMap fun p =>
    (p.adjacent.filter fun q => decide (q ∈ rectanglePositions width height)).map
      fun q => Border.new p q).toFinset

namespace Board

/-- The 16-glyph table of `Board::to_string`, read in the order
`(top, right, bottom, left)`; every glyph is two characters, the second
being `─` exactly when the border to the right of the vertex is
active. -/
def barsGlyph : Bool → Bool → Bool → Bool → List Char
  | false, false, false, false => [' ', ' ']
  | false, false, false, true => ['╴', ' ']
  | false, false, true, false => ['╷', ' ']
  | false, false, true, true => ['┐', ' ']
  | false, true, false, false => ['╶', '─']
  | false, true, false, true => ['─', '─']
  | false, true, true, false => ['┌', '─']
  | false, true, true, true => ['┬', '─']
  | true, false, false, false => ['╵', ' ']
  | true, false, false, true => ['┘', ' ']
  | true, false, true, false => ['│', ' ']
  | true, false, true, true => ['┤', ' ']
  | true, true, false, false => ['└', '─']
  | true, true, false, true => ['┴', '─']
  | true, true, true, false => ['├', '─']
  | true, true, true, true => ['┼', '─']

/-- The glyph decoder of `Board::from_string`, mapping a character to
`(top, right, bottom, left)`; unknown characters decode like a
space. -/
def decodeGlyph (ch : Char) : Bool × Bool × Bool × Bool :=
  if ch = '┼' then (true, true, true, true)
  else if ch = '├' then (true, true, true, false)
  else if ch = '┴' then (true, true, false, true)
  else if ch = '└' then (true, true, false, false)
  else if ch = '┤' then (true, false, true, true)
  else if ch = '│' then (true, false, true, false)
  else if ch = '┘' then (true, false, false, true)
  else if ch = '╵' then (true, false, false, false)
  else if ch = '┬' then (false, true, true, true)
  else if ch = '┌' then (false, true, true, false)
  else if ch = '─' then (false, true, false, true)
  else if ch = '╶' then (false, true, false, false)
  else if ch = '┐' then (false, false, true, true)
  else if ch = '╷' then (false, false, true, false)
  else if ch = '╴' then (false, false, false, true)
  else (false, false, false, false)

/-- The four border flags of the vertex at `(r, c)` as `Board::to_string`
computes them: `bottom_right = (r, c)`, `top_left = (r-1, c-1)`, and the
flags are the activity of `right(top_left)`, `up(bottom_right)`,
`left(bottom_right)` and `down(top_left)` in the order
`(top, right, bottom, left)`. -/
def vertexFlags (b : Board) (r c : Nat) : Bool × Bool × Bool × Bool :=
  (decide (Border.right ⟨(r : Int) - 1, (c : Int) - 1⟩ ∈ b.borders),
    decide (Border.up ⟨(r : Int), (c : Int)⟩ ∈ b.borders),
    decide (Border.left ⟨(r : Int), (c : Int)⟩ ∈ b.borders),
    decide (Border.down ⟨(r : Int) - 1, (c : Int) - 1⟩ ∈ b.borders))

/-- One rendered output row before trimming: the glyphs of the
vertices `(r, 0) … (r, width)`. -/
def renderRow (b : Board) (r : Nat) : List Char :=
  (List.range (b.width + 1)).flatMap fun c =>
    let f := b.vertexFlags r c
    barsGlyph f.1 f.2.1 f.2.2.1 f.2.2.2

/-- Rust `str::trim_end` on a rendered row; the renderer only ever
emits the space as whitespace, so trimming trailing whitespace is
dropping trailing spaces. -/
def trimEndSpaces (l : List Char) : List Char :=
  (l.reverse.dropWhile fun ch => decide (ch = ' ')).reverse

/-- The lines of `Board::to_string`: one trimmed row per `row` in
`0..=height`. -/
def toLines (b : Board) : List (List Char) :=
  (List.range (b.height + 1)).map fun r => trimEndSpaces (b.renderRow r)

/-- Joining the output lines with single newlines and no trailing
newline (`result.push('\n')` runs for every row but the last). -/
def joinLines : List (List Char) → List Char
  | [] => []
  | [l] => l
  | l :: rest => l ++ '\n' :: joinLines rest

/-- `Board::to_string` as a character list. -/
def toChars (b : Board) : List Char := joinLines b.toLines

/-- Rust `str::lines`: split on newlines, except that a trailing
newline produces no final empty line and the empty string has no
lines. -/
def rustLines (s : List Char) : List (List Char) :=
  if s = [] then []
  else if s.getLast? = some '\n' then (s.splitOn '\n').dropLast
  else s.splitOn '\n'

/-- The characters at even indices (`chars().step_by(2)`): the first
character of each two-character glyph. -/
def everyOther : List Char → List Char
  | [] => []
  | [a] => [a]
  | a :: _ :: rest => a :: everyOther rest

/-- The borders `Board::from_string` collects from one input line: for
each even-position character, decode it and insert `Border::up` of the
vertex when its `right` flag is set and `Border::left` when its
`bottom` flag is set. -/
def decodeLineBorders (row : Nat) (line : List Char) : List Border :=
  ((everyOther line).enum).flatMap fun e =>
    let f := decodeGlyph e.2
    (if f.2.1 then [Border.up ⟨(row : Int), (e.1 : Int)⟩] else []) ++
      (if f.2.2.1 then [Border.left ⟨(row : Int), (e.1 : Int)⟩] else [])

/-- `Board::from_string`: the width is half the first line's length
(after the corner), the height is one less than the number of lines,
and the borders are read off the glyphs.  `none` models the two
`usize` underflow panics: no lines at all (`lines().count() - 1`), and
an empty first line (`chars().count() - 1`). -/
def fromChars (s : List Char) : Option Board :=
  let lns := rustLines s
  match lns.head? with
  | none => none
  | some first =>
    if first.length = 0 then none
    else
      some ⟨(first.length - 1) / 2, lns.length - 1,
        ((lns.enum).flatMap fun e => decodeLineBorders e.1 e.2).toFinset⟩

/-- The boards the textual round-trip is claimed for: positive
dimensions, the full frame present, and every border either a frame
border or a border between two adjacent grid cells (the only boards
`Board::new` followed by `add_border` / `remove_border` / `add_wall` /
`remove_wall` can produce, since all of those refuse to touch borders
that are not strictly inside the grid). -/
def WFB (b : Board) : Prop :=
  1 ≤ b.width ∧ 1 ≤ b.height ∧ frameBorders b.width b.height ⊆ b.borders ∧
    ∀ bd ∈ b.borders, bd ∈ frameBorders b.width b.height ∨
      bd ∈ interiorBorders b.width b.height

instance (b : Board) : Decidable b.WFB := by
  unfold WFB; infer_instance

end Board

namespace Board

/-! Glyph table facts, all by enumeration of the sixteen flag
combinations. -/

theorem barsGlyph_eq (t r bo l : Bool) :
    barsGlyph t r bo l =
      [(barsGlyph t r bo l).headD ' ', if r = true then '─' else ' '] := by
  revert t r bo l
  decide

theorem decodeGlyph_headD (t r bo l : Bool) :
    decodeGlyph ((barsGlyph t r bo l).headD ' ') = (t, r, bo, l) := by
  revert t r bo l
  decide

theorem barsGlyph_headD_space (t r bo l : Bool) :
    ((barsGlyph t r bo l).headD ' ' = ' ') ↔
      (t = false ∧ r = false ∧ bo = false ∧ l = false) := by
  revert t r bo l
  decide

theorem newline_not_mem_barsGlyph (t r bo l : Bool) : '\n' ∉ barsGlyph t r bo l := by
  revert t r bo l
  decide

theorem posLe_def {p q : Position} : (p ≤ q) = (Position.toProd p ≤ Position.toProd q) := rfl

/-- The lexicographic order on positions, unfolded. -/
theorem posLe_iff {p q : Position} :
    p ≤ q ↔ p.row < q.row ∨ (p.row = q.row ∧ p.column ≤ q.column) := by
  rw [posLe_def]
  unfold Position.toProd
  exact Prod.lex_def

theorem Border.up_eq (p : Position) : Border.up p = ⟨p.up, p⟩ := by
  rw [Border.up, Border.new, if_pos]
  rw [posLe_iff]
  left
  simp [Position.up]

theorem Border.left_eq (p : Position) : Border.left p = ⟨p.left, p⟩ := by
  rw [Border.left, Border.new, if_pos]
  rw [posLe_iff]
  right
  simp [Position.left]

theorem Border.down_eq (p : Position) : Border.down p = ⟨p, p.down⟩ := by
  rw [Border.down, Border.new, if_pos]
  rw [posLe_iff]
  left
  simp [Position.down]

theorem Border.right_eq (p : Position) : Border.right p = ⟨p, p.right⟩ := by
  rw [Border.right, Border.new, if_pos]
  rw [posLe_iff]
  right
  simp [Position.right]

/-- Both endpoints of a canonicalized border are among the two
arguments. -/
theorem Border.new_endpoints (p q : Position) :
    ((Border.new p q).p1 = p ∨ (Border.new p q).p1 = q) ∧
      ((Border.new p q).p2 = p ∨ (Border.new p q).p2 = q) := by
  rw [Border.new]
  by_cases h : p ≤ q
  · rw [if_pos h]
    exact ⟨Or.inl rfl, Or.inr rfl⟩
  · rw [if_neg h]
    exact ⟨Or.inr rfl, Or.inl rfl⟩

/-! First characters, trimming, and line decoding. -/

theorem everyOther_flatMap_pairs (f g : Nat → Char) :
    ∀ cs : List Nat, everyOther (cs.flatMap fun c => [f c, g c]) = cs.map f := by
  intro cs
  induction cs with
  | nil => rfl
  | cons c cs ih =>
    show everyOther (f c :: g c :: cs.flatMap fun x => [f x, g x]) = f c :: cs.map f
    rw [everyOther, ih]

theorem mem_everyOther : ∀ (l : List Char), ∀ ch ∈ everyOther l, ch ∈ l
  | [], ch, h => by cases h
  | [a], ch, h => h
  | a :: b :: rest, ch, h => by
    rw [everyOther] at h
    rcases List.mem_cons.mp h with rfl | h'
    · exact List.mem_cons_self _ _
    · exact List.mem_cons_of_mem _ (List.mem_cons_of_mem _ (mem_everyOther rest ch h'))

theorem everyOther_append : ∀ (l₁ l₂ : List Char),
    ∃ rest, everyOther (l₁ ++ l₂) = everyOther l₁ ++ rest ∧ ∀ ch ∈ rest, ch ∈ l₂
  | [], l₂ => ⟨everyOther l₂, rfl, fun ch h => mem_everyOther l₂ ch h⟩
  | [a], l₂ => by
    match l₂ with
    | [] => exact ⟨[], by simp [everyOther], by simp⟩
    | b :: l₂' =>
      refine ⟨everyOther l₂', ?_, ?_⟩
      · show everyOther (a :: b :: l₂') = [a] ++ everyOther l₂'
        rw [everyOther]
        rfl
      · intro ch h
        exact List.mem_cons_of_mem _ (mem_everyOther l₂' ch h)
  | a :: b :: t, l₂ => by
    obtain ⟨rest, h1, h2⟩ := everyOther_append t l₂
    refine ⟨rest, ?_, h2⟩
    show everyOther (a :: b :: (t ++ l₂)) = (everyOther (a :: b :: t)) ++ rest
    rw [everyOther, everyOther, h1]
    rfl

theorem trimEndSpaces_spec (l : List Char) :
    ∃ suffix, l = trimEndSpaces l ++ suffix ∧ ∀ ch ∈ suffix, ch = ' ' := by
  refine ⟨(l.reverse.takeWhile fun ch => decide (ch = ' ')).reverse, ?_, ?_⟩
  · rw [trimEndSpaces]
    rw [← List.reverse_append, List.takeWhile_append_dropWhile, List.reverse_reverse]
  · intro ch h
    rw [List.mem_reverse] at h
    have := List.mem_takeWhile_imp h
    simpa using this

theorem trimEndSpaces_append_pair (xs : List Char) {d : Char} (hd : ¬d = ' ') :
    trimEndSpaces (xs ++ [d, ' ']) = xs ++ [d] := by
  rw [trimEndSpaces]
  rw [show (xs ++ [d, ' ']).reverse = ' ' :: d :: xs.reverse from by simp]
  rw [List.dropWhile_cons, if_pos (by simp), List.dropWhile_cons, if_neg (by simp [hd])]
  simp

theorem trimEndSpaces_ne_nil {l : List Char} {d : Char} (hh : l.head? = some d)
    (hd : ¬d = ' ') : trimEndSpaces l ≠ [] := by
  intro hnil
  obtain ⟨suffix, heq, hsp⟩ := trimEndSpaces_spec l
  rw [hnil, List.nil_append] at heq
  subst heq
  have : d ∈ l := by
    cases l with
    | nil => cases hh
    | cons a t =>
      rw [List.head?_cons] at hh
      injection hh with hh
      rw [hh]
      exact List.mem_cons_self _ _
  exact hd (hsp d this)

theorem mem_trimEndSpaces_sub {l : List Char} {ch : Char} (h : ch ∈ trimEndSpaces l) :
    ch ∈ l := by
  obtain ⟨suffix, heq, _⟩ := trimEndSpaces_spec l
  rw [heq]
  exact List.mem_append_left _ h

end Board

namespace Board

/-- The first character of the glyph at vertex `(r, c)`. -/
def fcChar (b : Board) (r c : Nat) : Char :=
  (barsGlyph (b.vertexFlags r c).1 (b.vertexFlags r c).2.1 (b.vertexFlags r c).2.2.1
    (b.vertexFlags r c).2.2.2).headD ' '

/-- The second character of the glyph at vertex `(r, c)`: a dash
exactly when the border right of the vertex is active. -/
def scChar (b : Board) (r c : Nat) : Char :=
  if (b.vertexFlags r c).2.1 = true then '─' else ' '

theorem flatMap_congr_chars {f g : Nat → List Char} :
    ∀ (l : List Nat), (∀ x ∈ l, f x = g x) → l.flatMap f = l.flatMap g := by
  intro l
  induction l with
  | nil => intro _; rfl
  | cons a t ih =>
    intro h
    rw [List.flatMap_cons, List.flatMap_cons, h a (List.mem_cons_self _ _),
      ih fun x hx => h x (List.mem_cons_of_mem _ hx)]

theorem flatMap_congr_borders {f g : Nat → List Border} :
    ∀ (l : List Nat), (∀ x ∈ l, f x = g x) → l.flatMap f = l.flatMap g := by
  intro l
  induction l with
  | nil => intro _; rfl
  | cons a t ih =>
    intro h
    rw [List.flatMap_cons, List.flatMap_cons, h a (List.mem_cons_self _ _),
      ih fun x hx => h x (List.mem_cons_of_mem _ hx)]

theorem renderRow_eq_pairs (b : Board) (r : Nat) :
    b.renderRow r = (List.range (b.width + 1)).flatMap fun c => [b.fcChar r c, b.scChar r c] := by
  rw [renderRow]
  refine flatMap_congr_chars _ fun c _ => ?_
  rw [barsGlyph_eq]
  rfl

theorem newline_not_mem_renderRow (b : Board) (r : Nat) : '\n' ∉ b.renderRow r := by
  rw [renderRow]
  intro h
  rw [List.mem_flatMap] at h
  obtain ⟨c, _, hmem⟩ := h
  exact newline_not_mem_barsGlyph _ _ _ _ hmem

/-- The borders decoded from a line do not change when an all-space
suffix is appended: space decodes to no flags. -/
theorem decodeLineBorders_append_spaces (row : Nat) (l₁ l₂ : List Char)
    (h2 : ∀ ch ∈ l₂, ch = ' ') :
    decodeLineBorders row (l₁ ++ l₂) = decodeLineBorders row l₁ := by
  obtain ⟨rest, hr, hrsub⟩ := everyOther_append l₁ l₂
  rw [decodeLineBorders, decodeLineBorders, hr, List.enum_append, List.flatMap_append]
  have hzero : (rest.enumFrom (everyOther l₁).length).flatMap (fun e =>
      let f := decodeGlyph e.2
      (if f.2.1 then [Border.up ⟨(row : Int), (e.1 : Int)⟩] else []) ++
        (if f.2.2.1 then [Border.left ⟨(row : Int), (e.1 : Int)⟩] else [])) = [] := by
    have : ∀ (start : Nat) (rest' : List Char), (∀ ch ∈ rest', ch = ' ') →
        (rest'.enumFrom start).flatMap (fun e =>
          let f := decodeGlyph e.2
          (if f.2.1 then [Border.up ⟨(row : Int), (e.1 : Int)⟩] else []) ++
            (if f.2.2.1 then [Border.left ⟨(row : Int), (e.1 : Int)⟩] else [])) = [] := by
      intro start rest' hall
      induction rest' generalizing start with
      | nil => rfl
      | cons a t ih =>
        rw [List.enumFrom_cons, List.flatMap_cons]
        have ha : a = ' ' := hall a (List.mem_cons_self _ _)
        subst ha
        rw [ih _ fun ch hch => hall ch (List.mem_cons_of_mem _ hch)]
        rfl
    exact this _ rest fun ch hch => h2 ch (hrsub ch hch)
  rw [hzero, List.append_nil]

theorem decodeLineBorders_trim (row : Nat) (l : List Char) :
    decodeLineBorders row (trimEndSpaces l) = decodeLineBorders row l := by
  obtain ⟨suffix, heq, hsp⟩ := trimEndSpaces_spec l
  conv_rhs => rw [heq]
  rw [decodeLineBorders_append_spaces row _ _ hsp]

theorem zip_self_map {α : Type} (f : Nat → α) :
    ∀ l : List Nat, l.zip (l.map f) = l.map fun c => (c, f c) := by
  intro l
  induction l with
  | nil => rfl
  | cons a t ih => rw [List.map_cons, List.zip_cons_cons, ih, List.map_cons]

theorem enum_map_range {α : Type} (f : Nat → α) (n : Nat) :
    ((List.range n).map f).enum = (List.range n).map fun c => (c, f c) := by
  rw [List.enum_eq_zip_range, List.length_map, List.length_range, zip_self_map]

/-- The borders decoded from the untrimmed rendering of row `r`: for
each vertex in the row, its `up` border if active and its `left`
border if active. -/
theorem decodeLineBorders_renderRow (b : Board) (r : Nat) :
    decodeLineBorders r (b.renderRow r) =
      (List.range (b.width + 1)).flatMap fun c =>
        (if Border.up ⟨(r : Int), (c : Int)⟩ ∈ b.borders
          then [Border.up ⟨(r : Int), (c : Int)⟩] else []) ++
        (if Border.left ⟨(r : Int), (c : Int)⟩ ∈ b.borders
          then [Border.left ⟨(r : Int), (c : Int)⟩] else []) := by
  rw [decodeLineBorders, renderRow_eq_pairs, everyOther_flatMap_pairs, enum_map_range,
    List.flatMap_map]
  refine flatMap_congr_borders _ fun c _ => ?_
  show (let f := decodeGlyph (b.fcChar r c)
    (if f.2.1 then [Border.up ⟨(r : Int), (c : Int)⟩] else []) ++
      (if f.2.2.1 then [Border.left ⟨(r : Int), (c : Int)⟩] else [])) = _
  rw [show decodeGlyph (b.fcChar r c) = ((b.vertexFlags r c).1, (b.vertexFlags r c).2.1,
    (b.vertexFlags r c).2.2.1, (b.vertexFlags r c).2.2.2) from decodeGlyph_headD _ _ _ _]
  show (if (b.vertexFlags r c).2.1 then [Border.up ⟨(r : Int), (c : Int)⟩] else []) ++
      (if (b.vertexFlags r c).2.2.1 then [Border.left ⟨(r : Int), (c : Int)⟩] else []) = _
  rw [show (b.vertexFlags r c).2.1 = decide (Border.up ⟨(r : Int), (c : Int)⟩ ∈ b.borders)
    from rfl]
  rw [show (b.vertexFlags r c).2.2.1 = decide (Border.left ⟨(r : Int), (c : Int)⟩ ∈ b.borders)
    from rfl]
  by_cases h1 : Border.up ⟨(r : Int), (c : Int)⟩ ∈ b.borders <;>
    by_cases h2 : Border.left ⟨(r : Int), (c : Int)⟩ ∈ b.borders <;>
    simp [h1, h2]

end Board

namespace Board

theorem mem_frameBorders {W H : Nat} {bd : Border} :
    bd ∈ frameBorders W H ↔
      (∃ r : Nat, r < H ∧
        (bd = Border.left ⟨(r : Int), 0⟩ ∨ bd = Border.left ⟨(r : Int), (W : Int)⟩)) ∨
      (∃ c : Nat, c < W ∧
        (bd = Border.up ⟨0, (c : Int)⟩ ∨ bd = Border.up ⟨(H : Int), (c : Int)⟩)) := by
  rw [frameBorders, List.mem_toFinset, List.mem_append]
  simp only [List.mem_flatMap, List.mem_range, List.mem_cons, List.not_mem_nil, or_false]

theorem mem_interiorBorders {W H : Nat} {bd : Border} :
    bd ∈ interiorBorders W H ↔
      ∃ p q : Position, p ∈ rectanglePositions W H ∧ q ∈ rectanglePositions W H ∧
        q ∈ p.adjacent ∧ bd = Border.new p q := by
  rw [interiorBorders, List.mem_toFinset]
  simp only [List.mem_flatMap, List.mem_map, List.mem_filter, decide_eq_true_eq]
  constructor
  · rintro ⟨p, hp, q, ⟨hqa, hqr⟩, rfl⟩
    exact ⟨p, q, hp, hqr, hqa, rfl⟩
  · rintro ⟨p, q, hp, hqr, hqa, rfl⟩
    exact ⟨p, hp, q, ⟨hqa, hqr⟩, rfl⟩

theorem interior_p1_row_nonneg {W H : Nat} {bd : Border}
    (h : bd ∈ interiorBorders W H) : 0 ≤ bd.p1.row := by
  rw [mem_interiorBorders] at h
  obtain ⟨p, q, hp, hq, _, rfl⟩ := h
  rw [mem_rectanglePositions] at hp hq
  rcases (Border.new_endpoints p q).1 with h1 | h1 <;> rw [h1] <;> omega

theorem up_topRight_not_mem (b : Board) (h : b.WFB) :
    Border.up ⟨0, (b.width : Int)⟩ ∉ b.borders := by
  intro hmem
  have hW := h.1
  have hH := h.2.1
  rcases h.2.2.2 _ hmem with hf | hi
  · rw [mem_frameBorders] at hf
    rcases hf with ⟨r, hr, hc | hc⟩ | ⟨c, hc, hc2 | hc2⟩
    · rw [Border.up_eq, Border.left_eq, Border.mk.injEq] at hc
      obtain ⟨h1, h2⟩ := hc
      simp [Position.ext_iff] at h2
      omega
    · rw [Border.up_eq, Border.left_eq, Border.mk.injEq] at hc
      obtain ⟨h1, h2⟩ := hc
      simp [Position.up, Position.left, Position.ext_iff] at h1
    · rw [Border.up_eq, Border.up_eq, Border.mk.injEq] at hc2
      obtain ⟨h1, h2⟩ := hc2
      simp [Position.ext_iff] at h2
      omega
    · rw [Border.up_eq, Border.up_eq, Border.mk.injEq] at hc2
      obtain ⟨h1, h2⟩ := hc2
      simp [Position.ext_iff] at h2
      omega
  · have := interior_p1_row_nonneg hi
    rw [Border.up_eq] at this
    simp [Position.up] at this

theorem flatMap_pairs_length (f g : Nat → Char) :
    ∀ l : List Nat, (l.flatMap fun c => [f c, g c]).length = 2 * l.length := by
  intro l
  induction l with
  | nil => rfl
  | cons a t ih =>
    rw [List.flatMap_cons, List.length_append, ih, List.length_cons]
    simp
    omega

theorem firstLine_length (b : Board) (h : b.WFB) :
    (trimEndSpaces (b.renderRow 0)).length = 2 * b.width + 1 := by
  have hsc : b.scChar 0 b.width = ' ' := by
    rw [scChar]
    rw [show (b.vertexFlags 0 b.width).2.1 =
      decide (Border.up ⟨(0 : Int), (b.width : Int)⟩ ∈ b.borders) from rfl]
    rw [decide_eq_false (up_topRight_not_mem b h)]
    rfl
  have hbot : Border.left ⟨(0 : Int), (b.width : Int)⟩ ∈ b.borders := by
    refine h.2.2.1 ?_
    rw [mem_frameBorders]
    exact Or.inl ⟨0, h.2.1, Or.inr (by norm_num)⟩
  have hfc : ¬b.fcChar 0 b.width = ' ' := by
    rw [fcChar, barsGlyph_headD_space]
    rintro ⟨-, -, hbo, -⟩
    rw [show (b.vertexFlags 0 b.width).2.2.1 =
      decide (Border.left ⟨(0 : Int), (b.width : Int)⟩ ∈ b.borders) from rfl,
      decide_eq_true hbot] at hbo
    cases hbo
  have hrow : b.renderRow 0 =
      ((List.range b.width).flatMap fun c => [b.fcChar 0 c, b.scChar 0 c]) ++
        [b.fcChar 0 b.width, ' '] := by
    rw [renderRow_eq_pairs, List.range_succ, List.flatMap_append, List.flatMap_cons,
      List.flatMap_nil, List.append_nil, hsc]
  rw [hrow, trimEndSpaces_append_pair _ hfc, List.length_append,
    flatMap_pairs_length, List.length_range, List.length_cons, List.length_nil]

end Board

namespace Board

theorem Border.new_up2 (p : Position) : Border.new p p.up = Border.up p := by
  rw [Border.up, Border.new_comm]

theorem Border.new_down2 (p : Position) : Border.new p p.down = Border.up p.down := by
  have hud : (p.down).up = p := by
    apply Position.ext_rc <;> simp [Position.up, Position.down]
  rw [Border.up, hud]

theorem Border.new_left2 (p : Position) : Border.new p p.left = Border.left p := by
  rw [Border.left, Border.new_comm]

theorem Border.new_right2 (p : Position) : Border.new p p.right = Border.left p.right := by
  have hrl : (p.right).left = p := by
    apply Position.ext_rc <;> simp [Position.left, Position.right]
  rw [Border.left, hrl]

/-- Membership in the border set collected by `from_string` applied to
the rendered lines. -/
theorem fromBorders_mem (b : Board) (bd : Border) :
    bd ∈ ((b.toLines.enum).flatMap fun e => decodeLineBorders e.1 e.2).toFinset ↔
      ∃ r c : Nat, r < b.height + 1 ∧ c < b.width + 1 ∧
        ((bd = Border.up ⟨(r : Int), (c : Int)⟩ ∨ bd = Border.left ⟨(r : Int), (c : Int)⟩) ∧
          bd ∈ b.borders) := by
  rw [List.mem_toFinset, toLines, enum_map_range, List.flatMap_map]
  rw [flatMap_congr_borders _ fun r _ =>
    (decodeLineBorders_trim r (b.renderRow r)).trans (decodeLineBorders_renderRow b r)]
  rw [List.mem_flatMap]
  constructor
  · rintro ⟨r, hr, hmem⟩
    rw [List.mem_flatMap] at hmem
    obtain ⟨c, hc, hbd⟩ := hmem
    rw [List.mem_range] at hr hc
    rw [List.mem_append] at hbd
    refine ⟨r, c, hr, hc, ?_⟩
    rcases hbd with hbd | hbd
    · by_cases hin : Border.up ⟨(r : Int), (c : Int)⟩ ∈ b.borders
      · rw [if_pos hin] at hbd
        rcases List.mem_singleton.mp hbd with rfl
        exact ⟨Or.inl rfl, hin⟩
      · rw [if_neg hin] at hbd
        cases hbd
    · by_cases hin : Border.left ⟨(r : Int), (c : Int)⟩ ∈ b.borders
      · rw [if_pos hin] at hbd
        rcases List.mem_singleton.mp hbd with rfl
        exact ⟨Or.inr rfl, hin⟩
      · rw [if_neg hin] at hbd
        cases hbd
  · rintro ⟨r, c, hr, hc, hform, hmem⟩
    refine ⟨r, List.mem_range.mpr hr, ?_⟩
    rw [List.mem_flatMap]
    refine ⟨c, List.mem_range.mpr hc, ?_⟩
    rw [List.mem_append]
    rcases hform with rfl | rfl
    · left
      rw [if_pos hmem]
      exact List.mem_singleton.mpr rfl
    · right
      rw [if_pos hmem]
      exact List.mem_singleton.mpr rfl

/-- Every border of a well-formed board is the `up` or `left` border of
one of the scanned vertices. -/
theorem borders_covered (b : Board) (h : b.WFB) {bd : Border} (hmem : bd ∈ b.borders) :
    ∃ r c : Nat, r < b.height + 1 ∧ c < b.width + 1 ∧
      (bd = Border.up ⟨(r : Int), (c : Int)⟩ ∨ bd = Border.left ⟨(r : Int), (c : Int)⟩) := by
  rcases h.2.2.2 _ hmem with hf | hi
  · rw [mem_frameBorders] at hf
    rcases hf with ⟨r, hr, hc | hc⟩ | ⟨c, hc, hc2 | hc2⟩
    · exact ⟨r, 0, by omega, by omega, Or.inr (by norm_num [hc])⟩
    · exact ⟨r, b.width, by omega, by omega, Or.inr hc⟩
    · exact ⟨0, c, by omega, by omega, Or.inl (by norm_num [hc2])⟩
    · exact ⟨b.height, c, by omega, by omega, Or.inl hc2⟩
  · rw [mem_interiorBorders] at hi
    obtain ⟨p, q, hp, hq, hadj, rfl⟩ := hi
    rw [mem_rectanglePositions] at hp hq
    rw [Position.mem_adjacent_iff] at hadj
    have hpe : p = ⟨(p.row.toNat : Int), (p.column.toNat : Int)⟩ := by
      apply Position.ext_rc <;> simp <;> omega
    rcases hadj with ⟨h1, h2⟩ | ⟨h1, h2⟩ | ⟨h1, h2⟩ | ⟨h1, h2⟩
    · have hqe : q = p.up := by
        apply Position.ext_rc <;> simp [Position.up] <;> omega
      subst hqe
      refine ⟨p.row.toNat, p.column.toNat, by omega, by omega, Or.inl ?_⟩
      rw [← Border.new_up2, ← hpe]
    · have hqe : q = p.down := by
        apply Position.ext_rc <;> simp [Position.down] <;> omega
      subst hqe
      refine ⟨p.row.toNat + 1, p.column.toNat, by omega, by omega, Or.inl ?_⟩
      have hlit : (⟨((p.row.toNat + 1 : Nat) : Int), ((p.column.toNat : Nat) : Int)⟩ :
          Position) = (⟨(p.row.toNat : Int), (p.column.toNat : Int)⟩ : Position).down := by
        apply Position.ext_rc <;> simp [Position.down] <;> omega
      rw [hlit, ← Border.new_down2, ← hpe]
    · have hqe : q = p.left := by
        apply Position.ext_rc <;> simp [Position.left] <;> omega
      subst hqe
      refine ⟨p.row.toNat, p.column.toNat, by omega, by omega, Or.inr ?_⟩
      rw [← Border.new_left2, ← hpe]
    · have hqe : q = p.right := by
        apply Position.ext_rc <;> simp [Position.right] <;> omega
      subst hqe
      refine ⟨p.row.toNat, p.column.toNat + 1, by omega, by omega, Or.inr ?_⟩
      have hlit : (⟨((p.row.toNat : Nat) : Int), ((p.column.toNat + 1 : Nat) : Int)⟩ :
          Position) = (⟨(p.row.toNat : Int), (p.column.toNat : Int)⟩ : Position).right := by
        apply Position.ext_rc <;> simp [Position.right] <;> omega
      rw [hlit, ← Border.new_right2, ← hpe]

/-- The reconstructed border set equals the original. -/
theorem decoded_eq_borders (b : Board) (h : b.WFB) :
    ((b.toLines.enum).flatMap fun e => decodeLineBorders e.1 e.2).toFinset = b.borders := by
  ext bd
  rw [fromBorders_mem]
  constructor
  · rintro ⟨r, c, _, _, _, hmem⟩
    exact hmem
  · intro hmem
    obtain ⟨r, c, hr, hc, hform⟩ := borders_covered b h hmem
    exact ⟨r, c, hr, hc, hform, hmem⟩

end Board

namespace Board

theorem splitOn_of_not_mem : ∀ (l : List Char), '\n' ∉ l → l.splitOn '\n' = [l] := by
  intro l
  induction l with
  | nil => intro _; rfl
  | cons a t ih =>
    intro h
    have ha : ¬a = '\n' := fun hh => h (hh ▸ List.mem_cons_self _ _)
    rw [List.splitOn, List.splitOnP_cons, if_neg (by simpa using ha)]
    have ht := ih fun hh => h (List.mem_cons_of_mem _ hh)
    rw [List.splitOn] at ht
    rw [ht]
    rfl

theorem splitOn_append_newline : ∀ (l t : List Char), '\n' ∉ l →
    (l ++ '\n' :: t).splitOn '\n' = l :: t.splitOn '\n' := by
  intro l
  induction l with
  | nil =>
    intro t _
    rw [List.nil_append, List.splitOn, List.splitOnP_cons, if_pos (by simp)]
    rfl
  | cons a l' ih =>
    intro t h
    have ha : ¬a = '\n' := fun hh => h (hh ▸ List.mem_cons_self _ _)
    rw [List.cons_append, List.splitOn, List.splitOnP_cons, if_neg (by simpa using ha)]
    have ht := ih t fun hh => h (List.mem_cons_of_mem _ hh)
    rw [List.splitOn] at ht
    rw [ht]
    rfl

theorem splitOn_joinLines : ∀ (ls : List (List Char)), ls ≠ [] →
    (∀ l ∈ ls, '\n' ∉ l) → (joinLines ls).splitOn '\n' = ls
  | [], h, _ => absurd rfl h
  | [l], _, hnl => by
    rw [joinLines, splitOn_of_not_mem l (hnl l (List.mem_cons_self _ _))]
  | l :: l2 :: t, _, hnl => by
    rw [show joinLines (l :: l2 :: t) = l ++ '\n' :: joinLines (l2 :: t) from rfl]
    rw [splitOn_append_newline _ _ (hnl l (List.mem_cons_self _ _))]
    rw [splitOn_joinLines (l2 :: t) (by simp) fun x hx => hnl x (List.mem_cons_of_mem _ hx)]

theorem joinLines_ne_nil (init : List (List Char)) (last : List Char) (hne : last ≠ []) :
    joinLines (init ++ [last]) ≠ [] := by
  cases init with
  | nil => exact hne
  | cons l t =>
    rw [show joinLines ((l :: t) ++ [last]) = l ++ '\n' :: joinLines (t ++ [last]) from by
      cases t <;> rfl]
    simp

theorem joinLines_getLast? : ∀ (init : List (List Char)) (last : List Char), last ≠ [] →
    (joinLines (init ++ [last])).getLast? = last.getLast?
  | [], last, _ => rfl
  | l :: init, last, hne => by
    have hrec := joinLines_getLast? init last hne
    have hjoin : joinLines ((l :: init) ++ [last]) =
        l ++ '\n' :: joinLines (init ++ [last]) := by
      cases init with
      | nil => rfl
      | cons x t => rfl
    rw [hjoin]
    rw [List.getLast?_append_cons l '\n' (joinLines (init ++ [last]))]
    have hne3 : joinLines (init ++ [last]) ≠ [] := joinLines_ne_nil init last hne
    rw [show ('\n' :: joinLines (init ++ [last]) : List Char) =
      ['\n'] ++ joinLines (init ++ [last]) from rfl]
    rw [List.getLast?_append_of_ne_nil ['\n'] hne3]
    exact hrec

theorem rustLines_joinLines (init : List (List Char)) (last : List Char)
    (hnl : ∀ l ∈ init ++ [last], '\n' ∉ l) (hne : last ≠ []) :
    rustLines (joinLines (init ++ [last])) = init ++ [last] := by
  rw [rustLines, if_neg (joinLines_ne_nil init last hne)]
  have hlast : (joinLines (init ++ [last])).getLast? = last.getLast? :=
    joinLines_getLast? init last hne
  have hnotn : ¬(joinLines (init ++ [last])).getLast? = some '\n' := by
    rw [hlast]
    intro hsome
    obtain ⟨hne2, heq⟩ := List.mem_getLast?_eq_getLast hsome
    have hmem : '\n' ∈ last := heq ▸ List.getLast_mem hne2
    exact hnl last (List.mem_append_right _ (List.mem_cons_self _ _)) hmem
  rw [if_neg hnotn]
  exact splitOn_joinLines _ (by simp) hnl

theorem newline_not_mem_toLines (b : Board) : ∀ l ∈ b.toLines, '\n' ∉ l := by
  intro l hl
  rw [toLines, List.mem_map] at hl
  obtain ⟨r, _, rfl⟩ := hl
  intro hmem
  exact newline_not_mem_renderRow b r (mem_trimEndSpaces_sub hmem)

theorem lastLine_ne_nil (b : Board) (h : b.WFB) :
    trimEndSpaces (b.renderRow b.height) ≠ [] := by
  have hup : Border.up ⟨(b.height : Int), (0 : Int)⟩ ∈ b.borders := by
    refine h.2.2.1 ?_
    rw [mem_frameBorders]
    exact Or.inr ⟨0, h.1, Or.inr (by norm_num)⟩
  have hfc : ¬b.fcChar b.height 0 = ' ' := by
    rw [fcChar, barsGlyph_headD_space]
    rintro ⟨-, hr2, -, -⟩
    rw [show (b.vertexFlags b.height 0).2.1 =
      decide (Border.up ⟨(b.height : Int), ((0 : Nat) : Int)⟩ ∈ b.borders) from rfl] at hr2
    rw [decide_eq_true (by norm_num [hup])] at hr2
    cases hr2
  have hhead : (b.renderRow b.height).head? = some (b.fcChar b.height 0) := by
    rw [renderRow_eq_pairs]
    rw [show List.range (b.width + 1) = 0 :: (List.range b.width).map Nat.succ from
      List.range_succ_eq_map _]
    rfl
  exact trimEndSpaces_ne_nil hhead hfc

theorem toLines_decomp (b : Board) :
    b.toLines = ((List.range b.height).map fun r => trimEndSpaces (b.renderRow r)) ++
      [trimEndSpaces (b.renderRow b.height)] := by
  rw [toLines, List.range_succ, List.map_append]
  rfl

/-- For every well-formed board the text rendering parses back to the
very same board. -/
theorem roundTrip (b : Board) (h : b.WFB) : fromChars (toChars b) = some b := by
  have hlines : rustLines (toChars b) = b.toLines := by
    rw [toChars]
    conv_lhs => rw [toLines_decomp b]
    rw [rustLines_joinLines _ _ (by rw [← toLines_decomp b]; exact newline_not_mem_toLines b)
      (lastLine_ne_nil b h)]
    rw [← toLines_decomp b]
  have hhead : b.toLines.head? = some (trimEndSpaces (b.renderRow 0)) := by
    rw [toLines]
    rw [show List.range (b.height + 1) = 0 :: (List.range b.height).map Nat.succ from
      List.range_succ_eq_map _]
    rfl
  have hfl := firstLine_length b h
  rw [fromChars, hlines, hhead]
  dsimp only
  have hlen0 : ¬(trimEndSpaces (b.renderRow 0)).length = 0 := by
    rw [hfl]
    omega
  rw [if_neg hlen0]
  have hwidth : ((trimEndSpaces (b.renderRow 0)).length - 1) / 2 = b.width := by
    rw [hfl]
    omega
  have hheight : b.toLines.length - 1 = b.height := by
    rw [toLines, List.length_map, List.length_range]
    omega
  rw [hwidth, hheight, decoded_eq_borders b h]

end Board

/-- Claim C8 (corrected): for every well-formed board, meaning positive
dimensions, full frame present, and every border either on the frame or
strictly inside the grid, parsing the textual rendering returns exactly
the original board. -/
theorem c8_board_text_round_trip (b : Board) (h : b.WFB) :
    Board.fromChars (Board.toChars b) = some b :=
  Board.roundTrip b h

/-- Counterexample to claim C8 as stated: the board of width 2 and height 1
whose only border is the upper border of cell (0, 0) has positive
dimensions, yet its rendering parses back to a different board of width 1
and height 0. -/
theorem c8_board_text_round_trip_counterexample :
    (1 ≤ (⟨2, 1, {Border.up ⟨0, 0⟩}⟩ : Board).width ∧
      1 ≤ (⟨2, 1, {Border.up ⟨0, 0⟩}⟩ : Board).height) ∧
    Board.fromChars (Board.toChars ⟨2, 1, {Border.up ⟨0, 0⟩}⟩) ≠
      some ⟨2, 1, {Border.up ⟨0, 0⟩}⟩ := by
  refine ⟨⟨by decide, by decide⟩, ?_⟩
  decide

/-- Witness for claim C8: the 1 by 1 board carrying exactly its frame is
well formed and round-trips through the text format. -/
theorem c8_board_text_round_trip_witness :
    (⟨1, 1, frameBorders 1 1⟩ : Board).WFB ∧
    Board.fromChars (Board.toChars ⟨1, 1, frameBorders 1 1⟩) =
      some ⟨1, 1, frameBorders 1 1⟩ :=
  ⟨by decide, c8_board_text_round_trip _ (by decide)⟩

end Laniakea
